import Mathlib

/-!
Verification of the storage manager (`compiler/gen_dev/src/generic64/storage.rs`)
and the surgical ELF linker (`linker/src/lib.rs`) of the repository.

The Rust code is shallowly embedded:
* `MutMap` (a hash map) is modelled as an association list with unique keys
  (`mapGet` / `mapInsert` / `mapRemove` mirror `get` / `insert` / `remove`),
* `Vec` is modelled as `List` (`push` appends, `pop` takes the last element,
  `remove i` erases at index `i`, `insert i` inserts at index `i`),
* `Rc<(i32, u32)>` is modelled as a pair of an allocation id (pointer identity)
  and the payload; the strong count of an `Rc` is the number of map entries
  holding the same id,
* machine integers are `Nat` / `Int` with explicit wrap-around where the code
  relies on it,
* `internal_error!` / `todo!` and `debug_assert!` (a fatal abort in checked
  builds) are modelled as `Option.none`,
* the emit buffer `buf` is not modelled: the assembler calls only append bytes
  to it and never influence the storage manager's own state.
-/

/-- Lookup in a `MutMap` modelled as an association list (`MutMap::get`). -/
def mapGet {α : Type} : List (Nat × α) → Nat → Option α
  | [], _ => none
  | (k2, v) :: rest, k => if k2 = k then some v else mapGet rest k

/-- Insert into a `MutMap`: overwrite the existing binding or append a new one
(`MutMap::insert`). -/
def mapInsert {α : Type} : List (Nat × α) → Nat → α → List (Nat × α)
  | [], k, v => [(k, v)]
  | (k2, v2) :: rest, k, v =>
      if k2 = k then (k, v) :: rest else (k2, v2) :: mapInsert rest k v

/-- Remove a binding from a `MutMap` (`MutMap::remove`). -/
def mapRemove {α : Type} : List (Nat × α) → Nat → List (Nat × α)
  | [], _ => []
  | (k2, v2) :: rest, k =>
      if k2 = k then rest else (k2, v2) :: mapRemove rest k

/-- Insert into a `MutSet` (`MutSet::insert`): a no-op when already present. -/
def setInsert (l : List Nat) (x : Nat) : List Nat :=
  if x ∈ l then l else l ++ [x]

/-- `Vec::pop`: remove and return the last element. -/
def vecPop {α : Type} (l : List α) : Option (α × List α) :=
  match l.getLast? with
  | some x => some (x, l.dropLast)
  | none => none

/-- Round `n` up to a multiple of 8, as `claim_stack_size` does. -/
def roundUp8 (n : Nat) : Nat :=
  if n % 8 ≠ 0 then n + 8 - n % 8 else n

/-- `RegStorage` from `storage.rs`: a general or a float physical register.
Registers of the target architecture are opaque; we model them as `Nat`. -/
inductive RegStorage where
  | general (r : Nat)
  | float (r : Nat)
deriving DecidableEq, Repr

/-- `StackStorage` from `storage.rs`. -/
inductive StackStorage where
  | primitive (baseOffset : Int) (reg : Option RegStorage)
  | referencedPrimitive (baseOffset : Int) (size : Nat) (signExtend : Bool)
  | complex (baseOffset : Int) (size : Nat)
deriving DecidableEq, Repr

/-- `Storage` from `storage.rs`. -/
inductive Storage where
  | reg (r : RegStorage)
  | stack (s : StackStorage)
  | noData
deriving DecidableEq, Repr

/-- The calling-convention collaborator (`CallConv`): default free register
lists and the callee/caller-saved predicates. -/
structure CallConv where
  generalDefaultFreeRegs : List Nat
  floatDefaultFreeRegs : List Nat
  generalCalleeSaved : Nat → Bool
  floatCalleeSaved : Nat → Bool
  generalCallerSaved : Nat → Bool
  floatCallerSaved : Nat → Bool

/-- The state of `StorageManager` from `storage.rs`.  An entry of
`allocationMap` is `(symbol, (allocId, baseOffset, size))`: the `Rc<(i32,u32)>`
is modelled by an allocation id (its pointer identity) plus the payload, and
`nextAllocId` is a counter producing fresh ids for `Rc::new`. -/
structure SM where
  symbolStorageMap : List (Nat × Storage)
  allocationMap : List (Nat × (Nat × Int × Nat))
  joinParamMap : List (Nat × List Storage)
  generalFreeRegs : List Nat
  floatFreeRegs : List Nat
  generalUsedRegs : List (Nat × Nat)
  floatUsedRegs : List (Nat × Nat)
  generalUsedCalleeSavedRegs : List Nat
  floatUsedCalleeSavedRegs : List Nat
  freeStackChunks : List (Int × Nat)
  stackSize : Nat
  fnCallStackSize : Nat
  nextAllocId : Nat
deriving DecidableEq, Repr

/-- `StorageManager::reset` applied to an empty manager (the state every
generation starts from). -/
def resetSM (cc : CallConv) : SM where
  symbolStorageMap := []
  allocationMap := []
  joinParamMap := []
  generalFreeRegs := cc.generalDefaultFreeRegs
  floatFreeRegs := cc.floatDefaultFreeRegs
  generalUsedRegs := []
  floatUsedRegs := []
  generalUsedCalleeSavedRegs := []
  floatUsedCalleeSavedRegs := []
  freeStackChunks := []
  stackSize := 0
  fnCallStackSize := 0
  nextAllocId := 0

/-- The `iter().enumerate().filter(size ≥ amount).min_by_key(size)` chain of
`claim_stack_size`, written as the fold Rust's `min_by_key` performs: the
accumulator keeps the first element whose key is minimal. -/
def minBySizeGo (best : Nat × Int × Nat) : List (Nat × Int × Nat) → Nat × Int × Nat
  | [] => best
  | x :: rest => minBySizeGo (if x.2.2 < best.2.2 then x else best) rest

/-- Find the best-fitting free chunk: index, offset and size of the first
smallest chunk whose size is at least `amount`. -/
def findBestFit (chunks : List (Int × Nat)) (amount : Nat) : Option (Nat × Int × Nat) :=
  match (chunks.enum.filter (fun ic => amount ≤ ic.2.2)).map
      (fun ic => (ic.1, ic.2.1, ic.2.2)) with
  | [] => none
  | x :: rest => some (minBySizeGo x rest)

/-- `StorageManager::claim_stack_size`: round the request up to a multiple
of 8, serve it from the best-fitting free chunk, or grow the stack.  The
`debug_assert!(amount > 0)` and the `i32::MAX` overflow check are fatal. -/
def claimStackSize (s : SM) (amount : Nat) : Option (Int × SM) :=
  if amount = 0 then none
  else
    match findBestFit s.freeStackChunks (roundUp8 amount) with
    | some (pos, offset, size) =>
        if size = roundUp8 amount then
          some (offset, { s with freeStackChunks := s.freeStackChunks.eraseIdx pos })
        else
          some (offset, { s with freeStackChunks :=
            s.freeStackChunks.set pos (offset + roundUp8 amount, size - roundUp8 amount) })
    | none =>
        if s.stackSize + roundUp8 amount > 2147483647 then none
        else some (-((s.stackSize + roundUp8 amount : Nat) : Int),
          { s with stackSize := s.stackSize + roundUp8 amount })

/-- `Vec::binary_search(&loc).unwrap_or_else(|e| e)` on the sorted free-chunk
list: the index of the first chunk that is not lexicographically below `loc`
(the element's index when present, the insertion point otherwise). -/
def insertPos : List (Int × Nat) → Int × Nat → Nat
  | [], _ => 0
  | c :: rest, loc =>
      if c.1 < loc.1 ∨ (c.1 = loc.1 ∧ c.2 < loc.2) then insertPos rest loc + 1 else 0

/-- `StorageManager::free_stack_chunk` on the free-chunk list: insert
`(baseOffset, size)` at its sorted position, coalescing with a previous or next
chunk that exactly touches it; any overlap is a double free (fatal). -/
def freeChunk (chunks : List (Int × Nat)) (baseOffset : Int) (size : Nat) :
    Option (List (Int × Nat)) :=
  let loc := (baseOffset, size)
  let pos := insertPos chunks loc
  let prevCheck : Option Bool :=
    if pos = 0 then some false
    else
      match chunks.get? (pos - 1) with
      | some (prevOffset, prevSize) =>
          if baseOffset < prevOffset + prevSize then none
          else some (prevOffset + prevSize = baseOffset)
      | none => some false
  match prevCheck with
  | none => none
  | some mergePrev =>
    let nextCheck : Option Bool :=
      match chunks.get? pos with
      | some (nextOffset, _) =>
          if nextOffset < baseOffset + size then none
          else some (baseOffset + size = nextOffset)
      | none => some false
    match nextCheck with
    | none => none
    | some mergeNext =>
      match mergePrev, mergeNext with
      | true, true =>
          match chunks.get? (pos - 1), chunks.get? pos with
          | some (prevOffset, prevSize), some (_, nextSize) =>
              some (((chunks.set (pos - 1)
                (prevOffset, prevSize + size + nextSize)).eraseIdx pos))
          | _, _ => none
      | true, false =>
          match chunks.get? (pos - 1) with
          | some (prevOffset, prevSize) =>
              some (chunks.set (pos - 1) (prevOffset, prevSize + size))
          | none => none
      | false, true =>
          match chunks.get? pos with
          | some (_, nextSize) =>
              some (chunks.set pos (baseOffset, nextSize + size))
          | none => none
      | false, false => some (chunks.insertIdx pos loc)

/-- `free_stack_chunk` as a storage-manager operation. -/
def freeStackChunkSM (s : SM) (baseOffset : Int) (size : Nat) : Option SM :=
  match freeChunk s.freeStackChunks baseOffset size with
  | some chunks => some { s with freeStackChunks := chunks }
  | none => none

/-- `StorageManager::free_to_stack`: spill the register held by `sym` to the
stack.  The `debug_assert_eq!(reg_storage, wanted_reg)` and the
`internal_error!` branches are fatal. -/
def freeToStack (s : SM) (sym : Nat) (wantedReg : RegStorage) : Option SM :=
  match mapGet s.symbolStorageMap sym with
  | none => none
  | some storage =>
    let s1 : SM := { s with symbolStorageMap := mapRemove s.symbolStorageMap sym }
    match storage with
    | .reg regStorage =>
        if regStorage = wantedReg then
          match claimStackSize s1 8 with
          | some (baseOffset, s2) =>
              let m2 := mapInsert s2.symbolStorageMap sym (.stack (.primitive baseOffset none))
              some { s2 with symbolStorageMap := m2 }
          | none => none
        else none
    | .stack (.primitive baseOffset (some regStorage)) =>
        if regStorage = wantedReg then
          let m2 := mapInsert s1.symbolStorageMap sym (.stack (.primitive baseOffset none))
          some { s1 with symbolStorageMap := m2 }
        else none
    | _ => none

/-- `StorageManager::get_general_reg`: pop a free register (tracking touched
callee-saved registers) or evict the register at position 0 of the used list,
spilling its occupant via `free_to_stack`. -/
def getGeneralReg (cc : CallConv) (s : SM) : Option (Nat × SM) :=
  match vecPop s.generalFreeRegs with
  | some (reg, rest) =>
      if cc.generalCalleeSaved reg then
        some (reg, { s with
                     generalFreeRegs := rest,
                     generalUsedCalleeSavedRegs :=
                       setInsert s.generalUsedCalleeSavedRegs reg })
      else
        some (reg, { s with generalFreeRegs := rest })
  | none =>
      match s.generalUsedRegs with
      | [] => none
      | (reg, sym) :: rest =>
          match freeToStack { s with generalUsedRegs := rest } sym (.general reg) with
          | some s2 => some (reg, s2)
          | none => none

/-- `StorageManager::get_float_reg`, symmetric to `getGeneralReg`. -/
def getFloatReg (cc : CallConv) (s : SM) : Option (Nat × SM) :=
  match vecPop s.floatFreeRegs with
  | some (reg, rest) =>
      if cc.floatCalleeSaved reg then
        some (reg, { s with
                     floatFreeRegs := rest,
                     floatUsedCalleeSavedRegs :=
                       setInsert s.floatUsedCalleeSavedRegs reg })
      else
        some (reg, { s with floatFreeRegs := rest })
  | none =>
      match s.floatUsedRegs with
      | [] => none
      | (reg, sym) :: rest =>
          match freeToStack { s with floatUsedRegs := rest } sym (.float reg) with
          | some s2 => some (reg, s2)
          | none => none

/-- `StorageManager::claim_general_reg`.  The
`debug_assert_eq!(self.symbol_storage_map.get(sym), None)` is fatal. -/
def claimGeneralReg (cc : CallConv) (s : SM) (sym : Nat) : Option (Nat × SM) :=
  if (mapGet s.symbolStorageMap sym).isSome then none
  else
    match getGeneralReg cc s with
    | some (reg, s2) =>
        let s3 : SM :=
          { s2 with
            generalUsedRegs := s2.generalUsedRegs ++ [(reg, sym)],
            symbolStorageMap := mapInsert s2.symbolStorageMap sym (.reg (.general reg)) }
        some (reg, s3)
    | none => none

/-- `StorageManager::claim_float_reg`. -/
def claimFloatReg (cc : CallConv) (s : SM) (sym : Nat) : Option (Nat × SM) :=
  if (mapGet s.symbolStorageMap sym).isSome then none
  else
    match getFloatReg cc s with
    | some (reg, s2) =>
        let s3 : SM :=
          { s2 with
            floatUsedRegs := s2.floatUsedRegs ++ [(reg, sym)],
            symbolStorageMap := mapInsert s2.symbolStorageMap sym (.reg (.float reg)) }
        some (reg, s3)
    | none => none

/-- `StorageManager::with_tmp_general_reg`: acquire a register, run the
callback, then push the register back on the free list. -/
def withTmpGeneralReg (cc : CallConv) (s : SM) (callback : SM → Nat → SM) : Option SM :=
  match getGeneralReg cc s with
  | some (reg, s2) =>
      let s3 := callback s2 reg
      some { s3 with generalFreeRegs := s3.generalFreeRegs ++ [reg] }
  | none => none

/-- `StorageManager::with_tmp_float_reg`. -/
def withTmpFloatReg (cc : CallConv) (s : SM) (callback : SM → Nat → SM) : Option SM :=
  match getFloatReg cc s with
  | some (reg, s2) =>
      let s3 := callback s2 reg
      some { s3 with floatFreeRegs := s3.floatFreeRegs ++ [reg] }
  | none => none

/-- `StorageManager::claim_stack_area`: allocate, record a `Complex`
descriptor and a fresh allocation handle (`Rc::new((base_offset, size))`). -/
def claimStackArea (s : SM) (sym : Nat) (size : Nat) : Option (Int × SM) :=
  match claimStackSize s size with
  | some (baseOffset, s2) =>
      let s3 : SM :=
        { s2 with
          symbolStorageMap :=
            mapInsert s2.symbolStorageMap sym (.stack (.complex baseOffset size)),
          allocationMap :=
            mapInsert s2.allocationMap sym (s2.nextAllocId, baseOffset, size),
          nextAllocId := s2.nextAllocId + 1 }
      some (baseOffset, s3)
  | none => none

/-- `StorageManager::free_reference`: drop the symbol's allocation handle and
return the chunk to the free list when the strong count reaches one, i.e. when
no other map entry holds the same `Rc` (the same allocation id). -/
def freeReference (s : SM) (sym : Nat) : Option SM :=
  match mapGet s.allocationMap sym with
  | none => none
  | some (allocId, baseOffset, size) =>
      let rest := mapRemove s.allocationMap sym
      if rest.any (fun e => e.2.1 = allocId) then
        some { s with allocationMap := rest }
      else
        match freeChunk s.freeStackChunks baseOffset size with
        | some chunks => some { s with allocationMap := rest, freeStackChunks := chunks }
        | none => none

/-- The `for i in 0..used.len()` loops of `free_symbol`: return the first
matching register to the free list and drop its used entry. -/
def freeRegScan (used : List (Nat × Nat)) (free : List Nat) (sym : Nat) :
    List (Nat × Nat) × List Nat :=
  match used with
  | [] => ([], free)
  | (reg, s2) :: rest =>
      if s2 = sym then (rest, free ++ [reg])
      else
        let res := freeRegScan rest free sym
        ((reg, s2) :: res.1, res.2)

/-- `StorageManager::free_symbol`: join points are dropped from the join map;
otherwise the storage descriptor is removed, stack chunks are released, and a
register held by the symbol is returned to its free list. -/
def freeSymbol (s : SM) (sym : Nat) : Option SM :=
  if (mapGet s.joinParamMap sym).isSome then
    some { s with joinParamMap := mapRemove s.joinParamMap sym }
  else
    let storage := mapGet s.symbolStorageMap sym
    let s1 : SM := { s with symbolStorageMap := mapRemove s.symbolStorageMap sym }
    let afterChunks : Option SM :=
      match storage with
      | some (.stack (.primitive baseOffset _)) => freeStackChunkSM s1 baseOffset 8
      | some (.stack (.complex _ _)) => freeReference s1 sym
      | some (.stack (.referencedPrimitive _ _ _)) => freeReference s1 sym
      | _ => some s1
    match afterChunks with
    | none => none
    | some s2 =>
        let g := freeRegScan s2.generalUsedRegs s2.generalFreeRegs sym
        let f := freeRegScan s2.floatUsedRegs s2.floatFreeRegs sym
        some
          { s2 with
            generalUsedRegs := g.1, generalFreeRegs := g.2,
            floatUsedRegs := f.1, floatFreeRegs := f.2 }

/-! Basic facts about the association-list model of `MutMap` and the
register-scan loop of `free_symbol`. -/

theorem mapGet_of_not_mem_keys {α : Type} (m : List (Nat × α)) (k : Nat)
    (h : ∀ e ∈ m, e.1 ≠ k) : mapGet m k = none := by
  induction m with
  | nil => rfl
  | cons e rest ih =>
      obtain ⟨k2, v⟩ := e
      have hk : k2 ≠ k := h (k2, v) (List.mem_cons_self _ _)
      simp only [mapGet, if_neg hk]
      exact ih (fun e he => h e (List.mem_cons_of_mem _ he))

theorem mapRemove_of_get_none {α : Type} (m : List (Nat × α)) (k : Nat)
    (h : mapGet m k = none) : mapRemove m k = m := by
  induction m with
  | nil => rfl
  | cons e rest ih =>
      obtain ⟨k2, v⟩ := e
      by_cases hk : k2 = k
      · simp [mapGet, hk] at h
      · simp only [mapRemove, if_neg hk]
        simp only [mapGet, if_neg hk] at h
        rw [ih h]

theorem mapInsert_of_get_none {α : Type} (m : List (Nat × α)) (k : Nat) (v : α)
    (h : mapGet m k = none) : mapInsert m k v = m ++ [(k, v)] := by
  induction m with
  | nil => rfl
  | cons e rest ih =>
      obtain ⟨k2, v2⟩ := e
      by_cases hk : k2 = k
      · simp [mapGet, hk] at h
      · simp only [mapGet, if_neg hk] at h
        simp only [mapInsert, if_neg hk, List.cons_append]
        rw [ih h]

theorem mapGet_append_of_none {α : Type} (m1 m2 : List (Nat × α)) (k : Nat)
    (h : mapGet m1 k = none) : mapGet (m1 ++ m2) k = mapGet m2 k := by
  induction m1 with
  | nil => rfl
  | cons e rest ih =>
      obtain ⟨k2, v⟩ := e
      by_cases hk : k2 = k
      · simp [mapGet, hk] at h
      · simp only [mapGet, if_neg hk] at h
        simp only [List.cons_append, mapGet, if_neg hk]
        exact ih h

theorem mapGet_append_of_some {α : Type} (m1 m2 : List (Nat × α)) (k : Nat) (v : α)
    (h : mapGet m1 k = some v) : mapGet (m1 ++ m2) k = some v := by
  induction m1 with
  | nil => simp [mapGet] at h
  | cons e rest ih =>
      obtain ⟨k2, v2⟩ := e
      by_cases hk : k2 = k
      · simp only [mapGet, if_pos hk] at h
        simp only [List.cons_append, mapGet, if_pos hk]
        exact h
      · simp only [mapGet, if_neg hk] at h
        simp only [List.cons_append, mapGet, if_neg hk]
        exact ih h

theorem freeRegScan_of_not_mem (used : List (Nat × Nat)) (free : List Nat) (sym : Nat)
    (h : ∀ e ∈ used, e.2 ≠ sym) : freeRegScan used free sym = (used, free) := by
  induction used with
  | nil => rfl
  | cons e rest ih =>
      obtain ⟨reg, s2⟩ := e
      have hs : s2 ≠ sym := h (reg, s2) (List.mem_cons_self _ _)
      simp only [freeRegScan, if_neg hs]
      rw [ih (fun e he => h e (List.mem_cons_of_mem _ he))]

/-- A concrete calling convention used for closed evaluations: sixteen
default free general registers, as on x86-64. -/
def cc16 : CallConv where
  generalDefaultFreeRegs := [0, 1, 2, 3, 4, 5, 6, 7, 8, 9, 10, 11, 12, 13, 14, 15]
  floatDefaultFreeRegs := [100, 101, 102]
  generalCalleeSaved := fun r => decide (8 ≤ r)
  floatCalleeSaved := fun _ => false
  generalCallerSaved := fun r => decide (r < 8)
  floatCallerSaved := fun _ => true

/-- C3 counterexample: `free_symbol` on a value identifier that has no storage
descriptor is not fatal; on a reset manager it succeeds and leaves the manager
unchanged (the `None` case of the `match` falls through to `_ => {}`). -/
theorem free_symbol_missing_not_fatal :
    freeSymbol (resetSM cc16) 5 = some (resetSM cc16) := by rfl

/-- C3 (amended): calling `free_symbol` on a value identifier with no storage
descriptor, no join-point parameter entry, and no used-register entry is a
silent no-op: it returns the manager unchanged and does not abort. -/
theorem free_symbol_missing_noop (s : SM) (sym : Nat)
    (h1 : mapGet s.symbolStorageMap sym = none)
    (h2 : mapGet s.joinParamMap sym = none)
    (h3 : ∀ e ∈ s.generalUsedRegs, e.2 ≠ sym)
    (h4 : ∀ e ∈ s.floatUsedRegs, e.2 ≠ sym) :
    freeSymbol s sym = some s := by
  unfold freeSymbol
  rw [h1, h2, mapRemove_of_get_none _ _ h1]
  simp only [Option.isSome_none, Bool.false_eq_true, if_false]
  rw [freeRegScan_of_not_mem _ _ _ h3, freeRegScan_of_not_mem _ _ _ h4]

/-- C3 witness: the no-op theorem applied at a concrete manager and symbol. -/
theorem free_symbol_missing_noop_witness :
    freeSymbol (resetSM cc16) 7 = some (resetSM cc16) :=
  free_symbol_missing_noop (resetSM cc16) 7 rfl rfl
    (fun e he => absurd he (List.not_mem_nil e))
    (fun e he => absurd he (List.not_mem_nil e))

/-- C10: when the matching free register list is non-empty and the callback
leaves the manager unchanged, `with_tmp_general_reg` (resp.
`with_tmp_float_reg`) restores the whole manager state: the popped register
goes back on the end of its free list, and the only possible difference is
that a callee-saved popped register is recorded in the matching
used-callee-saved set. -/
theorem with_tmp_reg_frame (cc : CallConv) (s : SM) (cb : SM → Nat → SM)
    (hg : s.generalFreeRegs ≠ []) (hf : s.floatFreeRegs ≠ [])
    (hcb : ∀ t r, cb t r = t) :
    (∃ rg, s.generalFreeRegs.getLast? = some rg ∧
      withTmpGeneralReg cc s cb =
        some { s with generalUsedCalleeSavedRegs :=
                        if cc.generalCalleeSaved rg then
                          setInsert s.generalUsedCalleeSavedRegs rg
                        else s.generalUsedCalleeSavedRegs }) ∧
    (∃ rf, s.floatFreeRegs.getLast? = some rf ∧
      withTmpFloatReg cc s cb =
        some { s with floatUsedCalleeSavedRegs :=
                        if cc.floatCalleeSaved rf then
                          setInsert s.floatUsedCalleeSavedRegs rf
                        else s.floatUsedCalleeSavedRegs }) := by
  constructor
  · refine ⟨s.generalFreeRegs.getLast hg, List.getLast?_eq_getLast _ hg, ?_⟩
    unfold withTmpGeneralReg getGeneralReg vecPop
    rw [List.getLast?_eq_getLast _ hg]
    by_cases hc : cc.generalCalleeSaved (s.generalFreeRegs.getLast hg)
    · simp only [hc, if_true, hcb]
      rw [List.dropLast_append_getLast hg]
    · simp only [hc, if_false, hcb, Bool.false_eq_true]
      rw [List.dropLast_append_getLast hg]
  · refine ⟨s.floatFreeRegs.getLast hf, List.getLast?_eq_getLast _ hf, ?_⟩
    unfold withTmpFloatReg getFloatReg vecPop
    rw [List.getLast?_eq_getLast _ hf]
    by_cases hc : cc.floatCalleeSaved (s.floatFreeRegs.getLast hf)
    · simp only [hc, if_true, hcb]
      rw [List.dropLast_append_getLast hf]
    · simp only [hc, if_false, hcb, Bool.false_eq_true]
      rw [List.dropLast_append_getLast hf]

/-- C10 witness: the frame theorem applied to a reset sixteen-register
manager with the identity callback. -/
theorem with_tmp_reg_frame_witness :
    (∃ rg, (resetSM cc16).generalFreeRegs.getLast? = some rg ∧
      withTmpGeneralReg cc16 (resetSM cc16) (fun t _ => t) =
        some { resetSM cc16 with
               generalUsedCalleeSavedRegs :=
                 if cc16.generalCalleeSaved rg then
                   setInsert (resetSM cc16).generalUsedCalleeSavedRegs rg
                 else (resetSM cc16).generalUsedCalleeSavedRegs }) ∧
    (∃ rf, (resetSM cc16).floatFreeRegs.getLast? = some rf ∧
      withTmpFloatReg cc16 (resetSM cc16) (fun t _ => t) =
        some { resetSM cc16 with
               floatUsedCalleeSavedRegs :=
                 if cc16.floatCalleeSaved rf then
                   setInsert (resetSM cc16).floatUsedCalleeSavedRegs rf
                 else (resetSM cc16).floatUsedCalleeSavedRegs }) :=
  with_tmp_reg_frame cc16 (resetSM cc16) (fun t _ => t)
    (by decide) (by decide) (fun t r => rfl)

/-! More association-list lemmas, used throughout. -/

theorem mapGet_mapInsert_self {α : Type} (m : List (Nat × α)) (k : Nat) (v : α) :
    mapGet (mapInsert m k v) k = some v := by
  induction m with
  | nil => simp [mapInsert, mapGet]
  | cons e rest ih =>
      obtain ⟨k2, v2⟩ := e
      show mapGet (if k2 = k then (k, v) :: rest else (k2, v2) :: mapInsert rest k v) k = some v
      by_cases hk : k2 = k
      · rw [if_pos hk]
        show (if k = k then some v else mapGet rest k) = some v
        rw [if_pos rfl]
      · rw [if_neg hk]
        show (if k2 = k then some v2 else mapGet (mapInsert rest k v) k) = some v
        rw [if_neg hk]
        exact ih

theorem mapGet_mapInsert_ne {α : Type} (m : List (Nat × α)) (k k2 : Nat) (v : α)
    (h : k2 ≠ k) : mapGet (mapInsert m k v) k2 = mapGet m k2 := by
  have hkk : ¬(k = k2) := fun he => h he.symm
  induction m with
  | nil =>
      show (if k = k2 then some v else mapGet [] k2) = mapGet [] k2
      rw [if_neg hkk]
  | cons e rest ih =>
      obtain ⟨k3, v3⟩ := e
      show mapGet (if k3 = k then (k, v) :: rest else (k3, v3) :: mapInsert rest k v) k2 =
        mapGet ((k3, v3) :: rest) k2
      by_cases hk : k3 = k
      · rw [if_pos hk]
        show (if k = k2 then some v else mapGet rest k2) =
          (if k3 = k2 then some v3 else mapGet rest k2)
        rw [if_neg hkk, if_neg (hk ▸ hkk)]
      · rw [if_neg hk]
        show (if k3 = k2 then some v3 else mapGet (mapInsert rest k v) k2) =
          (if k3 = k2 then some v3 else mapGet rest k2)
        by_cases hk2 : k3 = k2
        · rw [if_pos hk2, if_pos hk2]
        · rw [if_neg hk2, if_neg hk2]
          exact ih

theorem mapGet_mapRemove_ne {α : Type} (m : List (Nat × α)) (k k2 : Nat)
    (h : k2 ≠ k) : mapGet (mapRemove m k) k2 = mapGet m k2 := by
  induction m with
  | nil => rfl
  | cons e rest ih =>
      obtain ⟨k3, v3⟩ := e
      show mapGet (if k3 = k then rest else (k3, v3) :: mapRemove rest k) k2 =
        mapGet ((k3, v3) :: rest) k2
      by_cases hk : k3 = k
      · rw [if_pos hk]
        show mapGet rest k2 = (if k3 = k2 then some v3 else mapGet rest k2)
        rw [if_neg (fun he => h (he.symm.trans hk))]
      · rw [if_neg hk]
        show (if k3 = k2 then some v3 else mapGet (mapRemove rest k) k2) =
          (if k3 = k2 then some v3 else mapGet rest k2)
        by_cases hk2 : k3 = k2
        · rw [if_pos hk2, if_pos hk2]
        · rw [if_neg hk2, if_neg hk2]
          exact ih

/-- Iterated `claim_general_reg`, one claim per listed symbol. -/
def claimGeneralRegs (cc : CallConv) (s : SM) : List Nat → Option SM
  | [] => some s
  | sym :: rest =>
      match claimGeneralReg cc s sym with
      | some (_, s2) => claimGeneralRegs cc s2 rest
      | none => none

/-- Popping from a free list that ends in `r` yields `r` (and tracks a touched
callee-saved register). -/
theorem getGeneralReg_concat (cc : CallConv) (s : SM) (f2 : List Nat) (r : Nat)
    (hfr : s.generalFreeRegs = f2 ++ [r]) :
    getGeneralReg cc s =
      some (r, { s with
                 generalFreeRegs := f2,
                 generalUsedCalleeSavedRegs :=
                   if cc.generalCalleeSaved r then
                     setInsert s.generalUsedCalleeSavedRegs r
                   else s.generalUsedCalleeSavedRegs }) := by
  unfold getGeneralReg vecPop
  rw [hfr, List.getLast?_concat, List.dropLast_concat]
  by_cases hc : cc.generalCalleeSaved r
  · simp [hc]
  · simp [hc]

/-- One `claim_general_reg` for a fresh symbol, with a non-empty free list. -/
theorem claimGeneralReg_concat (cc : CallConv) (s : SM) (sym : Nat)
    (f2 : List Nat) (r : Nat)
    (hfr : s.generalFreeRegs = f2 ++ [r])
    (hfresh : mapGet s.symbolStorageMap sym = none) :
    claimGeneralReg cc s sym =
      some (r, { s with
                 generalFreeRegs := f2,
                 generalUsedRegs := s.generalUsedRegs ++ [(r, sym)],
                 symbolStorageMap :=
                   s.symbolStorageMap ++ [(sym, Storage.reg (.general r))],
                 generalUsedCalleeSavedRegs :=
                   if cc.generalCalleeSaved r then
                     setInsert s.generalUsedCalleeSavedRegs r
                   else s.generalUsedCalleeSavedRegs }) := by
  unfold claimGeneralReg
  rw [hfresh]
  simp only [Option.isSome_none, Bool.false_eq_true, if_false]
  rw [getGeneralReg_concat cc s f2 r hfr]
  simp only [mapInsert_of_get_none _ _ _ hfresh]

/-- Claiming as many fresh distinct symbols as there are free registers
drains the free list: each claim pops the last free register, records it in
the used list and gives the symbol `Reg(General(..))` storage. -/
theorem claimGeneralRegs_fill (cc : CallConv) (xs : List Nat) :
    ∀ s : SM, xs.Nodup →
      s.generalFreeRegs.length = xs.length →
      (∀ x ∈ xs, mapGet s.symbolStorageMap x = none) →
      ∃ css, claimGeneralRegs cc s xs =
        some { s with
               generalFreeRegs := [],
               generalUsedRegs := s.generalUsedRegs ++ s.generalFreeRegs.reverse.zip xs,
               symbolStorageMap := s.symbolStorageMap ++
                 (s.generalFreeRegs.reverse.zip xs).map
                   (fun p => (p.2, Storage.reg (.general p.1))),
               generalUsedCalleeSavedRegs := css } := by
  induction xs with
  | nil =>
      intro s _ hlen _
      have hf : s.generalFreeRegs = [] := List.eq_nil_of_length_eq_zero hlen
      refine ⟨s.generalUsedCalleeSavedRegs, ?_⟩
      show some s = _
      simp only [List.zip_nil_right, List.map_nil, List.append_nil]
      rw [← hf]
  | cons x xs2 ih =>
      intro s hnd hlen hfresh
      rcases List.eq_nil_or_concat s.generalFreeRegs with hf | ⟨f2, r, hfr⟩
      · rw [hf] at hlen
        simp at hlen
      rw [List.concat_eq_append] at hfr
      have hx : mapGet s.symbolStorageMap x = none := hfresh x (List.mem_cons_self x xs2)
      have hstep := claimGeneralReg_concat cc s x f2 r hfr hx
      have hxnot : x ∉ xs2 := (List.nodup_cons.mp hnd).1
      have hlen2 : f2.length = xs2.length := by
        rw [hfr] at hlen
        simpa using hlen
      obtain ⟨css2, hrun⟩ := ih
        { s with
          generalFreeRegs := f2,
          generalUsedRegs := s.generalUsedRegs ++ [(r, x)],
          symbolStorageMap := s.symbolStorageMap ++ [(x, Storage.reg (.general r))],
          generalUsedCalleeSavedRegs :=
            if cc.generalCalleeSaved r then setInsert s.generalUsedCalleeSavedRegs r
            else s.generalUsedCalleeSavedRegs }
        (List.nodup_cons.mp hnd).2 hlen2
        (by
          intro y hy
          have hyx : ¬(x = y) := fun he => hxnot (he ▸ hy)
          rw [mapGet_append_of_none _ _ _ (hfresh y (List.mem_cons_of_mem _ hy))]
          show (if x = y then some (Storage.reg (.general r)) else mapGet [] y) = none
          rw [if_neg hyx]
          rfl)
      refine ⟨css2, ?_⟩
      simp only [claimGeneralRegs, hstep, hrun]
      have hrev : s.generalFreeRegs.reverse = r :: f2.reverse := by
        rw [hfr]
        simp
      simp only [hrev, List.zip_cons_cons, List.map_cons, List.cons_append,
        List.append_assoc, List.singleton_append, List.nil_append]

/-- With no free chunk and an empty stack, an 8-byte claim grows the stack to
8 bytes and returns offset `-8`. -/
theorem claimStackSize_empty_grow (s : SM) (hchunks : s.freeStackChunks = [])
    (hsize : s.stackSize = 0) :
    claimStackSize s 8 = some (-8, { s with stackSize := 8 }) := by
  unfold claimStackSize
  rw [hchunks, hsize]
  norm_num [findBestFit, roundUp8]

/-- Spilling a symbol that holds a general register, on an empty stack: the
symbol's storage becomes `Stack(Primitive { base_offset: -8, reg: None })`. -/
theorem freeToStack_reg_general (s : SM) (sym r : Nat)
    (hstore : mapGet s.symbolStorageMap sym = some (.reg (.general r)))
    (hchunks : s.freeStackChunks = [])
    (hsize : s.stackSize = 0) :
    freeToStack s sym (.general r) =
      some { s with
             symbolStorageMap :=
               mapInsert (mapRemove s.symbolStorageMap sym) sym
                 (.stack (.primitive (-8) none)),
             stackSize := 8 } := by
  unfold freeToStack
  rw [hstore]
  show (if RegStorage.general r = RegStorage.general r then _ else none) = _
  rw [if_pos rfl]
  have h2 := claimStackSize_empty_grow
    { s with symbolStorageMap := mapRemove s.symbolStorageMap sym } hchunks hsize
  rw [h2]

/-- The seventeenth claim: with an empty free list, `claim_general_reg` evicts
the used-register entry at position 0, spills its symbol to offset `-8`, and
hands the register to the new symbol. -/
theorem claimGeneralReg_evict (cc : CallConv) (s : SM) (sym r symE : Nat)
    (tail : List (Nat × Nat))
    (hfree : s.generalFreeRegs = [])
    (hused : s.generalUsedRegs = (r, symE) :: tail)
    (hfresh : mapGet s.symbolStorageMap sym = none)
    (hstore : mapGet s.symbolStorageMap symE = some (.reg (.general r)))
    (hchunks : s.freeStackChunks = [])
    (hsize : s.stackSize = 0) :
    claimGeneralReg cc s sym =
      some (r, { s with
                 generalFreeRegs := [],
                 generalUsedRegs := tail ++ [(r, sym)],
                 symbolStorageMap :=
                   mapInsert (mapInsert (mapRemove s.symbolStorageMap symE) symE
                     (.stack (.primitive (-8) none))) sym (.reg (.general r)),
                 stackSize := 8 }) := by
  unfold claimGeneralReg
  rw [hfresh]
  simp only [Option.isSome_none, Bool.false_eq_true, if_false]
  unfold getGeneralReg vecPop
  rw [hfree, hused]
  simp only [List.getLast?_nil]
  have h3 := freeToStack_reg_general
    { s with generalFreeRegs := [], generalUsedRegs := tail } symE r hstore hchunks hsize
  rw [h3]

/-- Running `claim_general_reg` over a concatenation splits into two runs. -/
theorem claimGeneralRegs_append (cc : CallConv) (bs : List Nat) :
    ∀ (as2 : List Nat) (s : SM),
      claimGeneralRegs cc s (as2 ++ bs) =
        match claimGeneralRegs cc s as2 with
        | some s2 => claimGeneralRegs cc s2 bs
        | none => none := by
  intro as2
  induction as2 with
  | nil => intro s; rfl
  | cons a as3 ih =>
      intro s
      simp only [List.cons_append, claimGeneralRegs]
      cases claimGeneralReg cc s a with
      | none => rfl
      | some p => exact ih p.2

/-- Looking up a symbol outside `xs` in the register-claim bindings built from
`zip` yields nothing. -/
theorem mapGet_regEntries_none (f xs : List Nat) (t : Nat) (ht : t ∉ xs) :
    mapGet ((f.zip xs).map (fun p => (p.2, Storage.reg (.general p.1)))) t = none := by
  apply mapGet_of_not_mem_keys
  intro e he
  simp only [List.mem_map] at he
  obtain ⟨p, hp, rfl⟩ := he
  exact fun h => ht (h ▸ (List.of_mem_zip hp).2)

/-- C2: starting from a reset manager whose calling convention provides 16
default free general registers, 17 `claim_general_reg` calls for 17 distinct
symbols succeed; afterwards the first-claimed symbol is spilled to
`Stack(Primitive { base_offset: -8, reg: None })` and `stack_size` is 8 (the
17th claim evicts the entry at position 0 of the used-register list). -/
theorem seventeen_claims_spill_first (cc : CallConv) (y : Nat) (rest : List Nat)
    (hlen : rest.length = 16) (hnd : (y :: rest).Nodup)
    (hcc : cc.generalDefaultFreeRegs.length = 16) :
    ∃ s2, claimGeneralRegs cc (resetSM cc) (y :: rest) = some s2 ∧
      mapGet s2.symbolStorageMap y = some (.stack (.primitive (-8) none)) ∧
      s2.stackSize = 8 := by
  rcases List.eq_nil_or_concat rest with hr | ⟨rest2, z, hrz⟩
  · rw [hr] at hlen
    simp at hlen
  rw [List.concat_eq_append] at hrz
  subst hrz
  have hsplit : (y :: (rest2 ++ [z])) = (y :: rest2) ++ [z] := by simp
  rw [hsplit, claimGeneralRegs_append]
  have hnd16 : (y :: rest2).Nodup :=
    List.Nodup.sublist
      (List.Sublist.cons₂ y (List.sublist_append_left rest2 [z])) hnd
  have hrest2 : rest2.length = 15 := by
    simp only [List.length_append, List.length_singleton] at hlen
    omega
  have hlen16 : (resetSM cc).generalFreeRegs.length = (y :: rest2).length := by
    show cc.generalDefaultFreeRegs.length = _
    rw [hcc]
    simp [hrest2]
  obtain ⟨css, hfill⟩ :=
    claimGeneralRegs_fill cc (y :: rest2) (resetSM cc) hnd16 hlen16 (fun x _ => rfl)
  rw [hfill]
  have hzne : z ∉ y :: rest2 := by
    intro hz
    have := List.nodup_append.mp (hsplit ▸ hnd)
    exact this.2.2 hz (List.mem_singleton_self z)
  obtain ⟨w, ws, hw⟩ :=
    List.exists_cons_of_ne_nil
      (show (resetSM cc).generalFreeRegs.reverse ≠ [] by
        intro hcon
        have : (resetSM cc).generalFreeRegs.length = 0 := by
          rw [← List.length_reverse, hcon]
          rfl
        rw [hlen16] at this
        simp at this)
  rw [hw]
  simp only [List.zip_cons_cons, List.map_cons, List.nil_append, resetSM]
  have hev := claimGeneralReg_evict cc
    { symbolStorageMap :=
        (y, Storage.reg (.general w)) ::
          (ws.zip rest2).map (fun p => (p.2, Storage.reg (.general p.1))),
      allocationMap := [],
      joinParamMap := [],
      generalFreeRegs := [],
      floatFreeRegs := cc.floatDefaultFreeRegs,
      generalUsedRegs := (w, y) :: ws.zip rest2,
      floatUsedRegs := [],
      generalUsedCalleeSavedRegs := css,
      floatUsedCalleeSavedRegs := [],
      freeStackChunks := [],
      stackSize := 0,
      fnCallStackSize := 0,
      nextAllocId := 0 }
    z w y (ws.zip rest2) rfl rfl
    (by
      show mapGet ((y, Storage.reg (.general w)) :: _) z = none
      have hzy : ¬(y = z) := fun he => hzne (he ▸ List.mem_cons_self y rest2)
      show (if y = z then some (Storage.reg (.general w)) else _) = none
      rw [if_neg hzy]
      exact mapGet_regEntries_none ws rest2 z
        (fun hz => hzne (List.mem_cons_of_mem _ hz)))
    (by
      show (if y = y then some (Storage.reg (.general w)) else _) = _
      rw [if_pos rfl])
    rfl rfl
  simp only [claimGeneralRegs, hev]
  refine ⟨_, rfl, ?_, rfl⟩
  have hyz : y ≠ z := fun he => hzne (he ▸ List.mem_cons_self y rest2)
  rw [mapGet_mapInsert_ne _ _ _ _ hyz, mapGet_mapInsert_self]

/-- C2 witness: seventeen concrete claims on the concrete sixteen-register
calling convention. -/
theorem seventeen_claims_spill_first_witness :
    ∃ s2, claimGeneralRegs cc16 (resetSM cc16)
        (20 :: [21, 22, 23, 24, 25, 26, 27, 28, 29, 30, 31, 32, 33, 34, 35, 36]) = some s2 ∧
      mapGet s2.symbolStorageMap 20 = some (.stack (.primitive (-8) none)) ∧
      s2.stackSize = 8 :=
  seventeen_claims_spill_first cc16 20
    [21, 22, 23, 24, 25, 26, 27, 28, 29, 30, 31, 32, 33, 34, 35, 36]
    (by decide) (by decide) (by decide)

/-! Free-chunk theory: coverage of point sets, well-formedness of the sorted
coalesced free list, and specifications of `findBestFit`, `claimStackSize`
and `freeChunk`. -/

/-- The byte at (integer) position `x` lies inside the chunk `c`. -/
def pointIn (x : Int) (c : Int × Nat) : Prop := c.1 ≤ x ∧ x < c.1 + c.2

/-- Some chunk of the list covers position `x`. -/
def coveredL (l : List (Int × Nat)) (x : Int) : Prop := ∃ c ∈ l, pointIn x c

/-- Chunk `c` ends strictly before chunk `d` begins (a non-touching gap). -/
def gapRel (c d : Int × Nat) : Prop := c.1 + c.2 < d.1

/-- Well-formed free-chunk list: sorted with strict gaps between consecutive
chunks (coalescing is total) and all sizes positive. -/
def ChunksWF (l : List (Int × Nat)) : Prop :=
  l.Pairwise gapRel ∧ ∀ c ∈ l, 0 < c.2

theorem coveredL_nil (x : Int) : ¬ coveredL [] x := by
  rintro ⟨c, hc, -⟩
  exact List.not_mem_nil c hc

theorem coveredL_cons {c : Int × Nat} {l : List (Int × Nat)} {x : Int} :
    coveredL (c :: l) x ↔ pointIn x c ∨ coveredL l x := by
  constructor
  · rintro ⟨d, hd, hx⟩
    rcases List.mem_cons.mp hd with rfl | hd2
    · exact Or.inl hx
    · exact Or.inr ⟨d, hd2, hx⟩
  · rintro (hx | ⟨d, hd, hx⟩)
    · exact ⟨c, List.mem_cons_self _ _, hx⟩
    · exact ⟨d, List.mem_cons_of_mem _ hd, hx⟩

theorem coveredL_append {l1 l2 : List (Int × Nat)} {x : Int} :
    coveredL (l1 ++ l2) x ↔ coveredL l1 x ∨ coveredL l2 x := by
  constructor
  · rintro ⟨c, hc, hx⟩
    rcases List.mem_append.mp hc with h | h
    · exact Or.inl ⟨c, h, hx⟩
    · exact Or.inr ⟨c, h, hx⟩
  · rintro (⟨c, hc, hx⟩ | ⟨c, hc, hx⟩)
    · exact ⟨c, List.mem_append_left _ hc, hx⟩
    · exact ⟨c, List.mem_append_right _ hc, hx⟩

theorem coveredL_perm {l1 l2 : List (Int × Nat)} (h : l1.Perm l2) (x : Int) :
    coveredL l1 x ↔ coveredL l2 x := by
  constructor
  · rintro ⟨c, hc, hx⟩
    exact ⟨c, h.mem_iff.mp hc, hx⟩
  · rintro ⟨c, hc, hx⟩
    exact ⟨c, h.mem_iff.mpr hc, hx⟩

/-- The `min_by_key` fold returns the first minimum: the scanned list splits
around the result, everything before it being strictly larger and everything
after at least as large. -/
theorem minBySizeGo_split (l : List (Nat × Int × Nat)) :
    ∀ best : Nat × Int × Nat, ∃ pre post,
      best :: l = pre ++ minBySizeGo best l :: post ∧
      (∀ y ∈ pre, (minBySizeGo best l).2.2 < y.2.2) ∧
      (∀ y ∈ post, (minBySizeGo best l).2.2 ≤ y.2.2) := by
  induction l with
  | nil =>
      intro best
      exact ⟨[], [], rfl, fun y hy => absurd hy (List.not_mem_nil y),
        fun y hy => absurd hy (List.not_mem_nil y)⟩
  | cons x rest ih =>
      intro best
      by_cases hx : x.2.2 < best.2.2
      · have hgo : minBySizeGo best (x :: rest) = minBySizeGo x rest := by
          simp [minBySizeGo, hx]
        obtain ⟨pre2, post2, heq, hpre, hpost⟩ := ih x
        have hrx : (minBySizeGo x rest).2.2 ≤ x.2.2 := by
          rcases pre2 with _ | ⟨q, pre3⟩
          · simp only [List.nil_append] at heq
            have hxr : x = minBySizeGo x rest := (List.cons_eq_cons.mp heq).1
            rw [← hxr]
          · simp only [List.cons_append] at heq
            have hq : x = q := (List.cons_eq_cons.mp heq).1
            have h5 := hpre q (List.mem_cons_self q pre3)
            exact le_of_lt (hq.symm ▸ h5)
        rw [hgo]
        refine ⟨best :: pre2, post2, ?_, ?_, hpost⟩
        · rw [List.cons_append, ← heq]
        · intro y hy
          rcases List.mem_cons.mp hy with rfl | hy2
          · exact lt_of_le_of_lt hrx hx
          · exact hpre y hy2
      · have hgo : minBySizeGo best (x :: rest) = minBySizeGo best rest := by
          simp [minBySizeGo, hx]
        have hbx : best.2.2 ≤ x.2.2 := Nat.le_of_not_lt hx
        obtain ⟨pre2, post2, heq, hpre, hpost⟩ := ih best
        rw [hgo]
        rcases pre2 with _ | ⟨q, pre3⟩
        · simp only [List.nil_append] at heq
          have hbr : best = minBySizeGo best rest := (List.cons_eq_cons.mp heq).1
          have hrest : rest = post2 := (List.cons_eq_cons.mp heq).2
          refine ⟨[], x :: post2, ?_, ?_, ?_⟩
          · rw [List.nil_append, ← hbr, hrest]
          · intro y hy
            exact absurd hy (List.not_mem_nil y)
          · intro y hy
            rcases List.mem_cons.mp hy with rfl | hy2
            · rw [← hbr]
              exact hbx
            · exact hpost y hy2
        · simp only [List.cons_append] at heq
          have hq : best = q := (List.cons_eq_cons.mp heq).1
          have hrest : rest = pre3 ++ minBySizeGo best rest :: post2 :=
            (List.cons_eq_cons.mp heq).2
          have hrb : (minBySizeGo best rest).2.2 < best.2.2 := by
            have h5 := hpre q (List.mem_cons_self q pre3)
            exact hq.symm ▸ h5
          refine ⟨best :: x :: pre3, post2, ?_, ?_, hpost⟩
          · rw [List.cons_append, List.cons_append, ← hrest]
          · intro y hy
            rcases List.mem_cons.mp hy with rfl | hy2
            · exact hrb
            · rcases List.mem_cons.mp hy2 with rfl | hy3
              · exact lt_of_lt_of_le hrb hbx
              · exact hpre y (hq ▸ List.mem_cons_of_mem q hy3)

/-- Indices produced by `enumFrom` are strictly increasing. -/
theorem enumFrom_fst_lt {α : Type} : ∀ (n : Nat) (l : List α),
    (l.enumFrom n).Pairwise (fun x y => x.1 < y.1)
  | _, [] => List.Pairwise.nil
  | n, a :: l => by
      refine List.Pairwise.cons ?_ (enumFrom_fst_lt (n + 1) l)
      intro y hy
      obtain ⟨i, x⟩ := y
      have h2 := (List.mk_mem_enumFrom_iff_le_and_getElem?_sub.mp hy).1
      exact Nat.lt_of_succ_le h2

/-- When `findBestFit` finds nothing, no chunk is large enough. -/
theorem findBestFit_none (chunks : List (Int × Nat)) (a : Nat)
    (h : findBestFit chunks a = none) : ∀ c ∈ chunks, c.2 < a := by
  intro c hc
  by_contra hge
  have ha : a ≤ c.2 := Nat.le_of_not_lt hge
  obtain ⟨i, hi⟩ := List.mem_iff_get?.mp hc
  have hmem : (i, c) ∈ chunks.enum := by
    rw [List.mk_mem_enum_iff_getElem?, ← List.get?_eq_getElem?]
    exact hi
  have hmem2 : (i, c) ∈ chunks.enum.filter (fun ic => a ≤ ic.2.2) := by
    rw [List.mem_filter]
    exact ⟨hmem, by simpa using ha⟩
  unfold findBestFit at h
  rcases hfl : (chunks.enum.filter (fun ic => a ≤ ic.2.2)).map
      (fun ic => (ic.1, ic.2.1, ic.2.2)) with _ | ⟨x, rest⟩
  · rw [List.map_eq_nil_iff] at hfl
    rw [hfl] at hmem2
    exact List.not_mem_nil _ hmem2
  · rw [hfl] at h
    exact Option.noConfusion h

/-- Specification of `findBestFit`: the returned chunk exists at the returned
index, it fits, it is a smallest fitting chunk, and every fitting chunk at an
earlier index is strictly larger (first-occurrence tie break). -/
theorem findBestFit_some (chunks : List (Int × Nat)) (a : Nat)
    (pos : Nat) (o : Int) (sz : Nat)
    (h : findBestFit chunks a = some (pos, o, sz)) :
    chunks.get? pos = some (o, sz) ∧ a ≤ sz ∧
    (∀ i c, chunks.get? i = some c → a ≤ c.2 → sz ≤ c.2) ∧
    (∀ i c, i < pos → chunks.get? i = some c → a ≤ c.2 → sz < c.2) := by
  have hmapmem : ∀ y ∈ (chunks.enum.filter (fun ic => a ≤ ic.2.2)).map
      (fun ic => (ic.1, ic.2.1, ic.2.2)),
      chunks.get? y.1 = some (y.2.1, y.2.2) ∧ a ≤ y.2.2 := by
    intro y hy
    obtain ⟨ic, hic, hgy⟩ := List.mem_map.mp hy
    obtain ⟨hicmem, hicp⟩ := List.mem_filter.mp hic
    obtain ⟨i2, c2⟩ := ic
    obtain rfl := hgy.symm
    refine ⟨?_, by simpa using hicp⟩
    rw [List.get?_eq_getElem?]
    exact List.mk_mem_enum_iff_getElem?.mp hicmem
  have hmemmap : ∀ (i : Nat) (c : Int × Nat), chunks.get? i = some c → a ≤ c.2 →
      (i, c.1, c.2) ∈ (chunks.enum.filter (fun ic => a ≤ ic.2.2)).map
        (fun ic => (ic.1, ic.2.1, ic.2.2)) := by
    intro i c hi hc
    refine List.mem_map.mpr ⟨(i, c), ?_, rfl⟩
    rw [List.mem_filter]
    refine ⟨?_, by simpa using hc⟩
    rw [List.mk_mem_enum_iff_getElem?, ← List.get?_eq_getElem?]
    exact hi
  have hpw : ((chunks.enum.filter (fun ic => a ≤ ic.2.2)).map
      (fun ic => (ic.1, ic.2.1, ic.2.2))).Pairwise (fun x y => x.1 < y.1) := by
    rw [List.pairwise_map]
    exact List.Pairwise.sublist (List.filter_sublist _) (enumFrom_fst_lt 0 chunks)
  unfold findBestFit at h
  rcases hfl : (chunks.enum.filter (fun ic => a ≤ ic.2.2)).map
      (fun ic => (ic.1, ic.2.1, ic.2.2)) with _ | ⟨x, rest⟩
  · rw [hfl] at h
    exact Option.noConfusion h
  · rw [hfl] at h hmapmem hmemmap hpw
    have hrs : minBySizeGo x rest = (pos, o, sz) := Option.some.inj h
    obtain ⟨pre, post, heq, hpre, hpost⟩ := minBySizeGo_split rest x
    rw [hrs] at heq hpre hpost
    have hmid := hmapmem (pos, o, sz)
      (by rw [heq]; exact List.mem_append_right _ (List.mem_cons_self _ _))
    refine ⟨hmid.1, hmid.2, ?_, ?_⟩
    · intro i c hi hc
      have hin := hmemmap i c hi hc
      rw [heq] at hin
      rcases List.mem_append.mp hin with hp | hp
      · exact le_of_lt (hpre _ hp)
      · rcases List.mem_cons.mp hp with he | hp2
        · have : c.2 = sz := congrArg (fun y => y.2.2) he
          omega
        · exact hpost _ hp2
    · intro i c hilt hi hc
      have hin := hmemmap i c hi hc
      rw [heq] at hin
      rcases List.mem_append.mp hin with hp | hp
      · exact hpre _ hp
      · rcases List.mem_cons.mp hp with he | hp2
        · have : i = pos := congrArg (fun y => y.1) he
          omega
        · have hppost : ∀ y ∈ post, pos < y.1 := by
            rw [heq] at hpw
            have h9 := (List.pairwise_append.mp hpw).2.1
            exact fun y hy => List.rel_of_pairwise_cons h9 hy
          have := hppost _ hp2
          simp only at this
          omega

/-- Case analysis of a successful `claim_stack_size`: only the free-chunk list
and the stack size change; the request is served either by carving the low end
out of a free chunk (removing it when exactly consumed) or by growing the
stack by the rounded amount. -/
theorem claimStackSize_shapes (s : SM) (amount : Nat) (off : Int) (s2 : SM)
    (h : claimStackSize s amount = some (off, s2)) :
    s2.symbolStorageMap = s.symbolStorageMap ∧
    s2.allocationMap = s.allocationMap ∧
    s2.joinParamMap = s.joinParamMap ∧
    s2.generalFreeRegs = s.generalFreeRegs ∧
    s2.floatFreeRegs = s.floatFreeRegs ∧
    s2.generalUsedRegs = s.generalUsedRegs ∧
    s2.floatUsedRegs = s.floatUsedRegs ∧
    s2.generalUsedCalleeSavedRegs = s.generalUsedCalleeSavedRegs ∧
    s2.floatUsedCalleeSavedRegs = s.floatUsedCalleeSavedRegs ∧
    s2.fnCallStackSize = s.fnCallStackSize ∧
    s2.nextAllocId = s.nextAllocId ∧
    0 < amount ∧
    ((∃ A B sz, s.freeStackChunks = A ++ (off, sz) :: B ∧ roundUp8 amount ≤ sz ∧
        s2.stackSize = s.stackSize ∧
        ((sz = roundUp8 amount ∧ s2.freeStackChunks = A ++ B) ∨
         (roundUp8 amount < sz ∧
           s2.freeStackChunks =
             A ++ (off + roundUp8 amount, sz - roundUp8 amount) :: B))) ∨
     (s2.freeStackChunks = s.freeStackChunks ∧
      s2.stackSize = s.stackSize + roundUp8 amount ∧
      s2.stackSize ≤ 2147483647 ∧
      off = -(s2.stackSize : Int) ∧
      ∀ c ∈ s.freeStackChunks, c.2 < roundUp8 amount)) := by
  unfold claimStackSize at h
  by_cases h0 : amount = 0
  · rw [if_pos h0] at h
    exact Option.noConfusion h
  rw [if_neg h0] at h
  have hamt : 0 < amount := Nat.pos_of_ne_zero h0
  rcases hbf : findBestFit s.freeStackChunks (roundUp8 amount) with _ | ⟨pos, o, sz⟩
  · rw [hbf] at h
    dsimp only at h
    by_cases hov : s.stackSize + roundUp8 amount > 2147483647
    · rw [if_pos hov] at h
      exact Option.noConfusion h
    · rw [if_neg hov] at h
      have hp := Option.some.inj h
      rw [Prod.mk.injEq] at hp
      obtain ⟨hoff, hs2⟩ := hp
      subst hs2
      refine ⟨rfl, rfl, rfl, rfl, rfl, rfl, rfl, rfl, rfl, rfl, rfl, hamt, Or.inr ?_⟩
      exact ⟨rfl, rfl, Nat.le_of_not_lt hov, hoff.symm, findBestFit_none _ _ hbf⟩
  · rw [hbf] at h
    dsimp only at h
    obtain ⟨hget, hfit, hmin, hfirst⟩ := findBestFit_some _ _ _ _ _ hbf
    have hlt : pos < s.freeStackChunks.length := by
      rcases List.get?_eq_some.mp hget with ⟨hl, -⟩
      exact hl
    have hgetel : s.freeStackChunks[pos] = (o, sz) := by
      have h3 := hget
      rw [List.get?_eq_getElem?, List.getElem?_eq_getElem hlt] at h3
      exact Option.some.inj h3
    have hdec : s.freeStackChunks =
        s.freeStackChunks.take pos ++ (o, sz) :: s.freeStackChunks.drop (pos + 1) := by
      conv_lhs => rw [← List.take_append_drop pos s.freeStackChunks]
      congr 1
      rw [List.drop_eq_getElem_cons hlt, hgetel]
    by_cases heq : sz = roundUp8 amount
    · rw [if_pos heq] at h
      have hp := Option.some.inj h
      rw [Prod.mk.injEq] at hp
      obtain ⟨hoff, hs2⟩ := hp
      subst hs2
      subst hoff
      refine ⟨rfl, rfl, rfl, rfl, rfl, rfl, rfl, rfl, rfl, rfl, rfl, hamt, Or.inl ?_⟩
      refine ⟨s.freeStackChunks.take pos, s.freeStackChunks.drop (pos + 1), sz,
        hdec, hfit, rfl, Or.inl ⟨heq, ?_⟩⟩
      show s.freeStackChunks.eraseIdx pos = _
      rw [List.eraseIdx_eq_take_drop_succ]
    · rw [if_neg heq] at h
      have hp := Option.some.inj h
      rw [Prod.mk.injEq] at hp
      obtain ⟨hoff, hs2⟩ := hp
      subst hs2
      subst hoff
      refine ⟨rfl, rfl, rfl, rfl, rfl, rfl, rfl, rfl, rfl, rfl, rfl, hamt, Or.inl ?_⟩
      refine ⟨s.freeStackChunks.take pos, s.freeStackChunks.drop (pos + 1), sz,
        hdec, hfit, rfl, Or.inr ⟨Nat.lt_of_le_of_ne hfit (fun he => heq he.symm), ?_⟩⟩
      show s.freeStackChunks.set pos _ = _
      rw [List.set_eq_take_cons_drop _ hlt]


/-- The insertion position computed for the free-chunk list is a valid index
bound. -/
theorem insertPos_le_length (l : List (Int × Nat)) (loc : Int × Nat) :
    insertPos l loc ≤ l.length := by
  induction l with
  | nil => exact Nat.le_refl 0
  | cons c rest ih =>
      show (if c.1 < loc.1 ∨ (c.1 = loc.1 ∧ c.2 < loc.2) then insertPos rest loc + 1 else 0) ≤
        rest.length + 1
      by_cases h : c.1 < loc.1 ∨ (c.1 = loc.1 ∧ c.2 < loc.2)
      · rw [if_pos h]
        omega
      · rw [if_neg h]
        omega

/-- When the freed location sorts strictly after the head chunk and after at
least one more chunk, `free_stack_chunk` leaves the head untouched and
operates on the tail. -/
theorem freeChunk_cons_shift (c : Int × Nat) (rest : List (Int × Nat)) (o : Int) (a : Nat)
    (hclt : c.1 < o ∨ (c.1 = o ∧ c.2 < a))
    (p2 : Nat) (hp : insertPos rest (o, a) = p2 + 1) :
    freeChunk (c :: rest) o a = (freeChunk rest o a).map (fun l => c :: l) := by
  have hpos : insertPos (c :: rest) (o, a) = p2 + 2 := by
    show (if c.1 < o ∨ (c.1 = o ∧ c.2 < a) then insertPos rest (o, a) + 1 else 0) = p2 + 2
    rw [if_pos hclt, hp]
  have hsub1 : p2 + 2 - 1 = p2 + 1 := rfl
  have hsub2 : p2 + 1 - 1 = p2 := rfl
  have hlenp : p2 < rest.length := by
    have hle := insertPos_le_length rest (o, a)
    omega
  unfold freeChunk
  dsimp only
  rw [hpos, hp, hsub1, hsub2]
  simp only [List.get?_cons_succ]
  rw [if_neg (Nat.succ_ne_zero (p2 + 1)), if_neg (Nat.succ_ne_zero p2)]
  rcases hprev : rest.get? p2 with _ | ⟨pl1, pl2⟩
  · rw [List.get?_eq_none] at hprev
    omega
  · dsimp only
    by_cases hov : o < pl1 + pl2
    · rw [if_pos hov]
      rfl
    · rw [if_neg hov]
      rcases hnext : rest.get? (p2 + 1) with _ | ⟨nh1, nh2⟩
      · by_cases hmp : pl1 + pl2 = o
        · rw [decide_eq_true hmp]
          dsimp only
          rw [List.set_cons_succ]
          rfl
        · rw [decide_eq_false hmp]
          rfl
      · dsimp only
        by_cases hovn : nh1 < o + a
        · rw [if_pos hovn]
          rfl
        · rw [if_neg hovn]
          by_cases hmp : pl1 + pl2 = o
          · rw [decide_eq_true hmp]
            by_cases hmn : o + a = nh1
            · rw [decide_eq_true hmn]
              dsimp only
              rw [List.set_cons_succ, List.eraseIdx_cons_succ]
              rfl
            · rw [decide_eq_false hmn]
              dsimp only
              rw [List.set_cons_succ]
              rfl
          · rw [decide_eq_false hmp]
            by_cases hmn : o + a = nh1
            · rw [decide_eq_true hmn]
              dsimp only
              rw [List.set_cons_succ]
              rfl
            · rw [decide_eq_false hmn]
              dsimp only
              rw [List.insertIdx_succ_cons]
              rfl

/-- Evaluation of `free_stack_chunk` when the freed location sorts before the
whole list (insertion position 0). -/
theorem freeChunk_eval_pos0 (c : Int × Nat) (rest : List (Int × Nat)) (o : Int) (a : Nat)
    (hnclt : ¬(c.1 < o ∨ (c.1 = o ∧ c.2 < a)))
    (hge : ¬(c.1 < o + (a : Int))) :
    freeChunk (c :: rest) o a =
      if o + (a : Int) = c.1 then some ((o, c.2 + a) :: rest)
      else some ((o, a) :: c :: rest) := by
  have hpos0 : insertPos (c :: rest) (o, a) = 0 := by
    show (if c.1 < o ∨ (c.1 = o ∧ c.2 < a) then insertPos rest (o, a) + 1 else 0) = 0
    rw [if_neg hnclt]
  unfold freeChunk
  dsimp only
  rw [hpos0, List.get?_cons_zero]
  rw [if_pos rfl]
  dsimp only
  rw [if_neg hge]
  by_cases hmn : o + (a : Int) = c.1
  · rw [decide_eq_true hmn, if_pos hmn]
    dsimp only
    rw [List.set_cons_zero]
  · rw [decide_eq_false hmn, if_neg hmn]
    dsimp only
    rw [List.insertIdx_zero]

/-- Evaluation of `free_stack_chunk` on a singleton list when the freed
location sorts after the only chunk. -/
theorem freeChunk_eval_pos1_nil (c : Int × Nat) (o : Int) (a : Nat)
    (hclt : c.1 < o ∨ (c.1 = o ∧ c.2 < a))
    (hov : ¬(o < c.1 + (c.2 : Int))) :
    freeChunk [c] o a =
      if c.1 + (c.2 : Int) = o then some [(c.1, c.2 + a)]
      else some [c, (o, a)] := by
  have hpos1 : insertPos [c] (o, a) = 1 := by
    show (if c.1 < o ∨ (c.1 = o ∧ c.2 < a) then insertPos [] (o, a) + 1 else 0) = 1
    rw [if_pos hclt]
    rfl
  unfold freeChunk
  dsimp only
  rw [hpos1]
  rw [if_neg (Nat.succ_ne_zero 0)]
  rw [show (1 : Nat) - 1 = 0 from rfl, List.get?_cons_zero,
    show ([c] : List (Int × Nat)).get? 1 = none from rfl]
  dsimp only
  rw [if_neg hov]
  by_cases hmp : c.1 + (c.2 : Int) = o
  · rw [decide_eq_true hmp, if_pos hmp]
    dsimp only
    rw [List.set_cons_zero]
  · rw [decide_eq_false hmp, if_neg hmp]
    dsimp only
    rw [List.insertIdx_succ_cons, List.insertIdx_zero]

/-- Evaluation of `free_stack_chunk` when the freed location sits between the
head chunk and the rest of the list (insertion position 1). -/
theorem freeChunk_eval_pos1_cons (c nh : Int × Nat) (rest2 : List (Int × Nat))
    (o : Int) (a : Nat)
    (hclt : c.1 < o ∨ (c.1 = o ∧ c.2 < a))
    (hnclt : ¬(nh.1 < o ∨ (nh.1 = o ∧ nh.2 < a)))
    (hov : ¬(o < c.1 + (c.2 : Int)))
    (hovn : ¬(nh.1 < o + (a : Int))) :
    freeChunk (c :: nh :: rest2) o a =
      if c.1 + (c.2 : Int) = o then
        if o + (a : Int) = nh.1 then some ((c.1, c.2 + a + nh.2) :: rest2)
        else some ((c.1, c.2 + a) :: nh :: rest2)
      else
        if o + (a : Int) = nh.1 then some (c :: (o, nh.2 + a) :: rest2)
        else some (c :: (o, a) :: nh :: rest2) := by
  have hpos1 : insertPos (c :: nh :: rest2) (o, a) = 1 := by
    show (if c.1 < o ∨ (c.1 = o ∧ c.2 < a) then insertPos (nh :: rest2) (o, a) + 1 else 0) = 1
    rw [if_pos hclt]
    show (if nh.1 < o ∨ (nh.1 = o ∧ nh.2 < a) then insertPos rest2 (o, a) + 1 else 0) + 1 = 1
    rw [if_neg hnclt]
  unfold freeChunk
  dsimp only
  rw [hpos1]
  rw [if_neg (Nat.succ_ne_zero 0)]
  rw [show (1 : Nat) - 1 = 0 from rfl, List.get?_cons_zero, List.get?_cons_succ,
    List.get?_cons_zero]
  dsimp only
  rw [if_neg hov, if_neg hovn]
  by_cases hmp : c.1 + (c.2 : Int) = o
  · rw [decide_eq_true hmp, if_pos hmp]
    by_cases hmn : o + (a : Int) = nh.1
    · rw [decide_eq_true hmn, if_pos hmn]
      dsimp only
      rw [List.set_cons_zero]
      rfl
    · rw [decide_eq_false hmn, if_neg hmn]
      dsimp only
      rw [List.set_cons_zero]
  · rw [decide_eq_false hmp, if_neg hmp]
    by_cases hmn : o + (a : Int) = nh.1
    · rw [decide_eq_true hmn, if_pos hmn]
      dsimp only
      rw [List.set_cons_succ, List.set_cons_zero]
    · rw [decide_eq_false hmn, if_neg hmn]
      dsimp only
      rw [List.insertIdx_succ_cons, List.insertIdx_zero]

theorem coveredL_nil_iff (x : Int) : coveredL [] x ↔ False :=
  iff_false_intro (coveredL_nil x)

theorem orShuffleA (H C N P R : Prop) (h : H ↔ C ∨ N ∨ R) :
    (H ∨ P) ↔ ((C ∨ N ∨ P) ∨ R) := by
  rw [h]
  tauto

theorem orShuffleB (H C Q R : Prop) (h : H ↔ C ∨ R) :
    (H ∨ Q) ↔ ((C ∨ Q) ∨ R) := by
  rw [h]
  tauto

theorem orShuffleC (C H P N R : Prop) (h : H ↔ N ∨ R) :
    (C ∨ H ∨ P) ↔ ((C ∨ N ∨ P) ∨ R) := by
  rw [h]
  tauto

theorem orShuffleD (C R N P : Prop) :
    (C ∨ R ∨ N ∨ P) ↔ ((C ∨ N ∨ P) ∨ R) := by
  tauto

theorem orShuffleE (R C P : Prop) :
    (R ∨ C ∨ P) ↔ ((C ∨ P) ∨ R) := by
  tauto

set_option maxHeartbeats 6400000 in
/-- Specification of `free_stack_chunk` for a positive-size region disjoint
from a well-formed free list: it succeeds, keeps the list sorted with strict
gaps and positive sizes, starts of new chunks come from old chunks or the
freed region, and the covered set grows by exactly the freed region. -/
theorem freeChunk_spec : ∀ (chunks : List (Int × Nat)) (o : Int) (a : Nat),
    0 < a →
    chunks.Pairwise gapRel →
    (∀ c ∈ chunks, 0 < c.2) →
    (∀ c ∈ chunks, o + (a : Int) ≤ c.1 ∨ c.1 + (c.2 : Int) ≤ o) →
    ∃ chunks2, freeChunk chunks o a = some chunks2 ∧
      chunks2.Pairwise gapRel ∧ (∀ c ∈ chunks2, 0 < c.2) ∧
      (∀ d ∈ chunks2, d.1 = o ∨ ∃ e ∈ chunks, d.1 = e.1) ∧
      (∀ x, coveredL chunks2 x ↔ coveredL chunks x ∨ (o ≤ x ∧ x < o + a)) := by
  intro chunks
  induction chunks with
  | nil =>
      intro o a ha _ _ _
      refine ⟨[(o, a)], rfl, List.pairwise_singleton .., ?_, ?_, ?_⟩
      · intro c hc
        rw [List.mem_singleton] at hc
        subst hc
        exact ha
      · intro d hd
        rw [List.mem_singleton] at hd
        subst hd
        exact Or.inl rfl
      · intro x
        simp only [coveredL_cons, coveredL_nil_iff, or_false, false_or, pointIn]
  | cons c rest ih =>
      intro o a ha hpw hsz hdisj
      have hc2 : 0 < c.2 := hsz c (List.mem_cons_self _ _)
      have hszr : ∀ d ∈ rest, 0 < d.2 := fun d hd => hsz d (List.mem_cons_of_mem _ hd)
      have hpwh : ∀ d ∈ rest, gapRel c d := (List.pairwise_cons.mp hpw).1
      have hpwt : rest.Pairwise gapRel := (List.pairwise_cons.mp hpw).2
      have hdc := hdisj c (List.mem_cons_self _ _)
      have hdr : ∀ d ∈ rest, o + (a : Int) ≤ d.1 ∨ d.1 + (d.2 : Int) ≤ o :=
        fun d hd => hdisj d (List.mem_cons_of_mem _ hd)
      by_cases hclt : c.1 < o ∨ (c.1 = o ∧ c.2 < a)
      · have hce : c.1 + (c.2 : Int) ≤ o := by
          rcases hdc with h | h
          · exfalso
            omega
          · exact h
        have hov : ¬(o < c.1 + (c.2 : Int)) := by omega
        rcases hrp : insertPos rest (o, a) with _ | p2
        · rcases rest with _ | ⟨nh, rest2⟩
          · rw [freeChunk_eval_pos1_nil c o a hclt hov]
            by_cases hmp : c.1 + (c.2 : Int) = o
            · rw [if_pos hmp]
              refine ⟨_, rfl, List.pairwise_singleton .., ?_, ?_, ?_⟩
              · intro d hd
                rw [List.mem_singleton] at hd
                subst hd
                omega
              · intro d hd
                rw [List.mem_singleton] at hd
                subst hd
                exact Or.inr ⟨c, List.mem_cons_self _ _, rfl⟩
              · intro x
                simp only [coveredL_cons, coveredL_nil_iff, or_false, pointIn]
                omega
            · rw [if_neg hmp]
              refine ⟨_, rfl, ?_, ?_, ?_, ?_⟩
              · refine List.pairwise_cons.mpr ⟨?_, List.pairwise_singleton ..⟩
                intro d hd
                rw [List.mem_singleton] at hd
                subst hd
                show c.1 + (c.2 : Int) < o
                omega
              · intro d hd
                rcases List.mem_cons.mp hd with rfl | hd2
                · exact hc2
                · rw [List.mem_singleton] at hd2
                  subst hd2
                  exact ha
              · intro d hd
                rcases List.mem_cons.mp hd with rfl | hd2
                · exact Or.inr ⟨d, List.mem_cons_self _ _, rfl⟩
                · rw [List.mem_singleton] at hd2
                  subst hd2
                  exact Or.inl rfl
              · intro x
                simp only [coveredL_cons, coveredL_nil_iff, or_false, pointIn]
          · have hnclt : ¬(nh.1 < o ∨ (nh.1 = o ∧ nh.2 < a)) := by
              intro hcon
              have : insertPos (nh :: rest2) (o, a) =
                  insertPos rest2 (o, a) + 1 := by
                show (if nh.1 < o ∨ (nh.1 = o ∧ nh.2 < a) then insertPos rest2 (o, a) + 1
                  else 0) = _
                rw [if_pos hcon]
              rw [this] at hrp
              exact Nat.succ_ne_zero _ hrp
            have hnh2 : 0 < nh.2 := hszr nh (List.mem_cons_self _ _)
            have hgen : o + (a : Int) ≤ nh.1 := by
              rcases hdr nh (List.mem_cons_self _ _) with h | h
              · exact h
              · exfalso
                push_neg at hnclt
                omega
            have hovn : ¬(nh.1 < o + (a : Int)) := by omega
            have hgapcn : c.1 + (c.2 : Int) < nh.1 := hpwh nh (List.mem_cons_self _ _)
            have hpwh2 : ∀ d ∈ rest2, gapRel nh d := (List.pairwise_cons.mp hpwt).1
            have hpwt2 : rest2.Pairwise gapRel := (List.pairwise_cons.mp hpwt).2
            have hszr2 : ∀ d ∈ rest2, 0 < d.2 :=
              fun d hd => hszr d (List.mem_cons_of_mem _ hd)
            rw [freeChunk_eval_pos1_cons c nh rest2 o a hclt hnclt hov hovn]
            by_cases hmp : c.1 + (c.2 : Int) = o
            · rw [if_pos hmp]
              by_cases hmn : o + (a : Int) = nh.1
              · rw [if_pos hmn]
                refine ⟨_, rfl, ?_, ?_, ?_, ?_⟩
                · refine List.pairwise_cons.mpr ⟨?_, hpwt2⟩
                  intro d hd
                  have h9 : gapRel nh d := hpwh2 d hd
                  show c.1 + ((c.2 + a + nh.2 : Nat) : Int) < d.1
                  simp only [gapRel] at h9
                  push_cast
                  omega
                · intro d hd
                  rcases List.mem_cons.mp hd with rfl | hd2
                  · omega
                  · exact hszr2 d hd2
                · intro d hd
                  rcases List.mem_cons.mp hd with rfl | hd2
                  · exact Or.inr ⟨c, List.mem_cons_self _ _, rfl⟩
                  · exact Or.inr ⟨d, List.mem_cons_of_mem _ (List.mem_cons_of_mem _ hd2), rfl⟩
                · intro x
                  simp only [coveredL_cons, pointIn]
                  have harith : (c.1 ≤ x ∧ x < c.1 + ((c.2 + a + nh.2 : Nat) : Int)) ↔
                      ((c.1 ≤ x ∧ x < c.1 + (c.2 : Int)) ∨
                        (nh.1 ≤ x ∧ x < nh.1 + (nh.2 : Int)) ∨
                        (o ≤ x ∧ x < o + (a : Int))) := by
                    push_cast
                    omega
                  exact orShuffleA _ _ _ _ _ harith
              · rw [if_neg hmn]
                refine ⟨_, rfl, ?_, ?_, ?_, ?_⟩
                · refine List.pairwise_cons.mpr ⟨?_, hpwt⟩
                  intro d hd
                  rcases List.mem_cons.mp hd with rfl | hd2
                  · show c.1 + ((c.2 + a : Nat) : Int) < d.1
                    push_cast
                    omega
                  · have h9 : gapRel nh d := hpwh2 d hd2
                    simp only [gapRel] at h9
                    show c.1 + ((c.2 + a : Nat) : Int) < d.1
                    push_cast
                    omega
                · intro d hd
                  rcases List.mem_cons.mp hd with rfl | hd2
                  · omega
                  · exact hszr d hd2
                · intro d hd
                  rcases List.mem_cons.mp hd with rfl | hd2
                  · exact Or.inr ⟨c, List.mem_cons_self _ _, rfl⟩
                  · exact Or.inr ⟨d, List.mem_cons_of_mem _ hd2, rfl⟩
                · intro x
                  simp only [coveredL_cons, pointIn]
                  have harith : (c.1 ≤ x ∧ x < c.1 + ((c.2 + a : Nat) : Int)) ↔
                      ((c.1 ≤ x ∧ x < c.1 + (c.2 : Int)) ∨
                        (o ≤ x ∧ x < o + (a : Int))) := by
                    push_cast
                    omega
                  exact orShuffleB _ _ _ _ harith
            · rw [if_neg hmp]
              by_cases hmn : o + (a : Int) = nh.1
              · rw [if_pos hmn]
                refine ⟨_, rfl, ?_, ?_, ?_, ?_⟩
                · refine List.pairwise_cons.mpr ⟨?_, List.pairwise_cons.mpr ⟨?_, hpwt2⟩⟩
                  · intro d hd
                    rcases List.mem_cons.mp hd with rfl | hd2
                    · show c.1 + (c.2 : Int) < o
                      omega
                    · have h9 : gapRel nh d := hpwh2 d hd2
                      simp only [gapRel] at h9
                      show c.1 + (c.2 : Int) < d.1
                      omega
                  · intro d hd
                    have h9 : gapRel nh d := hpwh2 d hd
                    simp only [gapRel] at h9
                    show o + ((nh.2 + a : Nat) : Int) < d.1
                    push_cast
                    omega
                · intro d hd
                  rcases List.mem_cons.mp hd with rfl | hd2
                  · exact hc2
                  · rcases List.mem_cons.mp hd2 with rfl | hd3
                    · omega
                    · exact hszr2 d hd3
                · intro d hd
                  rcases List.mem_cons.mp hd with rfl | hd2
                  · exact Or.inr ⟨d, List.mem_cons_self _ _, rfl⟩
                  · rcases List.mem_cons.mp hd2 with rfl | hd3
                    · exact Or.inl rfl
                    · exact Or.inr ⟨d, List.mem_cons_of_mem _ (List.mem_cons_of_mem _ hd3), rfl⟩
                · intro x
                  simp only [coveredL_cons, pointIn]
                  have harith : (o ≤ x ∧ x < o + ((nh.2 + a : Nat) : Int)) ↔
                      ((nh.1 ≤ x ∧ x < nh.1 + (nh.2 : Int)) ∨
                        (o ≤ x ∧ x < o + (a : Int))) := by
                    push_cast
                    omega
                  exact orShuffleC _ _ _ _ _ harith
              · rw [if_neg hmn]
                refine ⟨_, rfl, ?_, ?_, ?_, ?_⟩
                · refine List.pairwise_cons.mpr ⟨?_, List.pairwise_cons.mpr ⟨?_, hpwt⟩⟩
                  · intro d hd
                    rcases List.mem_cons.mp hd with rfl | hd2
                    · show c.1 + (c.2 : Int) < o
                      omega
                    · rcases List.mem_cons.mp hd2 with rfl | hd3
                      · show c.1 + (c.2 : Int) < d.1
                        omega
                      · have h9 : gapRel nh d := hpwh2 d hd3
                        simp only [gapRel] at h9
                        show c.1 + (c.2 : Int) < d.1
                        omega
                  · intro d hd
                    rcases List.mem_cons.mp hd with rfl | hd2
                    · show o + (a : Int) < d.1
                      omega
                    · have h9 : gapRel nh d := hpwh2 d hd2
                      simp only [gapRel] at h9
                      show o + (a : Int) < d.1
                      omega
                · intro d hd
                  rcases List.mem_cons.mp hd with rfl | hd2
                  · exact hc2
                  · rcases List.mem_cons.mp hd2 with rfl | hd3
                    · exact ha
                    · exact hszr d hd3
                · intro d hd
                  rcases List.mem_cons.mp hd with rfl | hd2
                  · exact Or.inr ⟨d, List.mem_cons_self _ _, rfl⟩
                  · rcases List.mem_cons.mp hd2 with rfl | hd3
                    · exact Or.inl rfl
                    · exact Or.inr ⟨d, List.mem_cons_of_mem _ hd3, rfl⟩
                · intro x
                  simp only [coveredL_cons, pointIn]
                  exact orShuffleD _ _ _ _
        · rcases rest with _ | ⟨nh, rest3⟩
          · exfalso
            exact Nat.noConfusion hrp
          · have hnhlt : nh.1 < o ∨ (nh.1 = o ∧ nh.2 < a) := by
              by_contra hcon
              have : insertPos (nh :: rest3) (o, a) = 0 := by
                show (if nh.1 < o ∨ (nh.1 = o ∧ nh.2 < a) then insertPos rest3 (o, a) + 1
                  else 0) = 0
                rw [if_neg hcon]
              rw [this] at hrp
              exact Nat.noConfusion hrp
            have hnh2 : 0 < nh.2 := hszr nh (List.mem_cons_self _ _)
            have hnhend : nh.1 + (nh.2 : Int) ≤ o := by
              rcases hdr nh (List.mem_cons_self _ _) with h | h
              · exfalso
                omega
              · exact h
            have hgapcn : gapRel c nh := hpwh nh (List.mem_cons_self _ _)
            have hceLT : c.1 + (c.2 : Int) < o := by
              simp only [gapRel] at hgapcn
              omega
            rw [freeChunk_cons_shift c (nh :: rest3) o a hclt p2 hrp]
            obtain ⟨l2, hfc, hpw2, hsz2, hst2, hcov2⟩ := ih o a ha hpwt hszr hdr
            rw [hfc]
            refine ⟨c :: l2, rfl, ?_, ?_, ?_, ?_⟩
            · refine List.pairwise_cons.mpr ⟨?_, hpw2⟩
              intro d hd
              rcases hst2 d hd with h | ⟨e, he, hde⟩
              · show c.1 + (c.2 : Int) < d.1
                omega
              · have h9 : gapRel c e := hpwh e he
                simp only [gapRel] at h9
                show c.1 + (c.2 : Int) < d.1
                omega
            · intro d hd
              rcases List.mem_cons.mp hd with rfl | hd2
              · exact hc2
              · exact hsz2 d hd2
            · intro d hd
              rcases List.mem_cons.mp hd with rfl | hd2
              · exact Or.inr ⟨d, List.mem_cons_self _ _, rfl⟩
              · rcases hst2 d hd2 with h | ⟨e, he, hde⟩
                · exact Or.inl h
                · exact Or.inr ⟨e, List.mem_cons_of_mem _ he, hde⟩
            · intro x
              simp only [coveredL_cons]
              rw [hcov2 x, coveredL_cons]
              exact or_assoc.symm
      · have hge0 : o + (a : Int) ≤ c.1 := by
          rcases hdc with h | h
          · exact h
          · exfalso
            push_neg at hclt
            omega
        have hge : ¬(c.1 < o + (a : Int)) := by omega
        rw [freeChunk_eval_pos0 c rest o a hclt hge]
        by_cases hmn : o + (a : Int) = c.1
        · rw [if_pos hmn]
          refine ⟨_, rfl, ?_, ?_, ?_, ?_⟩
          · refine List.pairwise_cons.mpr ⟨?_, hpwt⟩
            intro d hd
            have h9 : gapRel c d := hpwh d hd
            simp only [gapRel] at h9
            show o + ((c.2 + a : Nat) : Int) < d.1
            push_cast
            omega
          · intro d hd
            rcases List.mem_cons.mp hd with rfl | hd2
            · omega
            · exact hszr d hd2
          · intro d hd
            rcases List.mem_cons.mp hd with rfl | hd2
            · exact Or.inl rfl
            · exact Or.inr ⟨d, List.mem_cons_of_mem _ hd2, rfl⟩
          · intro x
            simp only [coveredL_cons, pointIn]
            have harith : (o ≤ x ∧ x < o + ((c.2 + a : Nat) : Int)) ↔
                ((c.1 ≤ x ∧ x < c.1 + (c.2 : Int)) ∨ (o ≤ x ∧ x < o + (a : Int))) := by
              push_cast
              omega
            exact orShuffleB _ _ _ _ harith
        · rw [if_neg hmn]
          refine ⟨_, rfl, ?_, ?_, ?_, ?_⟩
          · refine List.pairwise_cons.mpr ⟨?_, hpw⟩
            intro d hd
            rcases List.mem_cons.mp hd with rfl | hd2
            · show o + (a : Int) < d.1
              omega
            · have h9 : gapRel c d := hpwh d hd2
              simp only [gapRel] at h9
              show o + (a : Int) < d.1
              omega
          · intro d hd
            rcases List.mem_cons.mp hd with rfl | hd2
            · exact ha
            · exact hsz d hd2
          · intro d hd
            rcases List.mem_cons.mp hd with rfl | hd2
            · exact Or.inl rfl
            · exact Or.inr ⟨d, hd2, rfl⟩
          · intro x
            simp only [coveredL_cons, pointIn]
            exact orShuffleE _ _ _

theorem covered_ge_head (c : Int × Nat) (t : List (Int × Nat)) (x : Int)
    (hpw : (c :: t).Pairwise gapRel) (hx : coveredL (c :: t) x) : c.1 ≤ x := by
  rcases hx with ⟨d, hd, hxd⟩
  simp only [pointIn] at hxd
  rcases List.mem_cons.mp hd with rfl | hd2
  · exact hxd.1
  · have h9 : gapRel c d := (List.pairwise_cons.mp hpw).1 d hd2
    simp only [gapRel] at h9
    omega

theorem covered_tail_iff (c : Int × Nat) (t : List (Int × Nat)) (x : Int)
    (hpw : (c :: t).Pairwise gapRel) :
    coveredL t x ↔ (coveredL (c :: t) x ∧ c.1 + (c.2 : Int) ≤ x) := by
  constructor
  · rintro ⟨d, hd, hxd⟩
    refine ⟨⟨d, List.mem_cons_of_mem _ hd, hxd⟩, ?_⟩
    have h9 : gapRel c d := (List.pairwise_cons.mp hpw).1 d hd
    simp only [gapRel] at h9
    simp only [pointIn] at hxd
    omega
  · rintro ⟨hcov, hge⟩
    rcases coveredL_cons.mp hcov with hx | hx
    · exfalso
      simp only [pointIn] at hx
      omega
    · exact hx

/-- Two sorted, gapped, positive-size chunk lists covering the same set of
positions are equal. -/
theorem chunks_coverage_unique : ∀ (l1 l2 : List (Int × Nat)),
    l1.Pairwise gapRel → l2.Pairwise gapRel →
    (∀ c ∈ l1, 0 < c.2) → (∀ c ∈ l2, 0 < c.2) →
    (∀ x, coveredL l1 x ↔ coveredL l2 x) → l1 = l2 := by
  intro l1
  induction l1 with
  | nil =>
      intro l2 _ _ _ hsz2 hcov
      cases l2 with
      | nil => rfl
      | cons c2 t2 =>
          exfalso
          have h2 : coveredL (c2 :: t2) c2.1 := by
            refine ⟨c2, List.mem_cons_self _ _, ?_⟩
            have := hsz2 c2 (List.mem_cons_self _ _)
            simp only [pointIn]
            omega
          exact coveredL_nil c2.1 ((hcov c2.1).mpr h2)
  | cons c1 t1 ih =>
      intro l2 hpw1 hpw2 hsz1 hsz2 hcov
      cases l2 with
      | nil =>
          exfalso
          have h1 : coveredL (c1 :: t1) c1.1 := by
            refine ⟨c1, List.mem_cons_self _ _, ?_⟩
            have := hsz1 c1 (List.mem_cons_self _ _)
            simp only [pointIn]
            omega
          exact coveredL_nil c1.1 ((hcov c1.1).mp h1)
      | cons c2 t2 =>
          have hs1 : 0 < c1.2 := hsz1 c1 (List.mem_cons_self _ _)
          have hs2 : 0 < c2.2 := hsz2 c2 (List.mem_cons_self _ _)
          have hc1cov : coveredL (c1 :: t1) c1.1 :=
            ⟨c1, List.mem_cons_self _ _, by simp only [pointIn]; omega⟩
          have hc2cov : coveredL (c2 :: t2) c2.1 :=
            ⟨c2, List.mem_cons_self _ _, by simp only [pointIn]; omega⟩
          have hle1 : c2.1 ≤ c1.1 := covered_ge_head c2 t2 c1.1 hpw2 ((hcov c1.1).mp hc1cov)
          have hle2 : c1.1 ≤ c2.1 := covered_ge_head c1 t1 c2.1 hpw1 ((hcov c2.1).mpr hc2cov)
          have hstart : c1.1 = c2.1 := le_antisymm hle2 hle1
          have hend : c1.2 = c2.2 := by
            by_contra hne
            rcases Nat.lt_or_ge c1.2 c2.2 with hlt | hge
            · have hxcov2 : coveredL (c2 :: t2) (c1.1 + (c1.2 : Int)) :=
                ⟨c2, List.mem_cons_self _ _, by simp only [pointIn]; omega⟩
              have hxcov1 := (hcov _).mpr hxcov2
              rcases (covered_tail_iff c1 t1 _ hpw1).mpr ⟨hxcov1, le_refl _⟩ with
                ⟨d, hd, hxd⟩
              have h9 : gapRel c1 d := (List.pairwise_cons.mp hpw1).1 d hd
              simp only [gapRel] at h9
              simp only [pointIn] at hxd
              omega
            · have hlt2 : c2.2 < c1.2 := by omega
              have hxcov1 : coveredL (c1 :: t1) (c2.1 + (c2.2 : Int)) :=
                ⟨c1, List.mem_cons_self _ _, by simp only [pointIn]; omega⟩
              have hxcov2 := (hcov _).mp hxcov1
              rcases (covered_tail_iff c2 t2 _ hpw2).mpr ⟨hxcov2, le_refl _⟩ with
                ⟨d, hd, hxd⟩
              have h9 : gapRel c2 d := (List.pairwise_cons.mp hpw2).1 d hd
              simp only [gapRel] at h9
              simp only [pointIn] at hxd
              omega
          have hhead : c1 = c2 := Prod.ext_iff.mpr ⟨hstart, hend⟩
          have htail : t1 = t2 := by
            apply ih t2 (List.pairwise_cons.mp hpw1).2 (List.pairwise_cons.mp hpw2).2
              (fun d hd => hsz1 d (List.mem_cons_of_mem _ hd))
              (fun d hd => hsz2 d (List.mem_cons_of_mem _ hd))
            intro x
            rw [covered_tail_iff c1 t1 x hpw1, covered_tail_iff c2 t2 x hpw2,
              hcov x, hstart, hend]
          rw [hhead, htail]

/-- Pointwise-disjoint nonempty intervals are separated as intervals. -/
theorem interval_disjoint_of_pointwise (o : Int) (a : Nat) (c : Int × Nat)
    (h : ∀ x, (o ≤ x ∧ x < o + (a : Nat)) → ¬ pointIn x c) (ha : 0 < a)
    (hc : 0 < c.2) : o + (a : Int) ≤ c.1 ∨ c.1 + (c.2 : Int) ≤ o := by
  by_contra hcon
  push_neg at hcon
  rcases le_total o c.1 with h1 | h1
  · exact h c.1 ⟨h1, by omega⟩ (by simp only [pointIn]; omega)
  · exact h o ⟨le_refl o, by omega⟩ (by simp only [pointIn]; omega)

/-- C4: `claim_stack_size(amount)`, for `amount > 0`, rounds `amount` up to a
multiple of 8, then serves the request from the smallest free chunk whose size
is at least the rounded amount (ties broken by first occurrence), shrinking
that chunk from its low-offset end and removing it when exactly consumed; if
no chunk fits it grows `stack_size` by the rounded amount and returns
`-stack_size`, fatally failing when the grown `stack_size` would exceed
`i32::MAX`. -/
theorem claim_stack_size_correct (s : SM) (amount : Nat) (hpos : 0 < amount) :
    amount ≤ roundUp8 amount ∧ roundUp8 amount % 8 = 0 ∧
    roundUp8 amount < amount + 8 ∧
    ((∃ pos o sz,
        s.freeStackChunks.get? pos = some (o, sz) ∧
        roundUp8 amount ≤ sz ∧
        (∀ c ∈ s.freeStackChunks, roundUp8 amount ≤ c.2 → sz ≤ c.2) ∧
        (∀ i c, i < pos → s.freeStackChunks.get? i = some c →
          roundUp8 amount ≤ c.2 → sz < c.2) ∧
        claimStackSize s amount = some (o,
          { s with freeStackChunks :=
              if sz = roundUp8 amount then s.freeStackChunks.eraseIdx pos
              else (s.freeStackChunks.set pos (o + roundUp8 amount, sz - roundUp8 amount)) })) ∨
     ((∀ c ∈ s.freeStackChunks, c.2 < roundUp8 amount) ∧
      (s.stackSize + roundUp8 amount ≤ 2147483647 →
        claimStackSize s amount = some (-((s.stackSize + roundUp8 amount : Nat) : Int),
          { s with stackSize := s.stackSize + roundUp8 amount })) ∧
      (2147483647 < s.stackSize + roundUp8 amount →
        claimStackSize s amount = none))) := by
  have hne : amount ≠ 0 := Nat.pos_iff_ne_zero.mp hpos
  have hr1 : amount ≤ roundUp8 amount ∧ roundUp8 amount % 8 = 0 ∧
      roundUp8 amount < amount + 8 := by
    unfold roundUp8
    by_cases h : amount % 8 ≠ 0
    · rw [if_pos h]
      omega
    · rw [if_neg h]
      omega
  refine ⟨hr1.1, hr1.2.1, hr1.2.2, ?_⟩
  unfold claimStackSize
  rw [if_neg hne]
  rcases hbf : findBestFit s.freeStackChunks (roundUp8 amount) with _ | ⟨pos, o, sz⟩
  · refine Or.inr ⟨findBestFit_none _ _ hbf, ?_, ?_⟩
    · intro hle
      dsimp only
      rw [if_neg (by omega : ¬ s.stackSize + roundUp8 amount > 2147483647)]
    · intro hgt
      dsimp only
      rw [if_pos (by omega : s.stackSize + roundUp8 amount > 2147483647)]
  · obtain ⟨hget, hfit, hmin, hfirst⟩ := findBestFit_some _ _ _ _ _ hbf
    refine Or.inl ⟨pos, o, sz, hget, hfit, ?_, hfirst, ?_⟩
    · intro c hc hcfit
      obtain ⟨i, hi⟩ := List.mem_iff_get?.mp hc
      exact hmin i c hi hcfit
    · dsimp only
      by_cases heq : sz = roundUp8 amount
      · rw [if_pos heq, if_pos heq]
      · rw [if_neg heq, if_neg heq]

theorem claim_stack_size_correct_witness :
    0 < 5 ∧
    (5 ≤ roundUp8 5 ∧ roundUp8 5 % 8 = 0 ∧
    roundUp8 5 < 5 + 8 ∧
    ((∃ pos o sz,
        (resetSM cc16).freeStackChunks.get? pos = some (o, sz) ∧
        roundUp8 5 ≤ sz ∧
        (∀ c ∈ (resetSM cc16).freeStackChunks, roundUp8 5 ≤ c.2 → sz ≤ c.2) ∧
        (∀ i c, i < pos → (resetSM cc16).freeStackChunks.get? i = some c →
          roundUp8 5 ≤ c.2 → sz < c.2) ∧
        claimStackSize (resetSM cc16) 5 = some (o,
          { resetSM cc16 with freeStackChunks :=
              if sz = roundUp8 5 then (resetSM cc16).freeStackChunks.eraseIdx pos
              else ((resetSM cc16).freeStackChunks.set pos (o + roundUp8 5, sz - roundUp8 5)) })) ∨
     ((∀ c ∈ (resetSM cc16).freeStackChunks, c.2 < roundUp8 5) ∧
      ((resetSM cc16).stackSize + roundUp8 5 ≤ 2147483647 →
        claimStackSize (resetSM cc16) 5 =
          some (-(((resetSM cc16).stackSize + roundUp8 5 : Nat) : Int),
            { resetSM cc16 with stackSize := (resetSM cc16).stackSize + roundUp8 5 })) ∧
      (2147483647 < (resetSM cc16).stackSize + roundUp8 5 →
        claimStackSize (resetSM cc16) 5 = none)))) :=
  ⟨by decide, claim_stack_size_correct (resetSM cc16) 5 (by decide)⟩

theorem orShuffleF1 (CA CB R S : Prop) (h : R ↔ S) :
    ((CA ∨ CB) ∨ R) ↔ (CA ∨ S ∨ CB) := by
  rw [h]
  tauto

theorem orShuffleF2 (CA H CB R S : Prop) (h : H ∨ R ↔ S) :
    ((CA ∨ H ∨ CB) ∨ R) ↔ (CA ∨ S ∨ CB) := by
  rw [← h]
  tauto

attribute [ext] SM

/-- C5 (amended): when `claim_stack_size(n)` is served from an existing free
chunk (some free chunk can hold the rounded request), freeing the returned
offset with the rounded size restores the storage manager exactly; the
grow-served round trip instead leaves behind a new free chunk. -/
theorem claim_free_fit_round_trip (s : SM) (n : Nat) (o : Int) (s2 : SM)
    (hwf : ChunksWF s.freeStackChunks)
    (hfit : ∃ c ∈ s.freeStackChunks, roundUp8 n ≤ c.2)
    (hclaim : claimStackSize s n = some (o, s2)) :
    freeStackChunkSM s2 o (roundUp8 n) = some s := by
  obtain ⟨hf1, hf2, hf3, hf4, hf5, hf6, hf7, hf8, hf9, hf10, hf11, hamt, hcase⟩ :=
    claimStackSize_shapes s n o s2 hclaim
  rcases hcase with ⟨A, B, sz, hdec, hfitsz, hss, hbr⟩ | ⟨-, -, -, -, hsmall⟩
  swap
  · exfalso
    obtain ⟨c, hc, hcfit⟩ := hfit
    exact absurd (hsmall c hc) (by omega)
  obtain ⟨hpw0, hsz0⟩ := hwf
  have hr : 0 < roundUp8 n := by
    unfold roundUp8
    by_cases h : n % 8 ≠ 0
    · rw [if_pos h]
      omega
    · rw [if_neg h]
      omega
  have hpw := hpw0
  have hsz := hsz0
  rw [hdec] at hpw hsz
  rw [List.pairwise_append] at hpw
  obtain ⟨hpwA, hpwOB, hcross⟩ := hpw
  have hpwB : B.Pairwise gapRel := (List.pairwise_cons.mp hpwOB).2
  have hOB : ∀ b ∈ B, gapRel (o, sz) b := (List.pairwise_cons.mp hpwOB).1
  have hszA : ∀ c ∈ A, 0 < c.2 := fun c hc => hsz c (List.mem_append_left _ hc)
  have hszB : ∀ c ∈ B, 0 < c.2 :=
    fun c hc => hsz c (List.mem_append_right _ (List.mem_cons_of_mem _ hc))
  have hszO : 0 < sz := hsz (o, sz) (List.mem_append_right _ (List.mem_cons_self _ _))
  have hAend : ∀ a ∈ A, a.1 + (a.2 : Int) < o := by
    intro a ha
    have h2 := hcross a ha (o, sz) (List.mem_cons_self _ _)
    simp only [gapRel] at h2
    exact h2
  have hBstart : ∀ b ∈ B, o + (sz : Int) < b.1 := by
    intro b hb
    have h2 := hOB b hb
    simp only [gapRel] at h2
    exact h2
  have hABgap : ∀ a ∈ A, ∀ b ∈ B, gapRel a b :=
    fun a ha b hb => hcross a ha b (List.mem_cons_of_mem _ hb)
  rcases hbr with ⟨hszeq, hafter⟩ | ⟨hlt, hafter⟩
  · -- exact-fit removal: the freed region re-inserts the removed chunk
    have hpw2 : (A ++ B).Pairwise gapRel :=
      List.pairwise_append.mpr ⟨hpwA, hpwB, hABgap⟩
    have hsz2 : ∀ c ∈ A ++ B, 0 < c.2 := by
      intro c hc
      rcases List.mem_append.mp hc with h | h
      · exact hszA c h
      · exact hszB c h
    have hdisj : ∀ c ∈ A ++ B, o + ((roundUp8 n : Nat) : Int) ≤ c.1 ∨
        c.1 + (c.2 : Int) ≤ o := by
      intro c hc
      rcases List.mem_append.mp hc with h | h
      · exact Or.inr (le_of_lt (hAend c h))
      · refine Or.inl ?_
        have := hBstart c h
        omega
    obtain ⟨l2, hfc, hpwl2, hszl2, -, hcov⟩ :=
      freeChunk_spec (A ++ B) o (roundUp8 n) hr hpw2 hsz2 hdisj
    have hcoveq : ∀ x, coveredL l2 x ↔ coveredL (A ++ (o, sz) :: B) x := by
      intro x
      rw [hcov x, coveredL_append, coveredL_append, coveredL_cons]
      refine orShuffleF1 _ _ _ _ ?_
      simp only [pointIn]
      omega
    have hpwO := hpw0
    have hszO2 := hsz0
    rw [hdec] at hpwO hszO2
    have hl2eq : l2 = A ++ (o, sz) :: B :=
      chunks_coverage_unique l2 _ hpwl2 hpwO hszl2 hszO2 hcoveq
    have hfc2 : freeChunk s2.freeStackChunks o (roundUp8 n) = some s.freeStackChunks := by
      rw [hafter, hfc, hl2eq, hdec]
    show (match freeChunk s2.freeStackChunks o (roundUp8 n) with
          | some chunks => some { s2 with freeStackChunks := chunks }
          | none => none) = some s
    rw [hfc2]
    show some { s2 with freeStackChunks := s.freeStackChunks } = some s
    exact congrArg some (SM.ext hf1 hf2 hf3 hf4 hf5 hf6 hf7 hf8 hf9 rfl hss hf10 hf11)
  · -- shrink: the freed region merges back with the shrunken chunk
    have hpwS : ((o + (roundUp8 n : Nat), sz - roundUp8 n) :: B).Pairwise gapRel := by
      refine List.pairwise_cons.mpr ⟨?_, hpwB⟩
      intro b hb
      have h2 := hBstart b hb
      show (o + (roundUp8 n : Nat)) + ((sz - roundUp8 n : Nat) : Int) < b.1
      omega
    have hpw2 : (A ++ (o + (roundUp8 n : Nat), sz - roundUp8 n) :: B).Pairwise gapRel := by
      refine List.pairwise_append.mpr ⟨hpwA, hpwS, ?_⟩
      intro a ha b hb
      rcases List.mem_cons.mp hb with rfl | hb2
      · have h2 := hAend a ha
        show a.1 + (a.2 : Int) < o + (roundUp8 n : Nat)
        omega
      · exact hABgap a ha b hb2
    have hsz2 : ∀ c ∈ A ++ (o + (roundUp8 n : Nat), sz - roundUp8 n) :: B, 0 < c.2 := by
      intro c hc
      rcases List.mem_append.mp hc with h | h
      · exact hszA c h
      · rcases List.mem_cons.mp h with rfl | h2
        · show 0 < sz - roundUp8 n
          omega
        · exact hszB c h2
    have hdisj : ∀ c ∈ A ++ (o + (roundUp8 n : Nat), sz - roundUp8 n) :: B,
        o + ((roundUp8 n : Nat) : Int) ≤ c.1 ∨ c.1 + (c.2 : Int) ≤ o := by
      intro c hc
      rcases List.mem_append.mp hc with h | h
      · exact Or.inr (le_of_lt (hAend c h))
      · rcases List.mem_cons.mp h with rfl | h2
        · exact Or.inl (by omega)
        · refine Or.inl ?_
          have := hBstart c h2
          omega
    obtain ⟨l2, hfc, hpwl2, hszl2, -, hcov⟩ :=
      freeChunk_spec _ o (roundUp8 n) hr hpw2 hsz2 hdisj
    have hcoveq : ∀ x, coveredL l2 x ↔ coveredL (A ++ (o, sz) :: B) x := by
      intro x
      rw [hcov x, coveredL_append, coveredL_cons, coveredL_append, coveredL_cons]
      refine orShuffleF2 _ _ _ _ _ ?_
      simp only [pointIn]
      omega
    have hpwO := hpw0
    have hszO2 := hsz0
    rw [hdec] at hpwO hszO2
    have hl2eq : l2 = A ++ (o, sz) :: B :=
      chunks_coverage_unique l2 _ hpwl2 hpwO hszl2 hszO2 hcoveq
    have hfc2 : freeChunk s2.freeStackChunks o (roundUp8 n) = some s.freeStackChunks := by
      rw [hafter, hfc, hl2eq, hdec]
    show (match freeChunk s2.freeStackChunks o (roundUp8 n) with
          | some chunks => some { s2 with freeStackChunks := chunks }
          | none => none) = some s
    rw [hfc2]
    show some { s2 with freeStackChunks := s.freeStackChunks } = some s
    exact congrArg some (SM.ext hf1 hf2 hf3 hf4 hf5 hf6 hf7 hf8 hf9 rfl hss hf10 hf11)

theorem claim_free_fit_round_trip_witness :
    ChunksWF ({ resetSM cc16 with
      freeStackChunks := [(-16, 16)], stackSize := 16 } : SM).freeStackChunks ∧
    (∃ c ∈ ({ resetSM cc16 with
      freeStackChunks := [(-16, 16)], stackSize := 16 } : SM).freeStackChunks,
      roundUp8 8 ≤ c.2) ∧
    freeStackChunkSM { resetSM cc16 with freeStackChunks := [(-8, 8)], stackSize := 16 }
        (-16) (roundUp8 8) =
      some { resetSM cc16 with freeStackChunks := [(-16, 16)], stackSize := 16 } :=
  ⟨⟨List.pairwise_singleton .., by decide⟩,
   ⟨(-16, 16), by decide, by decide⟩,
   claim_free_fit_round_trip
     { resetSM cc16 with freeStackChunks := [(-16, 16)], stackSize := 16 } 8 (-16)
     { resetSM cc16 with freeStackChunks := [(-8, 8)], stackSize := 16 }
     ⟨List.pairwise_singleton .., by decide⟩
     ⟨(-16, 16), by decide, by decide⟩ (by decide)⟩

/-- The grow-served round trip does not restore the free list: claiming 8
bytes from a reset manager grows the stack, and freeing the returned offset
leaves one chunk where the reset manager had none. -/
theorem claim_free_round_trip_cex :
    claimStackSize (resetSM cc16) 8 =
      some (-8, { resetSM cc16 with stackSize := 8 }) ∧
    freeStackChunkSM { resetSM cc16 with stackSize := 8 } (-8) (roundUp8 8) =
      some { resetSM cc16 with stackSize := 8, freeStackChunks := [(-8, 8)] } ∧
    ({ resetSM cc16 with stackSize := 8, freeStackChunks := [(-8, 8)] } : SM).freeStackChunks ≠
      (resetSM cc16).freeStackChunks :=
  ⟨by decide, by decide, by decide⟩

/-- The stack region held by a storage descriptor through the primitive-slot
branch of `free_symbol` (every `Primitive` slot is 8 bytes wide). -/
def primRegionOf : Storage → Option (Int × Nat)
  | .stack (.primitive off _) => some (off, 8)
  | _ => none

/-- Stack regions held by `Primitive` storages of the symbol-storage map. -/
def primRegions (m : List (Nat × Storage)) : List (Int × Nat) :=
  m.filterMap (fun e => primRegionOf e.2)

/-- Stack regions held by allocation handles (`Rc<(i32, u32)>` payloads). -/
def allocRegions (am : List (Nat × (Nat × Int × Nat))) : List (Int × Nat) :=
  am.map (fun e => (e.2.2.1, e.2.2.2))

/-- All stack regions held by live storage of the manager. -/
def liveRegions (s : SM) : List (Int × Nat) :=
  primRegions s.symbolStorageMap ++ allocRegions s.allocationMap

/-- Two stack regions share no position. -/
def regionsDisjoint (c d : Int × Nat) : Prop := ∀ x, ¬(pointIn x c ∧ pointIn x d)

/-- The claim/free storage-manager operations of the stack-arena life cycle. -/
inductive SMOp where
  | claimGeneral (sym : Nat)
  | claimFloat (sym : Nat)
  | claimArea (sym : Nat) (size : Nat)
  | freeSym (sym : Nat)
  | freeRef (sym : Nat)
deriving DecidableEq, Repr

/-- One storage-manager operation as a state transformer. -/
def smStep (cc : CallConv) (s : SM) : SMOp → Option SM
  | .claimGeneral sym => (claimGeneralReg cc s sym).map Prod.snd
  | .claimFloat sym => (claimFloatReg cc s sym).map Prod.snd
  | .claimArea sym size => (claimStackArea s sym size).map Prod.snd
  | .freeSym sym => freeSymbol s sym
  | .freeRef sym => freeReference s sym

/-- Run a sequence of storage-manager operations. -/
def runOps (cc : CallConv) (s : SM) : List SMOp → Option SM
  | [] => some s
  | op :: rest =>
      match smStep cc s op with
      | some s2 => runOps cc s2 rest
      | none => none

/-- A well-disciplined operation in a given state: `claim_stack_area` is used
with an 8-byte-aligned size and for an identifier that is not currently
claimed (re-claiming a live identifier is a programming invariant the code
does not check in this path). -/
def okOp (s : SM) : SMOp → Prop
  | .claimArea sym size =>
      size % 8 = 0 ∧ mapGet s.symbolStorageMap sym = none ∧
        mapGet s.allocationMap sym = none
  | _ => True

/-- Every operation of the sequence is well disciplined in the state where it
executes. -/
def disciplined (cc : CallConv) (s : SM) : List SMOp → Prop
  | [] => True
  | op :: rest =>
      okOp s op ∧
      (match smStep cc s op with
       | some s2 => disciplined cc s2 rest
       | none => True)

/-- The stack-arena invariant: the free-chunk list is sorted with strict gaps
and positive sizes, the free chunks and the live storage regions partition the
stack window `[-stack_size, 0)` without overlap, live regions are mutually
disjoint with positive sizes, map keys and allocation ids are unambiguous, and
no join parameters are registered. -/
structure ArenaInv (s : SM) : Prop where
  pw : s.freeStackChunks.Pairwise gapRel
  szpos : ∀ c ∈ s.freeStackChunks, 0 < c.2
  part : ∀ x, (-(s.stackSize : Int) ≤ x ∧ x < 0) ↔
    (coveredL s.freeStackChunks x ∨ coveredL (liveRegions s) x)
  disj : ∀ x, ¬(coveredL s.freeStackChunks x ∧ coveredL (liveRegions s) x)
  livePw : (liveRegions s).Pairwise regionsDisjoint
  liveSz : ∀ c ∈ liveRegions s, 0 < c.2
  keysS : (s.symbolStorageMap.map Prod.fst).Nodup
  keysA : (s.allocationMap.map Prod.fst).Nodup
  ids : (s.allocationMap.map (fun e => e.2.1)).Nodup
  idsLt : ∀ e ∈ s.allocationMap, e.2.1 < s.nextAllocId
  join : s.joinParamMap = []

theorem mapGet_none_forall {α : Type} (m : List (Nat × α)) (k : Nat)
    (h : mapGet m k = none) : ∀ e ∈ m, e.1 ≠ k := by
  induction m with
  | nil => intro e he; exact absurd he (List.not_mem_nil e)
  | cons e2 rest ih =>
      obtain ⟨k2, v⟩ := e2
      intro e he
      by_cases hk : k2 = k
      · simp [mapGet, hk] at h
      · simp only [mapGet, if_neg hk] at h
        rcases List.mem_cons.mp he with rfl | he2
        · exact hk
        · exact ih h e he2

theorem mapRemove_decomp {α : Type} (m : List (Nat × α)) (k : Nat) (v : α)
    (h : mapGet m k = some v) :
    ∃ M1 M2, m = M1 ++ (k, v) :: M2 ∧ mapRemove m k = M1 ++ M2 ∧
      ∀ e ∈ M1, e.1 ≠ k := by
  induction m with
  | nil => exact Option.noConfusion h
  | cons e2 rest ih =>
      obtain ⟨k2, v2⟩ := e2
      by_cases hk : k2 = k
      · subst hk
        simp only [mapGet, if_pos rfl] at h
        obtain rfl := Option.some.inj h
        refine ⟨[], rest, rfl, ?_, fun e he => absurd he (List.not_mem_nil e)⟩
        show (if k2 = k2 then rest else _) = [] ++ rest
        rw [if_pos rfl]
        rfl
      · simp only [mapGet, if_neg hk] at h
        obtain ⟨M1, M2, hm, hr, hne⟩ := ih h
        refine ⟨(k2, v2) :: M1, M2, by rw [hm]; rfl, ?_, ?_⟩
        · show (if k2 = k then rest else (k2, v2) :: mapRemove rest k) = _
          rw [if_neg hk, hr]
          rfl
        · intro e he
          rcases List.mem_cons.mp he with rfl | he2
          · exact hk
          · exact hne e he2

theorem primRegions_append (m1 m2 : List (Nat × Storage)) :
    primRegions (m1 ++ m2) = primRegions m1 ++ primRegions m2 := by
  unfold primRegions
  rw [List.filterMap_append]

theorem allocRegions_append (a1 a2 : List (Nat × (Nat × Int × Nat))) :
    allocRegions (a1 ++ a2) = allocRegions a1 ++ allocRegions a2 := by
  unfold allocRegions
  rw [List.map_append]

theorem regionsDisjoint_symm (c d : Int × Nat) (h : regionsDisjoint c d) :
    regionsDisjoint d c := by
  intro x hx
  exact h x ⟨hx.2, hx.1⟩

theorem regionsDisjoint_symmetric : Symmetric regionsDisjoint :=
  fun c d h => regionsDisjoint_symm c d h

/-- Removing one region from a pairwise-disjoint list: the removed region is
disjoint from every remaining one. -/
theorem pairwise_remove_disjoint (L1 L2 : List (Int × Nat)) (r : Int × Nat)
    (h : (L1 ++ r :: L2).Pairwise regionsDisjoint) :
    ∀ d ∈ L1 ++ L2, regionsDisjoint r d := by
  rw [List.pairwise_append] at h
  obtain ⟨h1, h2, hcross⟩ := h
  intro d hd
  rcases List.mem_append.mp hd with hd1 | hd2
  · exact regionsDisjoint_symm _ _ (hcross d hd1 r (List.mem_cons_self _ _))
  · exact (List.pairwise_cons.mp h2).1 d hd2

theorem pairwise_remove {α : Type} (R : α → α → Prop) (L1 L2 : List α) (r : α)
    (h : (L1 ++ r :: L2).Pairwise R) : (L1 ++ L2).Pairwise R := by
  rw [List.pairwise_append] at h ⊢
  obtain ⟨h1, h2, hcross⟩ := h
  exact ⟨h1, (List.pairwise_cons.mp h2).2,
    fun a ha b hb => hcross a ha b (List.mem_cons_of_mem _ hb)⟩

theorem orShuffleG1 (CA CB R S E : Prop) (h : R ↔ S) (he : ¬E) :
    (((CA ∨ CB) ∨ R) ↔ ((CA ∨ S ∨ CB) ∨ E)) := by
  rw [h]
  tauto

theorem orShuffleG2 (CA H CB R S E : Prop) (h : H ∨ R ↔ S) (he : ¬E) :
    (((CA ∨ H ∨ CB) ∨ R) ↔ ((CA ∨ S ∨ CB) ∨ E)) := by
  rw [← h]
  tauto

/-- Effect of a successful `claim_stack_size` on the stack arena: the free
chunks stay well formed, the stack only grows, the claimed region plus the new
free coverage equals the old free coverage plus the stack extension, the
claimed region is disjoint from the remaining free chunks, and it lies inside
the new stack window. -/
theorem claimStackSize_carve (s : SM) (n : Nat) (o : Int) (s2 : SM)
    (hpw0 : s.freeStackChunks.Pairwise gapRel)
    (hsz0 : ∀ c ∈ s.freeStackChunks, 0 < c.2)
    (hwind : ∀ x, coveredL s.freeStackChunks x → (-(s.stackSize : Int) ≤ x ∧ x < 0))
    (h : claimStackSize s n = some (o, s2)) :
    s2.freeStackChunks.Pairwise gapRel ∧
    (∀ c ∈ s2.freeStackChunks, 0 < c.2) ∧
    s.stackSize ≤ s2.stackSize ∧
    (∀ x, coveredL s2.freeStackChunks x ∨ (o ≤ x ∧ x < o + ((roundUp8 n : Nat) : Int)) ↔
      coveredL s.freeStackChunks x ∨
        (-(s2.stackSize : Int) ≤ x ∧ x < -(s.stackSize : Int))) ∧
    (∀ x, ¬(coveredL s2.freeStackChunks x ∧
      (o ≤ x ∧ x < o + ((roundUp8 n : Nat) : Int)))) ∧
    (∀ x, (o ≤ x ∧ x < o + ((roundUp8 n : Nat) : Int)) →
      (-(s2.stackSize : Int) ≤ x ∧ x < 0)) := by
  obtain ⟨-, -, -, -, -, -, -, -, -, -, -, hamt, hcase⟩ :=
    claimStackSize_shapes s n o s2 h
  have hr : 0 < roundUp8 n := by
    unfold roundUp8
    by_cases h2 : n % 8 ≠ 0
    · rw [if_pos h2]
      omega
    · rw [if_neg h2]
      omega
  rcases hcase with ⟨A, B, sz, hdec, hfitsz, hss, hbr⟩ | ⟨hchk, hss2, hbound, hoff, hall⟩
  · -- served from an existing chunk
    have hpw := hpw0
    have hsz := hsz0
    rw [hdec] at hpw hsz
    rw [List.pairwise_append] at hpw
    obtain ⟨hpwA, hpwOB, hcross⟩ := hpw
    have hpwB : B.Pairwise gapRel := (List.pairwise_cons.mp hpwOB).2
    have hOB : ∀ b ∈ B, gapRel (o, sz) b := (List.pairwise_cons.mp hpwOB).1
    have hszA : ∀ c ∈ A, 0 < c.2 := fun c hc => hsz c (List.mem_append_left _ hc)
    have hszB : ∀ c ∈ B, 0 < c.2 :=
      fun c hc => hsz c (List.mem_append_right _ (List.mem_cons_of_mem _ hc))
    have hAend : ∀ a ∈ A, a.1 + (a.2 : Int) < o := by
      intro a ha
      have h2 := hcross a ha (o, sz) (List.mem_cons_self _ _)
      simp only [gapRel] at h2
      exact h2
    have hBstart : ∀ b ∈ B, o + (sz : Int) < b.1 := by
      intro b hb
      have h2 := hOB b hb
      simp only [gapRel] at h2
      exact h2
    have hABgap : ∀ a ∈ A, ∀ b ∈ B, gapRel a b :=
      fun a ha b hb => hcross a ha b (List.mem_cons_of_mem _ hb)
    have hwind2 : ∀ x, (o ≤ x ∧ x < o + ((roundUp8 n : Nat) : Int)) →
        (-(s2.stackSize : Int) ≤ x ∧ x < 0) := by
      intro x hx
      have hcv : coveredL s.freeStackChunks x := by
        rw [hdec]
        exact ⟨(o, sz), List.mem_append_right _ (List.mem_cons_self _ _),
          by simp only [pointIn]; omega⟩
      have := hwind x hcv
      omega
    rcases hbr with ⟨hszeq, hafter⟩ | ⟨hlt, hafter⟩
    · -- exact fit: the chunk disappears
      refine ⟨?_, ?_, by omega, ?_, ?_, hwind2⟩
      · rw [hafter]
        exact List.pairwise_append.mpr ⟨hpwA, hpwB, hABgap⟩
      · rw [hafter]
        intro c hc
        rcases List.mem_append.mp hc with h2 | h2
        · exact hszA c h2
        · exact hszB c h2
      · intro x
        rw [hafter, hdec, coveredL_append, coveredL_append, coveredL_cons]
        refine orShuffleG1 _ _ _ _ _ ?_ (by omega)
        simp only [pointIn]
        omega
      · intro x hx
        rw [hafter] at hx
        obtain ⟨⟨c, hc, hpt⟩, hx2⟩ := hx
        simp only [pointIn] at hpt
        rcases List.mem_append.mp hc with h2 | h2
        · have := hAend c h2
          omega
        · have := hBstart c h2
          omega
    · -- shrink from the low end
      refine ⟨?_, ?_, by omega, ?_, ?_, hwind2⟩
      · rw [hafter]
        refine List.pairwise_append.mpr ⟨hpwA, ?_, ?_⟩
        · refine List.pairwise_cons.mpr ⟨?_, hpwB⟩
          intro b hb
          have h2 := hBstart b hb
          show (o + (roundUp8 n : Nat)) + ((sz - roundUp8 n : Nat) : Int) < b.1
          omega
        · intro a ha b hb
          rcases List.mem_cons.mp hb with rfl | hb2
          · have h2 := hAend a ha
            show a.1 + (a.2 : Int) < o + (roundUp8 n : Nat)
            omega
          · exact hABgap a ha b hb2
      · rw [hafter]
        intro c hc
        rcases List.mem_append.mp hc with h2 | h2
        · exact hszA c h2
        · rcases List.mem_cons.mp h2 with rfl | h3
          · show 0 < sz - roundUp8 n
            omega
          · exact hszB c h3
      · intro x
        rw [hafter, hdec, coveredL_append, coveredL_cons, coveredL_append, coveredL_cons]
        refine orShuffleG2 _ _ _ _ _ _ ?_ (by omega)
        simp only [pointIn]
        omega
      · intro x hx
        rw [hafter] at hx
        obtain ⟨⟨c, hc, hpt⟩, hx2⟩ := hx
        simp only [pointIn] at hpt
        rcases List.mem_append.mp hc with h2 | h2
        · have := hAend c h2
          omega
        · rcases List.mem_cons.mp h2 with rfl | h3
          · simp only at hpt
            omega
          · have := hBstart c h3
            omega
  · -- grow the stack
    refine ⟨hchk ▸ hpw0, hchk ▸ hsz0, by omega, ?_, ?_, ?_⟩
    · intro x
      rw [hchk]
      have hre : (o ≤ x ∧ x < o + ((roundUp8 n : Nat) : Int)) ↔
          (-(s2.stackSize : Int) ≤ x ∧ x < -(s.stackSize : Int)) := by
        omega
      exact or_congr Iff.rfl hre
    · intro x hx
      rw [hchk] at hx
      have := hwind x hx.1
      omega
    · intro x hx
      omega

/-- Effect of a successful `free_stack_chunk` when the freed region does not
touch the current free coverage: well-formedness is preserved and the free
coverage grows by exactly the region. -/
theorem freeChunk_uncarve (chunks : List (Int × Nat)) (o : Int) (a : Nat)
    (l2 : List (Int × Nat))
    (hpw : chunks.Pairwise gapRel) (hsz : ∀ c ∈ chunks, 0 < c.2) (ha : 0 < a)
    (hdisj : ∀ x, (o ≤ x ∧ x < o + (a : Int)) → ¬ coveredL chunks x)
    (h : freeChunk chunks o a = some l2) :
    l2.Pairwise gapRel ∧ (∀ c ∈ l2, 0 < c.2) ∧
    (∀ x, coveredL l2 x ↔ coveredL chunks x ∨ (o ≤ x ∧ x < o + (a : Int))) := by
  have hint : ∀ c ∈ chunks, o + (a : Int) ≤ c.1 ∨ c.1 + (c.2 : Int) ≤ o := by
    intro c hc
    refine interval_disjoint_of_pointwise o a c ?_ ha (hsz c hc)
    intro x hx hpt
    exact hdisj x hx ⟨c, hc, hpt⟩
  obtain ⟨l2', hfc, hp, hs, -, hcov⟩ := freeChunk_spec chunks o a ha hpw hsz hint
  rw [h] at hfc
  obtain rfl := (Option.some.inj hfc).symm
  exact ⟨hp, hs, hcov⟩

theorem primRegions_cons (e : Nat × Storage) (m : List (Nat × Storage)) :
    primRegions (e :: m) =
      match primRegionOf e.2 with
      | some r => r :: primRegions m
      | none => primRegions m := by
  unfold primRegions
  rw [List.filterMap_cons]
  rcases primRegionOf e.2 with _ | r
  · rfl
  · rfl

theorem allocRegions_cons (e : Nat × (Nat × Int × Nat))
    (am : List (Nat × (Nat × Int × Nat))) :
    allocRegions (e :: am) = (e.2.2.1, e.2.2.2) :: allocRegions am := rfl

theorem primRegions_remove_prim (m : List (Nat × Storage)) (sym : Nat)
    (off : Int) (rg : Option RegStorage)
    (h : mapGet m sym = some (.stack (.primitive off rg))) :
    ∃ P1 P2, primRegions m = P1 ++ (off, 8) :: P2 ∧
      primRegions (mapRemove m sym) = P1 ++ P2 := by
  obtain ⟨M1, M2, hm, hrm, -⟩ := mapRemove_decomp m sym _ h
  refine ⟨primRegions M1, primRegions M2, ?_, ?_⟩
  · rw [hm, primRegions_append, primRegions_cons]
    rfl
  · rw [hrm, primRegions_append]

theorem primRegions_remove_nonprim (m : List (Nat × Storage)) (sym : Nat)
    (st : Storage) (h : mapGet m sym = some st) (hnp : primRegionOf st = none) :
    primRegions (mapRemove m sym) = primRegions m := by
  obtain ⟨M1, M2, hm, hrm, -⟩ := mapRemove_decomp m sym _ h
  rw [hrm, hm, primRegions_append, primRegions_append, primRegions_cons, hnp]

theorem allocRegions_remove (am : List (Nat × (Nat × Int × Nat))) (sym : Nat)
    (aid : Nat) (bo : Int) (asz : Nat)
    (h : mapGet am sym = some (aid, bo, asz)) :
    ∃ A1 A2, allocRegions am = A1 ++ (bo, asz) :: A2 ∧
      allocRegions (mapRemove am sym) = A1 ++ A2 := by
  obtain ⟨M1, M2, hm, hrm, -⟩ := mapRemove_decomp am sym _ h
  refine ⟨allocRegions M1, allocRegions M2, ?_, ?_⟩
  · rw [hm, allocRegions_append, allocRegions_cons]
  · rw [hrm, allocRegions_append]

theorem keys_remove_nodup {α : Type} (m : List (Nat × α)) (k : Nat) (v : α)
    (h : mapGet m k = some v) (hnd : (m.map Prod.fst).Nodup) :
    ((mapRemove m k).map Prod.fst).Nodup := by
  obtain ⟨M1, M2, hm, hrm, -⟩ := mapRemove_decomp m k v h
  rw [hrm, List.map_append]
  rw [hm, List.map_append, List.map_cons] at hnd
  exact pairwise_remove _ _ _ _ hnd

theorem pairwise_middle {α : Type} (R : α → α → Prop)
    (hsymm : ∀ a b, R a b → R b a) (L1 L2 : List α) (r : α)
    (h : (L1 ++ r :: L2).Pairwise R) : ∀ d ∈ L1 ++ L2, R r d := by
  rw [List.pairwise_append] at h
  obtain ⟨h1, h2, hcross⟩ := h
  intro d hd
  rcases List.mem_append.mp hd with hd1 | hd2
  · exact hsymm _ _ (hcross d hd1 r (List.mem_cons_self _ _))
  · exact (List.pairwise_cons.mp h2).1 d hd2

theorem mapRemove_map_nodup {α β : Type} (f : Nat × α → β) (m : List (Nat × α))
    (k : Nat) (v : α) (h : mapGet m k = some v) (hnd : (m.map f).Nodup) :
    ((mapRemove m k).map f).Nodup := by
  obtain ⟨M1, M2, hm, hrm, -⟩ := mapRemove_decomp m k v h
  rw [hrm, List.map_append]
  rw [hm, List.map_append, List.map_cons] at hnd
  exact pairwise_remove _ _ _ _ hnd

theorem mapGet_mapRemove_self {α : Type} (m : List (Nat × α)) (k : Nat) (v : α)
    (h : mapGet m k = some v) (hnd : (m.map Prod.fst).Nodup) :
    mapGet (mapRemove m k) k = none := by
  obtain ⟨M1, M2, hm, hrm, hne⟩ := mapRemove_decomp m k v h
  rw [hm, List.map_append, List.map_cons] at hnd
  have hk2 : ∀ d ∈ M1.map Prod.fst ++ M2.map Prod.fst, k ≠ d :=
    pairwise_middle (fun a b : Nat => a ≠ b) (fun a b hab => hab.symm)
      (M1.map Prod.fst) (M2.map Prod.fst) k hnd
  rw [hrm]
  refine mapGet_of_not_mem_keys _ _ ?_
  intro e he hek
  rcases List.mem_append.mp he with h1 | h2
  · exact hne e h1 hek
  · exact hk2 e.1 (List.mem_append_right _ (List.mem_map_of_mem Prod.fst h2)) hek.symm

theorem orShuffleI (C L R : Prop) : (C ∨ L ∨ R) ↔ ((C ∨ R) ∨ L) := by
  tauto

theorem orShuffleK (PA A2 R : Prop) : (PA ∨ R ∨ A2) ↔ ((PA ∨ A2) ∨ R) := by
  tauto

/-- `free_reference` preserves the stack-arena invariant: with unambiguous
allocation ids the strong count is one, so the allocation's region moves from
live storage back to the free list. -/
theorem freeReference_inv (s : SM) (sym : Nat) (s2 : SM)
    (inv : ArenaInv s) (h : freeReference s sym = some s2) :
    ArenaInv s2 ∧ s2.stackSize = s.stackSize := by
  rcases hga : mapGet s.allocationMap sym with _ | ⟨aid, bo, asz⟩
  · unfold freeReference at h
    rw [hga] at h
    exact Option.noConfusion h
  unfold freeReference at h
  rw [hga] at h
  dsimp only at h
  obtain ⟨A1, A2, ham, hrm, hA1ne⟩ := mapRemove_decomp s.allocationMap sym _ hga
  have hidm := inv.ids
  rw [ham, List.map_append, List.map_cons] at hidm
  dsimp only at hidm
  have hidne : ∀ d ∈ (A1.map fun e => e.2.1) ++ (A2.map fun e => e.2.1), aid ≠ d :=
    pairwise_middle (fun a b : Nat => a ≠ b) (fun a b hab => hab.symm) _ _ _ hidm
  have hany : ((mapRemove s.allocationMap sym).any fun e => e.2.1 = aid) = false := by
    rw [hrm, List.any_eq_false]
    intro e he
    simp only [decide_eq_true_eq]
    intro hc
    rcases List.mem_append.mp he with h1 | h1
    · exact hidne e.2.1
        (List.mem_append_left _ (List.mem_map_of_mem (fun e => e.2.1) h1)) hc.symm
    · exact hidne e.2.1
        (List.mem_append_right _ (List.mem_map_of_mem (fun e => e.2.1) h1)) hc.symm
  rw [hany] at h
  simp only [Bool.false_eq_true, if_false] at h
  rcases hfc : freeChunk s.freeStackChunks bo asz with _ | l2
  · rw [hfc] at h
    exact Option.noConfusion h
  rw [hfc] at h
  obtain rfl := (Option.some.inj h).symm
  obtain ⟨AR1, AR2, harA, harB⟩ := allocRegions_remove s.allocationMap sym aid bo asz hga
  have hliveold : liveRegions s =
      (primRegions s.symbolStorageMap ++ AR1) ++ (bo, asz) :: AR2 := by
    unfold liveRegions
    rw [harA, ← List.append_assoc]
  have hlivenew :
      liveRegions { s with allocationMap := mapRemove s.allocationMap sym, freeStackChunks := l2 } =
        (primRegions s.symbolStorageMap ++ AR1) ++ AR2 := by
    unfold liveRegions
    show primRegions s.symbolStorageMap ++ allocRegions (mapRemove s.allocationMap sym) = _
    rw [harB, ← List.append_assoc]
  have hmemold : (bo, asz) ∈ liveRegions s := by
    rw [hliveold]
    exact List.mem_append_right _ (List.mem_cons_self _ _)
  have hassz : 0 < asz := inv.liveSz (bo, asz) hmemold
  have hdisj : ∀ x, (bo ≤ x ∧ x < bo + (asz : Int)) → ¬ coveredL s.freeStackChunks x := by
    intro x hx hcv
    exact inv.disj x ⟨hcv, ⟨(bo, asz), hmemold, hx⟩⟩
  obtain ⟨hpw2, hsz2, hcov2⟩ :=
    freeChunk_uncarve s.freeStackChunks bo asz l2 inv.pw inv.szpos hassz hdisj hfc
  have hlivepw := inv.livePw
  rw [hliveold] at hlivepw
  have hRlive : ∀ x, (bo ≤ x ∧ x < bo + (asz : Int)) →
      ¬ coveredL ((primRegions s.symbolStorageMap ++ AR1) ++ AR2) x := by
    rintro x hx ⟨d, hd, hpt⟩
    have hdis := pairwise_middle regionsDisjoint (fun a b h2 => regionsDisjoint_symm a b h2)
      _ _ _ hlivepw d hd
    exact hdis x ⟨hx, hpt⟩
  have hliveiff : ∀ x, coveredL (liveRegions s) x ↔
      coveredL ((primRegions s.symbolStorageMap ++ AR1) ++ AR2) x ∨
        (bo ≤ x ∧ x < bo + (asz : Int)) := by
    intro x
    rw [hliveold]
    simp only [coveredL_append, coveredL_cons, pointIn]
    exact orShuffleK _ _ _
  refine ⟨⟨hpw2, hsz2, ?_, ?_, ?_, ?_, ?_, ?_, ?_, ?_, ?_⟩, rfl⟩
  · intro x
    show (-(s.stackSize : Int) ≤ x ∧ x < 0) ↔
      (coveredL l2 x ∨
        coveredL (liveRegions { s with allocationMap := mapRemove s.allocationMap sym, freeStackChunks := l2 }) x)
    rw [hlivenew, hcov2 x]
    have h1 := inv.part x
    rw [hliveiff x] at h1
    rw [h1]
    exact orShuffleI _ _ _
  · intro x hx
    obtain ⟨hc, hl⟩ := hx
    have hl2 :
        coveredL (liveRegions { s with allocationMap := mapRemove s.allocationMap sym, freeStackChunks := l2 }) x := hl
    rw [hlivenew] at hl2
    have hc2 := (hcov2 x).mp hc
    rcases hc2 with hC | hR
    · exact inv.disj x ⟨hC, (hliveiff x).mpr (Or.inl hl2)⟩
    · exact hRlive x hR hl2
  · show (liveRegions { s with allocationMap := mapRemove s.allocationMap sym, freeStackChunks := l2 }).Pairwise
      regionsDisjoint
    rw [hlivenew]
    exact pairwise_remove _ _ _ _ hlivepw
  · intro c hc
    have hc2 :
        c ∈ liveRegions { s with allocationMap := mapRemove s.allocationMap sym, freeStackChunks := l2 } := hc
    rw [hlivenew] at hc2
    refine inv.liveSz c ?_
    rw [hliveold]
    rcases List.mem_append.mp hc2 with h1 | h1
    · exact List.mem_append_left _ h1
    · exact List.mem_append_right _ (List.mem_cons_of_mem _ h1)
  · exact inv.keysS
  · exact mapRemove_map_nodup Prod.fst _ sym _ hga inv.keysA
  · exact mapRemove_map_nodup _ _ sym _ hga inv.ids
  · intro e he
    show e.2.1 < s.nextAllocId
    refine inv.idsLt e ?_
    have he2 : e ∈ mapRemove s.allocationMap sym := he
    rw [hrm] at he2
    rw [ham]
    rcases List.mem_append.mp he2 with h1 | h1
    · exact List.mem_append_left _ h1
    · exact List.mem_append_right _ (List.mem_cons_of_mem _ h1)
  · exact inv.join

theorem orShuffleJ (C1 L1 E C2 R : Prop) (h : C2 ∨ R ↔ C1 ∨ E) :
    ((C1 ∨ L1) ∨ E) ↔ (C2 ∨ L1 ∨ R) := by
  tauto

theorem orShuffleL (P R A : Prop) : ((P ∨ R) ∨ A) ↔ ((P ∨ A) ∨ R) := by
  tauto

theorem mapGet_append_single_ne {α : Type} (m : List (Nat × α)) (k k2 : Nat) (v : α)
    (h : k2 ≠ k) : mapGet (m ++ [(k, v)]) k2 = mapGet m k2 := by
  rcases hg : mapGet m k2 with _ | v2
  · rw [mapGet_append_of_none _ _ _ hg]
    show (if k = k2 then some v else none) = none
    rw [if_neg (fun he => h he.symm)]
  · exact mapGet_append_of_some _ _ _ _ hg

theorem keys_append_fresh {α : Type} (m : List (Nat × α)) (k : Nat) (v : α)
    (h : mapGet m k = none) (hnd : (m.map Prod.fst).Nodup) :
    ((m ++ [(k, v)]).map Prod.fst).Nodup := by
  rw [List.map_append]
  refine List.Nodup.append hnd (List.nodup_singleton k) ?_
  intro a ha hb
  rw [List.map_cons] at hb
  rcases List.mem_cons.mp hb with rfl | hb2
  · obtain ⟨e, he, hea⟩ := List.mem_map.mp ha
    exact mapGet_none_forall m a h e he hea
  · exact absurd hb2 (List.not_mem_nil a)

/-- Pairwise disjointness of live regions after inserting a region that is
disjoint from every existing one, up to permutation. -/
theorem livePw_insert (L L2 : List (Int × Nat)) (b : Int × Nat)
    (hperm : L2.Perm (b :: L)) (hold : L.Pairwise regionsDisjoint)
    (hb : ∀ d ∈ L, regionsDisjoint b d) : L2.Pairwise regionsDisjoint :=
  (hperm.pairwise_iff (fun h2 => regionsDisjoint_symm _ _ h2)).mpr
    (List.pairwise_cons.mpr ⟨hb, hold⟩)

/-- Transport of the stack-arena invariant along a state whose free chunks,
stack size, allocation map and join map agree and whose live regions are a
permutation of the original ones. -/
theorem arenaInv_live_perm (s s2 : SM) (inv : ArenaInv s)
    (hchunks : s2.freeStackChunks = s.freeStackChunks)
    (hss : s2.stackSize = s.stackSize)
    (hlp : (liveRegions s2).Perm (liveRegions s))
    (hkS : (s2.symbolStorageMap.map Prod.fst).Nodup)
    (hkA : s2.allocationMap = s.allocationMap)
    (hna : s2.nextAllocId = s.nextAllocId)
    (hj : s2.joinParamMap = s.joinParamMap) : ArenaInv s2 := by
  refine ⟨?_, ?_, ?_, ?_, ?_, ?_, hkS, ?_, ?_, ?_, ?_⟩
  · rw [hchunks]
    exact inv.pw
  · rw [hchunks]
    exact inv.szpos
  · intro x
    rw [hchunks, hss, coveredL_perm hlp x]
    exact inv.part x
  · intro x hx
    rw [hchunks, coveredL_perm hlp x] at hx
    exact inv.disj x hx
  · exact (hlp.pairwise_iff (fun h2 => regionsDisjoint_symm _ _ h2)).mpr inv.livePw
  · intro c hc
    exact inv.liveSz c (hlp.mem_iff.mp hc)
  · rw [hkA]
    exact inv.keysA
  · rw [hkA]
    exact inv.ids
  · intro e he
    rw [hna]
    exact inv.idsLt e (hkA ▸ he)
  · rw [hj]
    exact inv.join

theorem arenaInv_remove_nonprim (s : SM) (sym : Nat) (st : Storage)
    (inv : ArenaInv s) (hgs : mapGet s.symbolStorageMap sym = some st)
    (hnp : primRegionOf st = none) :
    ArenaInv { s with symbolStorageMap := mapRemove s.symbolStorageMap sym } := by
  refine arenaInv_live_perm s _ inv rfl rfl ?_ ?_ rfl rfl rfl
  · show (primRegions (mapRemove s.symbolStorageMap sym) ++
      allocRegions s.allocationMap).Perm (liveRegions s)
    rw [primRegions_remove_nonprim s.symbolStorageMap sym st hgs hnp]
    exact List.Perm.refl _
  · exact mapRemove_map_nodup Prod.fst _ sym st hgs inv.keysS

/-- `free_to_stack` preserves the stack-arena invariant: the spilled symbol's
register storage becomes a fresh 8-byte primitive stack slot. -/
theorem freeToStack_inv (s : SM) (sym : Nat) (wr : RegStorage) (s2 : SM)
    (inv : ArenaInv s) (h : freeToStack s sym wr = some s2) :
    ArenaInv s2 ∧ s.stackSize ≤ s2.stackSize ∧
    (∀ k, k ≠ sym → mapGet s2.symbolStorageMap k = mapGet s.symbolStorageMap k) ∧
    mapGet s.symbolStorageMap sym ≠ none := by
  unfold freeToStack at h
  rcases hgs : mapGet s.symbolStorageMap sym with _ | st
  · rw [hgs] at h
    exact Option.noConfusion h
  rw [hgs] at h
  dsimp only at h
  rcases st with rS | stk | _
  · -- register storage: spill to a fresh stack slot
    dsimp only at h
    by_cases hw : rS = wr
    swap
    · rw [if_neg hw] at h
      exact Option.noConfusion h
    rw [if_pos hw] at h
    have hnp : primRegionOf (Storage.reg rS) = none := rfl
    have hInv1 := arenaInv_remove_nonprim s sym _ inv hgs hnp
    rcases hcs : claimStackSize
        { s with symbolStorageMap := mapRemove s.symbolStorageMap sym } 8 with _ | ⟨bo, s2'⟩
    · rw [hcs] at h
      exact Option.noConfusion h
    rw [hcs] at h
    dsimp only at h
    obtain rfl := (Option.some.inj h).symm
    obtain ⟨hf1, hf2, hf3, hf4, hf5, hf6, hf7, hf8, hf9, hf10, hf11, -, -⟩ :=
      claimStackSize_shapes _ 8 bo s2' hcs
    dsimp only at hf1 hf2 hf3 hf10 hf11
    have hwind1 : ∀ x, coveredL ({ s with
        symbolStorageMap := mapRemove s.symbolStorageMap sym } : SM).freeStackChunks x →
        (-((({ s with symbolStorageMap := mapRemove s.symbolStorageMap sym } : SM)).stackSize : Int) ≤ x ∧ x < 0) :=
      fun x hx => (hInv1.part x).mpr (Or.inl hx)
    obtain ⟨hpw2, hsz2, hle, hcov4, hdis5, hwin6⟩ :=
      claimStackSize_carve _ 8 bo s2' hInv1.pw hInv1.szpos hwind1 hcs
    have hr8 : roundUp8 8 = 8 := rfl
    rw [hr8] at hcov4 hdis5 hwin6
    have hget2 : mapGet s2'.symbolStorageMap sym = none := by
      rw [hf1]
      exact mapGet_mapRemove_self s.symbolStorageMap sym _ hgs inv.keysS
    have hins : mapInsert s2'.symbolStorageMap sym (.stack (.primitive bo none)) =
        s2'.symbolStorageMap ++ [(sym, .stack (.primitive bo none))] :=
      mapInsert_of_get_none _ _ _ hget2
    have hP : primRegions s2'.symbolStorageMap = primRegions s.symbolStorageMap := by
      rw [hf1]
      exact primRegions_remove_nonprim s.symbolStorageMap sym _ hgs hnp
    have hnd2 : (s2'.symbolStorageMap.map Prod.fst).Nodup := by
      rw [hf1]
      exact mapRemove_map_nodup Prod.fst _ sym _ hgs inv.keysS
    have hliveF : liveRegions { s2' with
        symbolStorageMap := mapInsert s2'.symbolStorageMap sym (.stack (.primitive bo none)) } =
        (primRegions s.symbolStorageMap ++ [(bo, 8)]) ++ allocRegions s.allocationMap := by
      show primRegions (mapInsert s2'.symbolStorageMap sym (.stack (.primitive bo none))) ++
        allocRegions s2'.allocationMap = _
      rw [hins, primRegions_append, hP, hf2]
      rfl
    have hlive1 : liveRegions ({ s with
        symbolStorageMap := mapRemove s.symbolStorageMap sym } : SM) =
        primRegions s.symbolStorageMap ++ allocRegions s.allocationMap := by
      show primRegions (mapRemove s.symbolStorageMap sym) ++ allocRegions s.allocationMap = _
      rw [primRegions_remove_nonprim s.symbolStorageMap sym _ hgs hnp]
    have hliveiff : ∀ x, coveredL (liveRegions { s2' with
        symbolStorageMap := mapInsert s2'.symbolStorageMap sym (.stack (.primitive bo none)) }) x ↔
        coveredL (liveRegions ({ s with
          symbolStorageMap := mapRemove s.symbolStorageMap sym } : SM)) x ∨
          (bo ≤ x ∧ x < bo + ((8 : Nat) : Int)) := by
      intro x
      rw [hliveF, hlive1]
      simp only [coveredL_append, coveredL_cons, coveredL_nil_iff, or_false, pointIn]
      exact orShuffleL _ _ _
    have hRlive : ∀ x, (bo ≤ x ∧ x < bo + ((8 : Nat) : Int)) →
        ¬ coveredL (liveRegions ({ s with
          symbolStorageMap := mapRemove s.symbolStorageMap sym } : SM)) x := by
      intro x hx hlv
      rcases (hcov4 x).mp (Or.inr hx) with hC | hE
      · exact hInv1.disj x ⟨hC, hlv⟩
      · have hw2 := (hInv1.part x).mpr (Or.inr hlv)
        omega
    refine ⟨⟨hpw2, hsz2, ?_, ?_, ?_, ?_, ?_, ?_, ?_, ?_, ?_⟩, hle, ?_,
      fun hc => Option.noConfusion hc⟩
    · intro x
      show (-(s2'.stackSize : Int) ≤ x ∧ x < 0) ↔ (coveredL s2'.freeStackChunks x ∨ _)
      rw [hliveiff x]
      have hW : (-(s2'.stackSize : Int) ≤ x ∧ x < 0) ↔
          ((-((({ s with symbolStorageMap := mapRemove s.symbolStorageMap sym } : SM)).stackSize : Int) ≤ x ∧ x < 0) ∨
            (-(s2'.stackSize : Int) ≤ x ∧
              x < -((({ s with symbolStorageMap := mapRemove s.symbolStorageMap sym } : SM)).stackSize : Int))) := by
        have hle2 : (({ s with symbolStorageMap := mapRemove s.symbolStorageMap sym } : SM)).stackSize ≤ s2'.stackSize := hle
        omega
      rw [hW, hInv1.part x]
      exact orShuffleJ _ _ _ _ _ (hcov4 x)
    · intro x hx
      obtain ⟨hc, hl⟩ := hx
      rcases (hliveiff x).mp hl with hL1 | hR
      · rcases (hcov4 x).mp (Or.inl hc) with hC1 | hE
        · exact hInv1.disj x ⟨hC1, hL1⟩
        · have hw2 := (hInv1.part x).mpr (Or.inr hL1)
          omega
      · exact hdis5 x ⟨hc, hR⟩
    · refine livePw_insert (liveRegions ({ s with
        symbolStorageMap := mapRemove s.symbolStorageMap sym } : SM)) _ (bo, 8) ?_
        hInv1.livePw ?_
      · rw [hliveF, hlive1, List.append_assoc]
        exact List.perm_middle
      · intro d hd
        intro x hx
        exact hRlive x hx.1 ⟨d, hd, hx.2⟩
    · intro c hc
      have hc2 : c ∈ (primRegions s.symbolStorageMap ++ [(bo, 8)]) ++
          allocRegions s.allocationMap := by
        rw [← hliveF]
        exact hc
      rcases List.mem_append.mp hc2 with h1 | h1
      · rcases List.mem_append.mp h1 with h2 | h2
        · refine inv.liveSz c (List.mem_append_left _ h2)
        · rw [List.mem_singleton] at h2
          subst h2
          show (0 : Nat) < 8
          decide
      · exact inv.liveSz c (List.mem_append_right _ h1)
    · show ((mapInsert s2'.symbolStorageMap sym (.stack (.primitive bo none))).map
        Prod.fst).Nodup
      rw [hins]
      exact keys_append_fresh _ sym _ hget2 hnd2
    · show (s2'.allocationMap.map Prod.fst).Nodup
      rw [hf2]
      exact inv.keysA
    · show (s2'.allocationMap.map (fun e => e.2.1)).Nodup
      rw [hf2]
      exact inv.ids
    · intro e he
      have he2 : e ∈ s2'.allocationMap := he
      rw [hf2] at he2
      show e.2.1 < s2'.nextAllocId
      rw [hf11]
      exact inv.idsLt e he2
    · show s2'.joinParamMap = []
      rw [hf3]
      exact inv.join
    · intro k hk
      show mapGet (mapInsert s2'.symbolStorageMap sym (.stack (.primitive bo none))) k = _
      rw [mapGet_mapInsert_ne s2'.symbolStorageMap sym k _ hk, hf1]
      exact mapGet_mapRemove_ne s.symbolStorageMap sym k hk
  · -- stack storage: only a register-annotated primitive succeeds
    rcases stk with ⟨pOff, pReg⟩ | ⟨a1, a2, a3⟩ | ⟨a1, a2⟩
    · rcases pReg with _ | rS2
      · dsimp only at h
        exact Option.noConfusion h
      · dsimp only at h
        by_cases hw : rS2 = wr
        swap
        · rw [if_neg hw] at h
          exact Option.noConfusion h
        rw [if_pos hw] at h
        obtain rfl := (Option.some.inj h).symm
        have hgetr : mapGet (mapRemove s.symbolStorageMap sym) sym = none :=
          mapGet_mapRemove_self _ _ _ hgs inv.keysS
        have hins : mapInsert (mapRemove s.symbolStorageMap sym) sym
            (.stack (.primitive pOff none)) =
            (mapRemove s.symbolStorageMap sym) ++ [(sym, .stack (.primitive pOff none))] :=
          mapInsert_of_get_none _ _ _ hgetr
        obtain ⟨P1, P2, hPm, hPr⟩ :=
          primRegions_remove_prim s.symbolStorageMap sym pOff _ hgs
        have hndr : ((mapRemove s.symbolStorageMap sym).map Prod.fst).Nodup :=
          mapRemove_map_nodup Prod.fst _ sym _ hgs inv.keysS
        refine ⟨arenaInv_live_perm s _ inv rfl rfl ?_ ?_ rfl rfl rfl, le_refl _, ?_,
          fun hc => Option.noConfusion hc⟩
        · show (primRegions (mapInsert (mapRemove s.symbolStorageMap sym) sym
            (.stack (.primitive pOff none))) ++ allocRegions s.allocationMap).Perm
            (liveRegions s)
          rw [hins, primRegions_append, hPr]
          show (((P1 ++ P2) ++ [(pOff, 8)]) ++ allocRegions s.allocationMap).Perm _
          have hperm1 : ((P1 ++ P2) ++ [(pOff, 8)]).Perm (P1 ++ (pOff, 8) :: P2) :=
            (List.perm_append_singleton _ _).trans List.perm_middle.symm
          have := hperm1.append_right (allocRegions s.allocationMap)
          refine this.trans ?_
          show ((P1 ++ (pOff, 8) :: P2) ++ allocRegions s.allocationMap).Perm (liveRegions s)
          rw [← hPm]
          exact List.Perm.refl _
        · show ((mapInsert (mapRemove s.symbolStorageMap sym) sym
            (.stack (.primitive pOff none))).map Prod.fst).Nodup
          rw [hins]
          exact keys_append_fresh _ sym _ hgetr hndr
        · intro k hk
          show mapGet (mapInsert (mapRemove s.symbolStorageMap sym) sym
            (.stack (.primitive pOff none))) k = _
          rw [mapGet_mapInsert_ne _ sym k _ hk]
          exact mapGet_mapRemove_ne s.symbolStorageMap sym k hk
    · dsimp only at h
      exact Option.noConfusion h
    · dsimp only at h
      exact Option.noConfusion h
  · dsimp only at h
    exact Option.noConfusion h

/-- `get_general_reg` preserves the stack-arena invariant: a free register is
popped, or the position-0 victim is evicted and spilled. -/
theorem getGeneralReg_inv (cc : CallConv) (s : SM) (reg : Nat) (s2 : SM)
    (inv : ArenaInv s) (h : getGeneralReg cc s = some (reg, s2)) :
    ArenaInv s2 ∧ s.stackSize ≤ s2.stackSize ∧
    (∀ k, mapGet s.symbolStorageMap k = none → mapGet s2.symbolStorageMap k = none) := by
  unfold getGeneralReg at h
  rcases hvp : vecPop s.generalFreeRegs with _ | ⟨r0, rest⟩
  · rw [hvp] at h
    dsimp only at h
    rcases hur : s.generalUsedRegs with _ | ⟨⟨rE, symE⟩, restU⟩
    · rw [hur] at h
      exact Option.noConfusion h
    rw [hur] at h
    dsimp only at h
    rcases hft : freeToStack { s with generalUsedRegs := restU } symE (.general rE)
        with _ | sF
    · rw [hft] at h
      exact Option.noConfusion h
    rw [hft] at h
    have hp := Option.some.inj h
    rw [Prod.mk.injEq] at hp
    obtain ⟨rfl, rfl⟩ := hp
    have hInvU : ArenaInv { s with generalUsedRegs := restU } :=
      arenaInv_live_perm s _ inv rfl rfl (List.Perm.refl _) inv.keysS rfl rfl rfl
    obtain ⟨hI, hle, hmap, hsome⟩ := freeToStack_inv _ symE _ sF hInvU hft
    refine ⟨hI, hle, ?_⟩
    intro k hk
    by_cases hke : k = symE
    · exfalso
      subst hke
      exact hsome hk
    · rw [hmap k hke]
      exact hk
  · rw [hvp] at h
    dsimp only at h
    by_cases hb : cc.generalCalleeSaved r0 = true
    · rw [if_pos hb] at h
      have hp := Option.some.inj h
      rw [Prod.mk.injEq] at hp
      obtain ⟨rfl, rfl⟩ := hp
      exact ⟨arenaInv_live_perm s _ inv rfl rfl (List.Perm.refl _) inv.keysS rfl rfl rfl,
        le_refl _, fun k hk => hk⟩
    · rw [if_neg hb] at h
      have hp := Option.some.inj h
      rw [Prod.mk.injEq] at hp
      obtain ⟨rfl, rfl⟩ := hp
      exact ⟨arenaInv_live_perm s _ inv rfl rfl (List.Perm.refl _) inv.keysS rfl rfl rfl,
        le_refl _, fun k hk => hk⟩

/-- `get_float_reg` preserves the stack-arena invariant. -/
theorem getFloatReg_inv (cc : CallConv) (s : SM) (reg : Nat) (s2 : SM)
    (inv : ArenaInv s) (h : getFloatReg cc s = some (reg, s2)) :
    ArenaInv s2 ∧ s.stackSize ≤ s2.stackSize ∧
    (∀ k, mapGet s.symbolStorageMap k = none → mapGet s2.symbolStorageMap k = none) := by
  unfold getFloatReg at h
  rcases hvp : vecPop s.floatFreeRegs with _ | ⟨r0, rest⟩
  · rw [hvp] at h
    dsimp only at h
    rcases hur : s.floatUsedRegs with _ | ⟨⟨rE, symE⟩, restU⟩
    · rw [hur] at h
      exact Option.noConfusion h
    rw [hur] at h
    dsimp only at h
    rcases hft : freeToStack { s with floatUsedRegs := restU } symE (.float rE)
        with _ | sF
    · rw [hft] at h
      exact Option.noConfusion h
    rw [hft] at h
    have hp := Option.some.inj h
    rw [Prod.mk.injEq] at hp
    obtain ⟨rfl, rfl⟩ := hp
    have hInvU : ArenaInv { s with floatUsedRegs := restU } :=
      arenaInv_live_perm s _ inv rfl rfl (List.Perm.refl _) inv.keysS rfl rfl rfl
    obtain ⟨hI, hle, hmap, hsome⟩ := freeToStack_inv _ symE _ sF hInvU hft
    refine ⟨hI, hle, ?_⟩
    intro k hk
    by_cases hke : k = symE
    · exfalso
      subst hke
      exact hsome hk
    · rw [hmap k hke]
      exact hk
  · rw [hvp] at h
    dsimp only at h
    by_cases hb : cc.floatCalleeSaved r0 = true
    · rw [if_pos hb] at h
      have hp := Option.some.inj h
      rw [Prod.mk.injEq] at hp
      obtain ⟨rfl, rfl⟩ := hp
      exact ⟨arenaInv_live_perm s _ inv rfl rfl (List.Perm.refl _) inv.keysS rfl rfl rfl,
        le_refl _, fun k hk => hk⟩
    · rw [if_neg hb] at h
      have hp := Option.some.inj h
      rw [Prod.mk.injEq] at hp
      obtain ⟨rfl, rfl⟩ := hp
      exact ⟨arenaInv_live_perm s _ inv rfl rfl (List.Perm.refl _) inv.keysS rfl rfl rfl,
        le_refl _, fun k hk => hk⟩

/-- `claim_general_reg` preserves the stack-arena invariant. -/
theorem claimGeneralReg_inv (cc : CallConv) (s : SM) (sym : Nat) (reg : Nat) (s3 : SM)
    (inv : ArenaInv s) (h : claimGeneralReg cc s sym = some (reg, s3)) :
    ArenaInv s3 ∧ s.stackSize ≤ s3.stackSize := by
  unfold claimGeneralReg at h
  by_cases hfree : (mapGet s.symbolStorageMap sym).isSome = true
  · rw [if_pos hfree] at h
    exact Option.noConfusion h
  rw [if_neg hfree] at h
  have hnone : mapGet s.symbolStorageMap sym = none := by
    rcases hg : mapGet s.symbolStorageMap sym with _ | v
    · rfl
    · exact absurd (by rw [hg]; rfl) hfree
  rcases hgr : getGeneralReg cc s with _ | ⟨r0, s2⟩
  · rw [hgr] at h
    exact Option.noConfusion h
  rw [hgr] at h
  dsimp only at h
  have hp := Option.some.inj h
  rw [Prod.mk.injEq] at hp
  obtain ⟨rfl, rfl⟩ := hp
  obtain ⟨hI2, hle2, hmap2⟩ := getGeneralReg_inv cc s r0 s2 inv hgr
  have hn2 : mapGet s2.symbolStorageMap sym = none := hmap2 sym hnone
  have hins : mapInsert s2.symbolStorageMap sym (.reg (.general r0)) =
      s2.symbolStorageMap ++ [(sym, .reg (.general r0))] :=
    mapInsert_of_get_none _ _ _ hn2
  refine ⟨arenaInv_live_perm s2 _ hI2 rfl rfl ?_ ?_ rfl rfl rfl, hle2⟩
  · show (primRegions (mapInsert s2.symbolStorageMap sym (.reg (.general r0))) ++
      allocRegions s2.allocationMap).Perm (liveRegions s2)
    rw [hins, primRegions_append]
    show ((primRegions s2.symbolStorageMap ++ []) ++ allocRegions s2.allocationMap).Perm _
    rw [List.append_nil]
    exact List.Perm.refl _
  · show ((mapInsert s2.symbolStorageMap sym (.reg (.general r0))).map Prod.fst).Nodup
    rw [hins]
    exact keys_append_fresh _ sym _ hn2 hI2.keysS

/-- `claim_float_reg` preserves the stack-arena invariant. -/
theorem claimFloatReg_inv (cc : CallConv) (s : SM) (sym : Nat) (reg : Nat) (s3 : SM)
    (inv : ArenaInv s) (h : claimFloatReg cc s sym = some (reg, s3)) :
    ArenaInv s3 ∧ s.stackSize ≤ s3.stackSize := by
  unfold claimFloatReg at h
  by_cases hfree : (mapGet s.symbolStorageMap sym).isSome = true
  · rw [if_pos hfree] at h
    exact Option.noConfusion h
  rw [if_neg hfree] at h
  have hnone : mapGet s.symbolStorageMap sym = none := by
    rcases hg : mapGet s.symbolStorageMap sym with _ | v
    · rfl
    · exact absurd (by rw [hg]; rfl) hfree
  rcases hgr : getFloatReg cc s with _ | ⟨r0, s2⟩
  · rw [hgr] at h
    exact Option.noConfusion h
  rw [hgr] at h
  dsimp only at h
  have hp := Option.some.inj h
  rw [Prod.mk.injEq] at hp
  obtain ⟨rfl, rfl⟩ := hp
  obtain ⟨hI2, hle2, hmap2⟩ := getFloatReg_inv cc s r0 s2 inv hgr
  have hn2 : mapGet s2.symbolStorageMap sym = none := hmap2 sym hnone
  have hins : mapInsert s2.symbolStorageMap sym (.reg (.float r0)) =
      s2.symbolStorageMap ++ [(sym, .reg (.float r0))] :=
    mapInsert_of_get_none _ _ _ hn2
  refine ⟨arenaInv_live_perm s2 _ hI2 rfl rfl ?_ ?_ rfl rfl rfl, hle2⟩
  · show (primRegions (mapInsert s2.symbolStorageMap sym (.reg (.float r0))) ++
      allocRegions s2.allocationMap).Perm (liveRegions s2)
    rw [hins, primRegions_append]
    show ((primRegions s2.symbolStorageMap ++ []) ++ allocRegions s2.allocationMap).Perm _
    rw [List.append_nil]
    exact List.Perm.refl _
  · show ((mapInsert s2.symbolStorageMap sym (.reg (.float r0))).map Prod.fst).Nodup
    rw [hins]
    exact keys_append_fresh _ sym _ hn2 hI2.keysS

/-- `claim_stack_area` with an 8-byte-aligned size and a fresh identifier
preserves the stack-arena invariant: the claimed chunk becomes a live
allocation region. -/
theorem claimStackArea_inv (s : SM) (sym : Nat) (size : Nat) (bo : Int) (s3 : SM)
    (inv : ArenaInv s) (hok : size % 8 = 0)
    (hfreshS : mapGet s.symbolStorageMap sym = none)
    (hfreshA : mapGet s.allocationMap sym = none)
    (h : claimStackArea s sym size = some (bo, s3)) :
    ArenaInv s3 ∧ s.stackSize ≤ s3.stackSize := by
  unfold claimStackArea at h
  rcases hcs : claimStackSize s size with _ | ⟨bo2, s2'⟩
  · rw [hcs] at h
    exact Option.noConfusion h
  rw [hcs] at h
  dsimp only at h
  have hp := Option.some.inj h
  rw [Prod.mk.injEq] at hp
  obtain ⟨rfl, rfl⟩ := hp
  obtain ⟨hf1, hf2, hf3, hf4, hf5, hf6, hf7, hf8, hf9, hf10, hf11, hamt, -⟩ :=
    claimStackSize_shapes s size bo2 s2' hcs
  have hwind : ∀ x, coveredL s.freeStackChunks x → (-(s.stackSize : Int) ≤ x ∧ x < 0) :=
    fun x hx => (inv.part x).mpr (Or.inl hx)
  obtain ⟨hpw2, hsz2, hle, hcov4, hdis5, hwin6⟩ :=
    claimStackSize_carve s size bo2 s2' inv.pw inv.szpos hwind hcs
  have hrs : roundUp8 size = size := by
    unfold roundUp8
    rw [if_neg (by omega)]
  rw [hrs] at hcov4 hdis5 hwin6
  have hfS2 : mapGet s2'.symbolStorageMap sym = none := by
    rw [hf1]
    exact hfreshS
  have hfA2 : mapGet s2'.allocationMap sym = none := by
    rw [hf2]
    exact hfreshA
  have hinsS : mapInsert s2'.symbolStorageMap sym (.stack (.complex bo2 size)) =
      s2'.symbolStorageMap ++ [(sym, .stack (.complex bo2 size))] :=
    mapInsert_of_get_none _ _ _ hfS2
  have hinsA : mapInsert s2'.allocationMap sym (s2'.nextAllocId, bo2, size) =
      s2'.allocationMap ++ [(sym, (s2'.nextAllocId, bo2, size))] :=
    mapInsert_of_get_none _ _ _ hfA2
  have hliveF : liveRegions { s2' with
      symbolStorageMap := mapInsert s2'.symbolStorageMap sym (.stack (.complex bo2 size)),
      allocationMap := mapInsert s2'.allocationMap sym (s2'.nextAllocId, bo2, size),
      nextAllocId := s2'.nextAllocId + 1 } =
      (primRegions s.symbolStorageMap ++ allocRegions s.allocationMap) ++ [(bo2, size)] := by
    show primRegions (mapInsert s2'.symbolStorageMap sym (.stack (.complex bo2 size))) ++
      allocRegions (mapInsert s2'.allocationMap sym (s2'.nextAllocId, bo2, size)) = _
    rw [hinsS, hinsA, primRegions_append, allocRegions_append, hf1, hf2]
    show (primRegions s.symbolStorageMap ++ []) ++
      (allocRegions s.allocationMap ++ [(bo2, size)]) = _
    rw [List.append_nil, List.append_assoc]
  have hliveiff : ∀ x, coveredL (liveRegions { s2' with
      symbolStorageMap := mapInsert s2'.symbolStorageMap sym (.stack (.complex bo2 size)),
      allocationMap := mapInsert s2'.allocationMap sym (s2'.nextAllocId, bo2, size),
      nextAllocId := s2'.nextAllocId + 1 }) x ↔
      coveredL (liveRegions s) x ∨ (bo2 ≤ x ∧ x < bo2 + (size : Int)) := by
    intro x
    rw [hliveF]
    show coveredL ((primRegions s.symbolStorageMap ++ allocRegions s.allocationMap) ++
      [(bo2, size)]) x ↔ coveredL (primRegions s.symbolStorageMap ++
        allocRegions s.allocationMap) x ∨ _
    simp only [coveredL_append, coveredL_cons, coveredL_nil_iff, or_false, pointIn]
  have hRlive : ∀ x, (bo2 ≤ x ∧ x < bo2 + (size : Int)) →
      ¬ coveredL (liveRegions s) x := by
    intro x hx hlv
    rcases (hcov4 x).mp (Or.inr hx) with hC | hE
    · exact inv.disj x ⟨hC, hlv⟩
    · have hw2 := (inv.part x).mpr (Or.inr hlv)
      omega
  refine ⟨⟨hpw2, hsz2, ?_, ?_, ?_, ?_, ?_, ?_, ?_, ?_, ?_⟩, hle⟩
  · intro x
    show (-(s2'.stackSize : Int) ≤ x ∧ x < 0) ↔ (coveredL s2'.freeStackChunks x ∨ _)
    rw [hliveiff x]
    have hW : (-(s2'.stackSize : Int) ≤ x ∧ x < 0) ↔
        ((-(s.stackSize : Int) ≤ x ∧ x < 0) ∨
          (-(s2'.stackSize : Int) ≤ x ∧ x < -(s.stackSize : Int))) := by
      omega
    rw [hW, inv.part x]
    exact orShuffleJ _ _ _ _ _ (hcov4 x)
  · intro x hx
    obtain ⟨hc, hl⟩ := hx
    rcases (hliveiff x).mp hl with hL1 | hR
    · rcases (hcov4 x).mp (Or.inl hc) with hC1 | hE
      · exact inv.disj x ⟨hC1, hL1⟩
      · have hw2 := (inv.part x).mpr (Or.inr hL1)
        omega
    · exact hdis5 x ⟨hc, hR⟩
  · refine livePw_insert (liveRegions s) _ (bo2, size) ?_ inv.livePw ?_
    · rw [hliveF]
      exact List.perm_append_singleton _ _
    · intro d hd
      intro x hx
      exact hRlive x hx.1 ⟨d, hd, hx.2⟩
  · intro c hc
    have hc2 : c ∈ (primRegions s.symbolStorageMap ++ allocRegions s.allocationMap) ++
        [(bo2, size)] := by
      rw [← hliveF]
      exact hc
    rcases List.mem_append.mp hc2 with h1 | h1
    · exact inv.liveSz c h1
    · rw [List.mem_singleton] at h1
      subst h1
      show 0 < size
      omega
  · show ((mapInsert s2'.symbolStorageMap sym (.stack (.complex bo2 size))).map
      Prod.fst).Nodup
    rw [hinsS]
    refine keys_append_fresh _ sym _ hfS2 ?_
    rw [hf1]
    exact inv.keysS
  · show ((mapInsert s2'.allocationMap sym (s2'.nextAllocId, bo2, size)).map
      Prod.fst).Nodup
    rw [hinsA]
    refine keys_append_fresh _ sym _ hfA2 ?_
    rw [hf2]
    exact inv.keysA
  · show ((mapInsert s2'.allocationMap sym (s2'.nextAllocId, bo2, size)).map
      (fun e => e.2.1)).Nodup
    rw [hinsA, List.map_append, hf2]
    refine List.Nodup.append inv.ids (List.nodup_singleton _) ?_
    intro a ha hb
    rw [List.map_cons] at hb
    rcases List.mem_cons.mp hb with rfl | hb2
    · obtain ⟨e, he, hea⟩ := List.mem_map.mp ha
      have h4 := inv.idsLt e he
      have h5 := hf11
      dsimp only at hea
      omega
    · exact absurd hb2 (List.not_mem_nil a)
  · intro e he
    have he2 : e ∈ mapInsert s2'.allocationMap sym (s2'.nextAllocId, bo2, size) := he
    rw [hinsA] at he2
    show e.2.1 < s2'.nextAllocId + 1
    rcases List.mem_append.mp he2 with h1 | h1
    · have h2 : e ∈ s.allocationMap := by
        rw [← hf2]
        exact h1
      have := inv.idsLt e h2
      rw [hf11]
      omega
    · rw [List.mem_singleton] at h1
      subst h1
      show s2'.nextAllocId < s2'.nextAllocId + 1
      omega
  · show s2'.joinParamMap = []
    rw [hf3]
    exact inv.join

/-- The register-scan epilogue of `free_symbol` only touches register tables,
so it preserves the stack-arena invariant. -/
theorem arenaInv_regscan (sMid : SM) (inv : ArenaInv sMid) (sym : Nat) :
    ArenaInv { sMid with
      generalUsedRegs := (freeRegScan sMid.generalUsedRegs sMid.generalFreeRegs sym).1,
      generalFreeRegs := (freeRegScan sMid.generalUsedRegs sMid.generalFreeRegs sym).2,
      floatUsedRegs := (freeRegScan sMid.floatUsedRegs sMid.floatFreeRegs sym).1,
      floatFreeRegs := (freeRegScan sMid.floatUsedRegs sMid.floatFreeRegs sym).2 } :=
  arenaInv_live_perm sMid _ inv rfl rfl (List.Perm.refl _) inv.keysS rfl rfl rfl

/-- `free_symbol` preserves the stack-arena invariant and never changes the
stack size: freed primitive slots and allocations return to the free list. -/
theorem freeSymbol_inv (s : SM) (sym : Nat) (s2 : SM)
    (inv : ArenaInv s) (h : freeSymbol s sym = some s2) :
    ArenaInv s2 ∧ s2.stackSize = s.stackSize := by
  unfold freeSymbol at h
  have hjp : mapGet s.joinParamMap sym = none := by
    rw [inv.join]
    rfl
  rw [hjp] at h
  dsimp only at h
  rcases hgs : mapGet s.symbolStorageMap sym with _ | st
  · rw [hgs] at h
    dsimp only at h
    have hrm : mapRemove s.symbolStorageMap sym = s.symbolStorageMap :=
      mapRemove_of_get_none _ _ hgs
    have hInv1 : ArenaInv { s with symbolStorageMap := mapRemove s.symbolStorageMap sym } := by
      refine arenaInv_live_perm s _ inv rfl rfl ?_ ?_ rfl rfl rfl
      · show (primRegions (mapRemove s.symbolStorageMap sym) ++
          allocRegions s.allocationMap).Perm (liveRegions s)
        rw [hrm]
        exact List.Perm.refl _
      · show ((mapRemove s.symbolStorageMap sym).map Prod.fst).Nodup
        rw [hrm]
        exact inv.keysS
    obtain rfl := (Option.some.inj h).symm
    exact ⟨arenaInv_regscan _ hInv1 sym, rfl⟩
  rw [hgs] at h
  rcases st with rS | stk | _
  · -- register storage: no stack change
    dsimp only at h
    have hInv1 := arenaInv_remove_nonprim s sym _ inv hgs rfl
    obtain rfl := (Option.some.inj h).symm
    exact ⟨arenaInv_regscan _ hInv1 sym, rfl⟩
  · rcases stk with ⟨pOff, pReg⟩ | ⟨r1, r2, r3⟩ | ⟨c1, c2⟩
    · -- primitive slot: free its 8 bytes
      dsimp only at h
      rcases hsc : freeStackChunkSM
          { s with symbolStorageMap := mapRemove s.symbolStorageMap sym } pOff 8
          with _ | sMid
      · rw [hsc] at h
        exact Option.noConfusion h
      rw [hsc] at h
      dsimp only at h
      unfold freeStackChunkSM at hsc
      dsimp only at hsc
      rcases hfc : freeChunk s.freeStackChunks pOff 8 with _ | l2
      · rw [hfc] at hsc
        exact Option.noConfusion hsc
      rw [hfc] at hsc
      obtain rfl := (Option.some.inj hsc).symm
      obtain ⟨P1, P2, hPm, hPr⟩ := primRegions_remove_prim s.symbolStorageMap sym pOff _ hgs
      have hliveold : liveRegions s =
          P1 ++ (pOff, 8) :: (P2 ++ allocRegions s.allocationMap) := by
        show primRegions s.symbolStorageMap ++ allocRegions s.allocationMap = _
        rw [hPm, List.append_assoc, List.cons_append]
      have hmemold : (pOff, 8) ∈ liveRegions s := by
        rw [hliveold]
        exact List.mem_append_right _ (List.mem_cons_self _ _)
      have hdisj : ∀ x, (pOff ≤ x ∧ x < pOff + ((8 : Nat) : Int)) →
          ¬ coveredL s.freeStackChunks x := by
        intro x hx hcv
        exact inv.disj x ⟨hcv, ⟨(pOff, 8), hmemold, hx⟩⟩
      obtain ⟨hpw2, hsz2, hcov2⟩ :=
        freeChunk_uncarve s.freeStackChunks pOff 8 l2 inv.pw inv.szpos (by decide) hdisj hfc
      have hlivepw := inv.livePw
      rw [hliveold] at hlivepw
      have hlivenew : liveRegions { s with
          symbolStorageMap := mapRemove s.symbolStorageMap sym, freeStackChunks := l2 } =
          P1 ++ (P2 ++ allocRegions s.allocationMap) := by
        show primRegions (mapRemove s.symbolStorageMap sym) ++ allocRegions s.allocationMap = _
        rw [hPr, List.append_assoc]
      have hRlive : ∀ x, (pOff ≤ x ∧ x < pOff + ((8 : Nat) : Int)) →
          ¬ coveredL (P1 ++ (P2 ++ allocRegions s.allocationMap)) x := by
        rintro x hx ⟨d, hd, hpt⟩
        have hdis := pairwise_middle regionsDisjoint
          (fun a b h2 => regionsDisjoint_symm a b h2) _ _ _ hlivepw d hd
        exact hdis x ⟨hx, hpt⟩
      have hliveiff : ∀ x, coveredL (liveRegions s) x ↔
          coveredL (P1 ++ (P2 ++ allocRegions s.allocationMap)) x ∨
            (pOff ≤ x ∧ x < pOff + ((8 : Nat) : Int)) := by
        intro x
        rw [hliveold]
        simp only [coveredL_append, coveredL_cons, pointIn]
        exact orShuffleK _ _ _
      have hInvM : ArenaInv { s with
          symbolStorageMap := mapRemove s.symbolStorageMap sym, freeStackChunks := l2 } := by
        refine ⟨hpw2, hsz2, ?_, ?_, ?_, ?_, ?_, ?_, ?_, ?_, ?_⟩
        · intro x
          show (-(s.stackSize : Int) ≤ x ∧ x < 0) ↔ (coveredL l2 x ∨ _)
          rw [hlivenew, inv.part x, hliveiff x, hcov2 x]
          exact orShuffleI _ _ _
        · intro x hx
          obtain ⟨hc, hl⟩ := hx
          have hl2 : coveredL (liveRegions { s with
              symbolStorageMap := mapRemove s.symbolStorageMap sym,
              freeStackChunks := l2 }) x := hl
          rw [hlivenew] at hl2
          rcases (hcov2 x).mp hc with hC | hR
          · exact inv.disj x ⟨hC, (hliveiff x).mpr (Or.inl hl2)⟩
          · exact hRlive x hR hl2
        · show (liveRegions { s with
            symbolStorageMap := mapRemove s.symbolStorageMap sym,
            freeStackChunks := l2 }).Pairwise regionsDisjoint
          rw [hlivenew]
          exact pairwise_remove _ _ _ _ hlivepw
        · intro c hc
          have hc2 : c ∈ liveRegions { s with
              symbolStorageMap := mapRemove s.symbolStorageMap sym,
              freeStackChunks := l2 } := hc
          rw [hlivenew] at hc2
          refine inv.liveSz c ?_
          rw [hliveold]
          rcases List.mem_append.mp hc2 with h1 | h1
          · exact List.mem_append_left _ h1
          · exact List.mem_append_right _ (List.mem_cons_of_mem _ h1)
        · exact mapRemove_map_nodup Prod.fst _ sym _ hgs inv.keysS
        · exact inv.keysA
        · exact inv.ids
        · intro e he
          exact inv.idsLt e he
        · exact inv.join
      obtain rfl := (Option.some.inj h).symm
      exact ⟨arenaInv_regscan _ hInvM sym, rfl⟩
    · -- referenced primitive: free through the allocation handle
      dsimp only at h
      rcases hfr : freeReference
          { s with symbolStorageMap := mapRemove s.symbolStorageMap sym } sym with _ | sMid
      · rw [hfr] at h
        exact Option.noConfusion h
      rw [hfr] at h
      dsimp only at h
      have hInv1 := arenaInv_remove_nonprim s sym _ inv hgs rfl
      obtain ⟨hIm, hsse⟩ := freeReference_inv _ sym sMid hInv1 hfr
      obtain rfl := (Option.some.inj h).symm
      exact ⟨arenaInv_regscan _ hIm sym, hsse⟩
    · -- complex area: free through the allocation handle
      dsimp only at h
      rcases hfr : freeReference
          { s with symbolStorageMap := mapRemove s.symbolStorageMap sym } sym with _ | sMid
      · rw [hfr] at h
        exact Option.noConfusion h
      rw [hfr] at h
      dsimp only at h
      have hInv1 := arenaInv_remove_nonprim s sym _ inv hgs rfl
      obtain ⟨hIm, hsse⟩ := freeReference_inv _ sym sMid hInv1 hfr
      obtain rfl := (Option.some.inj h).symm
      exact ⟨arenaInv_regscan _ hIm sym, hsse⟩
  · -- no-data storage
    dsimp only at h
    have hInv1 := arenaInv_remove_nonprim s sym _ inv hgs rfl
    obtain rfl := (Option.some.inj h).symm
    exact ⟨arenaInv_regscan _ hInv1 sym, rfl⟩

theorem freeReference_stackSize (s : SM) (sym : Nat) (s2 : SM)
    (h : freeReference s sym = some s2) : s2.stackSize = s.stackSize := by
  unfold freeReference at h
  rcases hga : mapGet s.allocationMap sym with _ | ⟨aid, bo, asz⟩
  · rw [hga] at h
    exact Option.noConfusion h
  rw [hga] at h
  dsimp only at h
  by_cases hb : ((mapRemove s.allocationMap sym).any fun e => e.2.1 = aid) = true
  · rw [if_pos hb] at h
    obtain rfl := (Option.some.inj h).symm
    rfl
  · rw [if_neg hb] at h
    rcases hfc : freeChunk s.freeStackChunks bo asz with _ | l2
    · rw [hfc] at h
      exact Option.noConfusion h
    · rw [hfc] at h
      obtain rfl := (Option.some.inj h).symm
      rfl

/-- `free_symbol` never changes `stack_size` (freeing does not shrink the
stack). -/
theorem freeSymbol_stackSize (s : SM) (sym : Nat) (s2 : SM)
    (h : freeSymbol s sym = some s2) : s2.stackSize = s.stackSize := by
  unfold freeSymbol at h
  by_cases hj : (mapGet s.joinParamMap sym).isSome = true
  · rw [if_pos hj] at h
    obtain rfl := (Option.some.inj h).symm
    rfl
  rw [if_neg hj] at h
  dsimp only at h
  rcases hgs : mapGet s.symbolStorageMap sym with _ | st
  · rw [hgs] at h
    dsimp only at h
    obtain rfl := (Option.some.inj h).symm
    rfl
  rw [hgs] at h
  rcases st with rS | stk | _
  · dsimp only at h
    obtain rfl := (Option.some.inj h).symm
    rfl
  · rcases stk with ⟨pOff, pReg⟩ | ⟨r1, r2, r3⟩ | ⟨c1, c2⟩
    · dsimp only at h
      rcases hsc : freeStackChunkSM
          { s with symbolStorageMap := mapRemove s.symbolStorageMap sym } pOff 8
          with _ | sMid
      · rw [hsc] at h
        exact Option.noConfusion h
      rw [hsc] at h
      dsimp only at h
      obtain rfl := (Option.some.inj h).symm
      unfold freeStackChunkSM at hsc
      dsimp only at hsc
      rcases hfc : freeChunk s.freeStackChunks pOff 8 with _ | l2
      · rw [hfc] at hsc
        exact Option.noConfusion hsc
      rw [hfc] at hsc
      obtain rfl := (Option.some.inj hsc).symm
      rfl
    · dsimp only at h
      rcases hfr : freeReference
          { s with symbolStorageMap := mapRemove s.symbolStorageMap sym } sym with _ | sMid
      · rw [hfr] at h
        exact Option.noConfusion h
      rw [hfr] at h
      dsimp only at h
      obtain rfl := (Option.some.inj h).symm
      exact freeReference_stackSize
        { s with symbolStorageMap := mapRemove s.symbolStorageMap sym } sym sMid hfr
    · dsimp only at h
      rcases hfr : freeReference
          { s with symbolStorageMap := mapRemove s.symbolStorageMap sym } sym with _ | sMid
      · rw [hfr] at h
        exact Option.noConfusion h
      rw [hfr] at h
      dsimp only at h
      obtain rfl := (Option.some.inj h).symm
      exact freeReference_stackSize
        { s with symbolStorageMap := mapRemove s.symbolStorageMap sym } sym sMid hfr
  · dsimp only at h
    obtain rfl := (Option.some.inj h).symm
    rfl

/-- One disciplined storage-manager operation preserves the stack-arena
invariant and never shrinks the stack. -/
theorem smStep_inv (cc : CallConv) (s : SM) (op : SMOp) (s2 : SM)
    (inv : ArenaInv s) (hok : okOp s op) (h : smStep cc s op = some s2) :
    ArenaInv s2 ∧ s.stackSize ≤ s2.stackSize := by
  rcases op with sym | sym | ⟨sym, size⟩ | sym | sym
  · dsimp only [smStep] at h
    rcases hcg : claimGeneralReg cc s sym with _ | ⟨r, s3⟩
    · rw [hcg] at h
      exact Option.noConfusion h
    rw [hcg] at h
    dsimp only [Option.map] at h
    obtain rfl := (Option.some.inj h).symm
    exact claimGeneralReg_inv cc s sym r s2 inv hcg
  · dsimp only [smStep] at h
    rcases hcg : claimFloatReg cc s sym with _ | ⟨r, s3⟩
    · rw [hcg] at h
      exact Option.noConfusion h
    rw [hcg] at h
    dsimp only [Option.map] at h
    obtain rfl := (Option.some.inj h).symm
    exact claimFloatReg_inv cc s sym r s2 inv hcg
  · obtain ⟨hsz8, hfS, hfA⟩ := hok
    dsimp only [smStep] at h
    rcases hca : claimStackArea s sym size with _ | ⟨bo, s3⟩
    · rw [hca] at h
      exact Option.noConfusion h
    rw [hca] at h
    dsimp only [Option.map] at h
    obtain rfl := (Option.some.inj h).symm
    exact claimStackArea_inv s sym size bo s2 inv hsz8 hfS hfA hca
  · dsimp only [smStep] at h
    obtain ⟨inv2, hss⟩ := freeSymbol_inv s sym s2 inv h
    exact ⟨inv2, le_of_eq hss.symm⟩
  · dsimp only [smStep] at h
    obtain ⟨inv2, hss⟩ := freeReference_inv s sym s2 inv h
    exact ⟨inv2, le_of_eq hss.symm⟩

/-- A disciplined run preserves the stack-arena invariant and never shrinks
the stack. -/
theorem runOps_inv (cc : CallConv) : ∀ (ops : List SMOp) (s sf : SM),
    ArenaInv s → disciplined cc s ops → runOps cc s ops = some sf →
    ArenaInv sf ∧ s.stackSize ≤ sf.stackSize := by
  intro ops
  induction ops with
  | nil =>
      intro s sf inv hd h
      have h2 : some s = some sf := h
      obtain rfl := Option.some.inj h2
      exact ⟨inv, le_refl _⟩
  | cons op rest ih =>
      intro s sf inv hd h
      obtain ⟨hok, hd2⟩ := hd
      rcases hstep : smStep cc s op with _ | s2
      · unfold runOps at h
        rw [hstep] at h
        exact Option.noConfusion h
      · unfold runOps at h
        rw [hstep] at h
        obtain ⟨inv2, hle⟩ := smStep_inv cc s op s2 inv hok hstep
        have hd3 : disciplined cc s2 rest := by
          rw [hstep] at hd2
          exact hd2
        obtain ⟨inv3, hle2⟩ := ih s2 sf inv2 hd3 h
        exact ⟨inv3, le_trans hle hle2⟩

/-- The reset storage manager satisfies the stack-arena invariant. -/
theorem resetSM_inv (cc : CallConv) : ArenaInv (resetSM cc) := by
  refine ⟨List.Pairwise.nil, ?_, ?_, ?_, List.Pairwise.nil, ?_, ?_, ?_, ?_, ?_, rfl⟩
  · intro c hc
    exact absurd hc (List.not_mem_nil c)
  · intro x
    show (-(((0 : Nat)) : Int) ≤ x ∧ x < 0) ↔ (coveredL [] x ∨ coveredL [] x)
    simp only [coveredL_nil_iff, or_self, iff_false]
    omega
  · intro x hx
    exact coveredL_nil x hx.1
  · intro c hc
    exact absurd hc (List.not_mem_nil c)
  · exact List.nodup_nil
  · exact List.nodup_nil
  · exact List.nodup_nil
  · intro e he
    exact absurd he (List.not_mem_nil e)

/-- C6 (amended): for every disciplined sequence of claim/free operations from
reset (sizes passed to `claim_stack_area` are multiples of 8 and claimed
identifiers are fresh) that ends with every claimed identifier freed and with
`stack_size > 0`, the free-stack-chunk list is exactly
`[(-stack_size, stack_size)]`; freeing never changes `stack_size`.  Without
the alignment restriction the property fails, because `claim_stack_area`
records the unrounded size and `free_symbol` then frees fewer bytes than were
claimed. -/
theorem free_all_single_chunk (cc : CallConv) (ops : List SMOp) (sf : SM)
    (hd : disciplined cc (resetSM cc) ops)
    (hrun : runOps cc (resetSM cc) ops = some sf)
    (hstor : sf.symbolStorageMap = []) (halloc : sf.allocationMap = [])
    (hpos : 0 < sf.stackSize) :
    sf.freeStackChunks = [(-(sf.stackSize : Int), sf.stackSize)] ∧
    ∀ (s s2 : SM) (sym : Nat), freeSymbol s sym = some s2 →
      s2.stackSize = s.stackSize := by
  obtain ⟨inv, -⟩ := runOps_inv cc ops (resetSM cc) sf (resetSM_inv cc) hd hrun
  have hlive : liveRegions sf = [] := by
    unfold liveRegions primRegions allocRegions
    rw [hstor, halloc]
    rfl
  have hcov : ∀ x, coveredL sf.freeStackChunks x ↔
      (-(sf.stackSize : Int) ≤ x ∧ x < 0) := by
    intro x
    have h1 := inv.part x
    rw [hlive] at h1
    simp only [coveredL_nil_iff, or_false] at h1
    exact h1.symm
  refine ⟨?_, fun s s2 sym h => freeSymbol_stackSize s sym s2 h⟩
  refine chunks_coverage_unique sf.freeStackChunks
    [(-(sf.stackSize : Int), sf.stackSize)] inv.pw (List.pairwise_singleton ..)
    inv.szpos ?_ ?_
  · intro c hc
    rw [List.mem_singleton] at hc
    subst hc
    show 0 < sf.stackSize
    exact hpos
  · intro x
    rw [hcov x]
    simp only [coveredL_cons, coveredL_nil_iff, or_false, pointIn]
    omega

theorem free_all_single_chunk_witness :
    disciplined cc16 (resetSM cc16) [SMOp.claimArea 1 16, SMOp.freeSym 1] ∧
    runOps cc16 (resetSM cc16) [SMOp.claimArea 1 16, SMOp.freeSym 1] =
      some { resetSM cc16 with freeStackChunks := [(-16, 16)], stackSize := 16, nextAllocId := 1 } ∧
    ({ resetSM cc16 with freeStackChunks := [(-16, 16)], stackSize := 16, nextAllocId := 1 } : SM).symbolStorageMap = [] ∧
    ({ resetSM cc16 with freeStackChunks := [(-16, 16)], stackSize := 16, nextAllocId := 1 } : SM).allocationMap = [] ∧
    0 < ({ resetSM cc16 with freeStackChunks := [(-16, 16)], stackSize := 16, nextAllocId := 1 } : SM).stackSize ∧
    (({ resetSM cc16 with freeStackChunks := [(-16, 16)], stackSize := 16, nextAllocId := 1 } : SM).freeStackChunks =
      [(-((({ resetSM cc16 with freeStackChunks := [(-16, 16)], stackSize := 16, nextAllocId := 1 } : SM).stackSize : Nat) : Int),
        ({ resetSM cc16 with freeStackChunks := [(-16, 16)], stackSize := 16, nextAllocId := 1 } : SM).stackSize)] ∧
     ∀ (s s2 : SM) (sym : Nat), freeSymbol s sym = some s2 →
       s2.stackSize = s.stackSize) := by
  have hd : disciplined cc16 (resetSM cc16) [SMOp.claimArea 1 16, SMOp.freeSym 1] :=
    ⟨⟨rfl, rfl, rfl⟩, ⟨trivial, trivial⟩⟩
  exact ⟨hd, by decide, rfl, rfl, by decide,
    free_all_single_chunk cc16 [SMOp.claimArea 1 16, SMOp.freeSym 1]
      { resetSM cc16 with freeStackChunks := [(-16, 16)], stackSize := 16, nextAllocId := 1 }
      hd (by decide) rfl rfl (by decide)⟩

/-- Claiming a stack area whose size is not a multiple of 8 and then freeing
it leaves a short chunk: the free list is `[(-32, 30)]`, not
`[(-stack_size, stack_size)] = [(-32, 32)]`. -/
theorem free_all_single_chunk_cex :
    runOps cc16 (resetSM cc16) [SMOp.claimArea 1 30, SMOp.freeSym 1] =
      some { resetSM cc16 with freeStackChunks := [(-32, 30)], stackSize := 32, nextAllocId := 1 } ∧
    ({ resetSM cc16 with freeStackChunks := [(-32, 30)], stackSize := 32, nextAllocId := 1 } : SM).symbolStorageMap = [] ∧
    ({ resetSM cc16 with freeStackChunks := [(-32, 30)], stackSize := 32, nextAllocId := 1 } : SM).allocationMap = [] ∧
    0 < ({ resetSM cc16 with freeStackChunks := [(-32, 30)], stackSize := 32, nextAllocId := 1 } : SM).stackSize ∧
    ({ resetSM cc16 with freeStackChunks := [(-32, 30)], stackSize := 32, nextAllocId := 1 } : SM).freeStackChunks ≠
      [(-((({ resetSM cc16 with freeStackChunks := [(-32, 30)], stackSize := 32, nextAllocId := 1 } : SM).stackSize : Nat) : Int),
        ({ resetSM cc16 with freeStackChunks := [(-32, 30)], stackSize := 32, nextAllocId := 1 } : SM).stackSize)] :=
  ⟨by decide, rfl, rfl, by decide, by decide⟩

/-! The surgical linker (`lib.rs`): byte-level memory model for the output
executable, little-endian i32 displacement encoding, PLT stub patching,
segment-address alignment, dynamic-table excision and the padding-fallback
shift of `preprocess`. -/

/-- Store one byte in the output image. -/
def memWrite (m : Nat → Nat) (addr b : Nat) : Nat → Nat :=
  fun a => if a = addr then b else m a

/-- Store consecutive bytes (`copy_from_slice`). -/
def memWriteBytes (m : Nat → Nat) (addr : Nat) : List Nat → (Nat → Nat)
  | [] => m
  | b :: rest => memWriteBytes (memWrite m addr b) (addr + 1) rest

/-- `i32::to_le_bytes` applied to the truncated 32-bit value. -/
def toLeBytes4 (v : Nat) : List Nat :=
  [v % 256, v / 256 % 256, v / 65536 % 256, v / 16777216 % 256]

/-- Read four bytes little-endian. -/
def read4LE (m : Nat → Nat) (addr : Nat) : Nat :=
  m addr + 256 * m (addr + 1) + 65536 * m (addr + 2) + 16777216 * m (addr + 3)

/-- The `as i32` truncation of a signed value to its 32-bit representation. -/
def i32ToU32 (t : Int) : Nat := (t % 4294967296).toNat

/-- Interpret a 32-bit value as a signed i32. -/
def decodeI32 (u : Nat) : Int :=
  if u < 2147483648 then (u : Int) else (u : Int) - 4294967296

/-- The PLT-stub patch of `surgery`: write `E9`, the little-endian i32
displacement `virt_offset - (plt_vaddr + jmp_inst_len)`, and `0x90` padding up
to `PLT_ADDRESS_OFFSET = 16`. -/
def pltStubPatch (m : Nat → Nat) (pltOff : Nat) (virtOffset : Int) (pltVaddr : Nat) :
    Nat → Nat :=
  let target : Int := virtOffset - ((pltVaddr : Int) + 5)
  let data := toLeBytes4 (i32ToU32 target)
  let m1 := memWrite m pltOff 0xE9
  let m2 := memWriteBytes m1 (pltOff + 1) data
  fun x => if pltOff + 5 ≤ x ∧ x < pltOff + 16 then 0x90 else m2 x

theorem read4LE_toLeBytes4 (m : Nat → Nat) (addr : Nat) (v : Nat) :
    read4LE (memWriteBytes m addr (toLeBytes4 v)) addr = v % 4294967296 := by
  simp only [toLeBytes4, memWriteBytes, memWrite, read4LE, if_true]
  split_ifs <;> omega

theorem decodeI32_i32ToU32 (t : Int) (h1 : -2147483648 ≤ t) (h2 : t < 2147483648) :
    decodeI32 (i32ToU32 t % 4294967296) = t := by
  unfold decodeI32 i32ToU32
  omega

/-- C8: for every PLT entry `(plt_off, plt_vaddr)` of an app function with
final virtual address `virt`, after surgery the byte at `plt_off` is `0xE9`,
the next four bytes are the little-endian i32 of `virt - (plt_vaddr + 5)`, and
bytes `plt_off+5` through `plt_off+15` are all `0x90`. -/
theorem plt_patch_correct (m : Nat → Nat) (pltOff : Nat) (virtOffset : Int)
    (pltVaddr : Nat)
    (h1 : -2147483648 ≤ virtOffset - ((pltVaddr : Int) + 5))
    (h2 : virtOffset - ((pltVaddr : Int) + 5) < 2147483648) :
    pltStubPatch m pltOff virtOffset pltVaddr pltOff = 0xE9 ∧
    decodeI32 (read4LE (pltStubPatch m pltOff virtOffset pltVaddr) (pltOff + 1)) =
      virtOffset - ((pltVaddr : Int) + 5) ∧
    (∀ i, 5 ≤ i → i < 16 →
      pltStubPatch m pltOff virtOffset pltVaddr (pltOff + i) = 0x90) := by
  have hread : ∀ j, 1 ≤ j → j ≤ 4 →
      pltStubPatch m pltOff virtOffset pltVaddr (pltOff + j) =
      memWriteBytes (memWrite m pltOff 0xE9) (pltOff + 1)
        (toLeBytes4 (i32ToU32 (virtOffset - ((pltVaddr : Int) + 5)))) (pltOff + j) := by
    intro j hj1 hj2
    dsimp only [pltStubPatch]
    rw [if_neg (by omega)]
  refine ⟨?_, ?_, ?_⟩
  · dsimp only [pltStubPatch]
    rw [if_neg (by omega)]
    simp only [memWriteBytes, memWrite, toLeBytes4]
    split_ifs <;> omega
  · have hrd : read4LE (pltStubPatch m pltOff virtOffset pltVaddr) (pltOff + 1) =
        read4LE (memWriteBytes (memWrite m pltOff 0xE9) (pltOff + 1)
          (toLeBytes4 (i32ToU32 (virtOffset - ((pltVaddr : Int) + 5))))) (pltOff + 1) := by
      unfold read4LE
      rw [show pltOff + 1 + 1 = pltOff + 2 from by omega,
        show pltOff + 1 + 2 = pltOff + 3 from by omega,
        show pltOff + 1 + 3 = pltOff + 4 from by omega,
        hread 1 (by omega) (by omega), hread 2 (by omega) (by omega),
        hread 3 (by omega) (by omega), hread 4 (by omega) (by omega)]
    rw [hrd, read4LE_toLeBytes4]
    exact decodeI32_i32ToU32 _ h1 h2
  · intro i h5 h16
    dsimp only [pltStubPatch]
    rw [if_pos (by omega)]

theorem plt_patch_correct_witness :
    (-2147483648 ≤ (20480 : Int) - (((8192 : Nat) : Int) + 5) ∧
      (20480 : Int) - (((8192 : Nat) : Int) + 5) < 2147483648) ∧
    (pltStubPatch (fun _ => 0) 256 20480 8192 256 = 0xE9 ∧
    decodeI32 (read4LE (pltStubPatch (fun _ => 0) 256 20480 8192) (256 + 1)) =
      (20480 : Int) - (((8192 : Nat) : Int) + 5) ∧
    (∀ i, 5 ≤ i → i < 16 →
      pltStubPatch (fun _ => 0) 256 20480 8192 (256 + i) = 0x90)) :=
  ⟨⟨by decide, by decide⟩,
    plt_patch_correct (fun _ => 0) 256 20480 8192 (by decide) (by decide)⟩

/-- Alignment of the new segment's virtual address in `surgery`: make
`new_segment_vaddr` share `new_segment_offset`'s residue modulo
`load_align_constraint`, starting from `last_vaddr`. -/
def newSegmentVaddr (newSegmentOffset lastVaddr lac : Nat) : Nat :=
  let remainder := newSegmentOffset % lac
  let vremainder := lastVaddr % lac
  if remainder > vremainder then lastVaddr + (remainder - vremainder)
  else if vremainder > remainder then lastVaddr + ((remainder + lac) - vremainder)
  else lastVaddr

theorem le_of_mod_eq_of_lt_add (lac B v : Nat) (_hlac : 0 < lac)
    (hm : B % lac = v % lac) (hlt : B < v + lac) : B ≤ v := by
  by_contra hc
  push_neg at hc
  have hB := Nat.div_add_mod B lac
  have hv := Nat.div_add_mod v lac
  have hq : v / lac < B / lac := by
    by_contra hq2
    push_neg at hq2
    have h3 := Nat.mul_le_mul_left lac hq2
    omega
  have h4 := Nat.mul_le_mul_left lac (Nat.succ_le_of_lt hq)
  rw [Nat.mul_succ] at h4
  omega

/-- C9: for `load_align_constraint > 0`, `new_segment_vaddr` is the smallest
value at least `last_vaddr` that is congruent to `new_segment_offset` modulo
`load_align_constraint`. -/
theorem new_segment_vaddr_least (o lv lac : Nat) (h : 0 < lac) :
    lv ≤ newSegmentVaddr o lv lac ∧
    newSegmentVaddr o lv lac % lac = o % lac ∧
    (∀ v, lv ≤ v → v % lac = o % lac → newSegmentVaddr o lv lac ≤ v) := by
  have hrlt : o % lac < lac := Nat.mod_lt o h
  have hslt : lv % lac < lac := Nat.mod_lt lv h
  have hdm := Nat.div_add_mod lv lac
  unfold newSegmentVaddr
  dsimp only
  by_cases hgt : o % lac > lv % lac
  · rw [if_pos hgt]
    have hT : lv + (o % lac - lv % lac) = lac * (lv / lac) + o % lac := by omega
    refine ⟨by omega, ?_, ?_⟩
    · rw [hT, Nat.mul_add_mod]
      exact Nat.mod_eq_of_lt hrlt
    · intro v hlv hvm
      refine le_of_mod_eq_of_lt_add lac _ v h ?_ (by omega)
      rw [hT, Nat.mul_add_mod, Nat.mod_eq_of_lt hrlt, hvm]
  · rw [if_neg hgt]
    by_cases hlt2 : lv % lac > o % lac
    · rw [if_pos hlt2]
      have hT : lv + ((o % lac + lac) - lv % lac) = lac * (lv / lac + 1) + o % lac := by
        have h9 : lac * (lv / lac + 1) = lac * (lv / lac) + lac := by
          rw [Nat.mul_add, Nat.mul_one]
        omega
      refine ⟨by omega, ?_, ?_⟩
      · rw [hT, Nat.mul_add_mod]
        exact Nat.mod_eq_of_lt hrlt
      · intro v hlv hvm
        refine le_of_mod_eq_of_lt_add lac _ v h ?_ (by omega)
        rw [hT, Nat.mul_add_mod, Nat.mod_eq_of_lt hrlt, hvm]
    · rw [if_neg hlt2]
      have heq : lv % lac = o % lac := by omega
      exact ⟨le_refl _, heq, fun v hlv _ => hlv⟩

theorem new_segment_vaddr_least_witness :
    0 < 4096 ∧
    (12288 ≤ newSegmentVaddr 5000 12288 4096 ∧
    newSegmentVaddr 5000 12288 4096 % 4096 = 5000 % 4096 ∧
    (∀ v, 12288 ≤ v → v % 4096 = 5000 % 4096 → newSegmentVaddr 5000 12288 4096 ≤ v)) :=
  ⟨by decide, new_segment_vaddr_least 5000 12288 4096 (by decide)⟩

/-- The scan loop over the dynamic table: number of entries before the `DT_NULL`
terminator (`dynamic_lib_count`). -/
def dynLibCount : List (Nat × Nat) → Nat
  | [] => 0
  | (tag, _) :: rest => if tag = 0 then 0 else dynLibCount rest + 1

/-- The scan loop's `shared_lib_index`: the last `DT_NEEDED` (tag 1) entry
before the terminator whose string (resolved through `dynstr` by `strAt`) is
the dummy shared library's basename. -/
def sharedLibIdx (strAt : Nat → Nat) (name : Nat) : List (Nat × Nat) → Option Nat
  | [] => none
  | (tag, v) :: rest =>
      if tag = 0 then none
      else
        match sharedLibIdx strAt name rest with
        | some i => some (i + 1)
        | none => if tag = 1 ∧ strAt v = name then some 0 else none

/-- The 16-byte-slot left shift of `preprocess` that excises entry `idx` from a
dynamic table with `cnt` entries: `std::ptr::copy` of `cnt - idx` slots from
slot `idx + 1` down to slot `idx`. -/
def exciseDyn (d : List (Nat × Nat)) (idx cnt : Nat) : List (Nat × Nat) :=
  d.take idx ++ (d.drop (idx + 1)).take (cnt - idx) ++ d.drop cnt

/-- Number of `DT_NEEDED` entries before the terminator. -/
def neededCount (d : List (Nat × Nat)) : Nat :=
  ((d.take (dynLibCount d)).filter (fun e => e.1 == 1)).length

theorem dynLibCount_spec : ∀ (d : List (Nat × Nat)),
    dynLibCount d ≤ d.length ∧
    (∀ i e, i < dynLibCount d → d.get? i = some e → e.1 ≠ 0) ∧
    (∀ e, d.get? (dynLibCount d) = some e → e.1 = 0) := by
  intro d
  induction d with
  | nil => exact ⟨Nat.le_refl 0, fun i e hi he => Option.noConfusion he, fun e he => Option.noConfusion he⟩
  | cons c rest ih =>
      obtain ⟨t, v⟩ := c
      by_cases ht : t = 0
      · refine ⟨?_, ?_, ?_⟩
        · show (if t = 0 then 0 else dynLibCount rest + 1) ≤ rest.length + 1
          rw [if_pos ht]
          omega
        · intro i e hi
          rw [show dynLibCount ((t, v) :: rest) =
            (if t = 0 then 0 else dynLibCount rest + 1) from rfl, if_pos ht] at hi
          omega
        · intro e he
          rw [show dynLibCount ((t, v) :: rest) =
            (if t = 0 then 0 else dynLibCount rest + 1) from rfl, if_pos ht] at he
          rw [List.get?_cons_zero] at he
          obtain rfl := Option.some.inj he
          exact ht
      · have hc : dynLibCount ((t, v) :: rest) = dynLibCount rest + 1 := by
          show (if t = 0 then 0 else dynLibCount rest + 1) = _
          rw [if_neg ht]
        refine ⟨?_, ?_, ?_⟩
        · rw [hc]
          show dynLibCount rest + 1 ≤ rest.length + 1
          omega
        · intro i e hi he
          rw [hc] at hi
          rcases i with _ | i2
          · rw [List.get?_cons_zero] at he
            obtain rfl := Option.some.inj he
            exact ht
          · rw [List.get?_cons_succ] at he
            exact ih.2.1 i2 e (by omega) he
        · intro e he
          rw [hc, List.get?_cons_succ] at he
          exact ih.2.2 e he

theorem sharedLibIdx_spec (strAt : Nat → Nat) (name : Nat) :
    ∀ (d : List (Nat × Nat)) (idx : Nat),
    sharedLibIdx strAt name d = some idx →
    idx < dynLibCount d ∧ ∃ v, d.get? idx = some (1, v) ∧ strAt v = name := by
  intro d
  induction d with
  | nil => exact fun idx h => Option.noConfusion h
  | cons c rest ih =>
      obtain ⟨t, v⟩ := c
      intro idx h
      rw [show sharedLibIdx strAt name ((t, v) :: rest) =
        (if t = 0 then none
         else
           match sharedLibIdx strAt name rest with
           | some i => some (i + 1)
           | none => if t = 1 ∧ strAt v = name then some 0 else none) from rfl] at h
      by_cases ht : t = 0
      · rw [if_pos ht] at h
        exact Option.noConfusion h
      rw [if_neg ht] at h
      have hc : dynLibCount ((t, v) :: rest) = dynLibCount rest + 1 := by
        show (if t = 0 then 0 else dynLibCount rest + 1) = _
        rw [if_neg ht]
      rcases hrec : sharedLibIdx strAt name rest with _ | i2
      · rw [hrec] at h
        dsimp only at h
        by_cases hm : t = 1 ∧ strAt v = name
        · rw [if_pos hm] at h
          obtain rfl := (Option.some.inj h).symm
          refine ⟨by rw [hc]; omega, v, ?_, hm.2⟩
          rw [List.get?_cons_zero, hm.1]
        · rw [if_neg hm] at h
          exact Option.noConfusion h
      · rw [hrec] at h
        dsimp only at h
        obtain rfl := (Option.some.inj h).symm
        obtain ⟨hlt, v2, hget, hname⟩ := ih i2 hrec
        exact ⟨by rw [hc]; omega, v2, by rw [List.get?_cons_succ]; exact hget, hname⟩

theorem forall_mem_take_of_get {α : Type} (l : List α) (n : Nat) (P : α → Prop)
    (h : ∀ i e, i < n → l.get? i = some e → P e) : ∀ e ∈ l.take n, P e := by
  intro e he
  obtain ⟨i, hi⟩ := List.mem_iff_get?.mp he
  have hlen : i < (l.take n).length := (List.get?_eq_some.mp hi).1
  have hin : i < n := by
    rw [List.length_take] at hlen
    omega
  rw [List.get?_take hin] at hi
  exact h i e hin hi

theorem dynLibCount_append_nonzero : ∀ (A B : List (Nat × Nat)),
    (∀ e ∈ A, e.1 ≠ 0) → dynLibCount (A ++ B) = A.length + dynLibCount B := by
  intro A
  induction A with
  | nil =>
      intro B _
      simp
  | cons c rest ih =>
      intro B hA
      obtain ⟨t, v⟩ := c
      have ht : t ≠ 0 := hA (t, v) (List.mem_cons_self _ _)
      show (if t = 0 then 0 else dynLibCount (rest ++ B) + 1) = rest.length + 1 + dynLibCount B
      rw [if_neg ht, ih B (fun e he => hA e (List.mem_cons_of_mem _ he))]
      omega

theorem dynLibCount_cons_zero (v : Nat) (B : List (Nat × Nat)) :
    dynLibCount ((0, v) :: B) = 0 := by
  show (if (0 : Nat) = 0 then 0 else dynLibCount B + 1) = 0
  rw [if_pos rfl]

/-- C7: excising the dummy shared library from the dynamic table removes
exactly one `DT_NEEDED` entry — the one whose string is the dummy library's
basename — by shifting the table left one 16-byte slot starting at
`shared_lib_index + 1`, preserving all other entries in order. -/
theorem excise_dyn_correct (strAt : Nat → Nat) (name : Nat) (d : List (Nat × Nat))
    (idx : Nat) (hidx : sharedLibIdx strAt name d = some idx)
    (hterm : dynLibCount d < d.length) :
    idx < dynLibCount d ∧
    (∃ v, d.get? idx = some (1, v) ∧ strAt v = name) ∧
    (exciseDyn d idx (dynLibCount d)).take (dynLibCount d - 1) =
      (d.take (dynLibCount d)).eraseIdx idx ∧
    dynLibCount (exciseDyn d idx (dynLibCount d)) = dynLibCount d - 1 ∧
    neededCount (exciseDyn d idx (dynLibCount d)) + 1 = neededCount d := by
  obtain ⟨hlt, v, hget, hname⟩ := sharedLibIdx_spec strAt name d idx hidx
  obtain ⟨hcle, hnz, hz⟩ := dynLibCount_spec d
  obtain ⟨t, ht⟩ : ∃ t, d.get? (dynLibCount d) = some t := by
    rcases hg : d.get? (dynLibCount d) with _ | t
    · rw [List.get?_eq_none] at hg
      omega
    · exact ⟨t, rfl⟩
  have ht0 : t.1 = 0 := hz t ht
  obtain ⟨tt, tv⟩ := t
  dsimp only at ht0
  subst ht0
  -- abbreviations
  have hAlen : (d.take idx).length = idx := by
    rw [List.length_take]
    omega
  have hMlen : ((d.drop (idx + 1)).take (dynLibCount d - 1 - idx)).length =
      dynLibCount d - 1 - idx := by
    rw [List.length_take, List.length_drop]
    omega
  have hMget : (d.drop (idx + 1)).get? (dynLibCount d - 1 - idx) = some (0, tv) := by
    rw [List.get?_drop, show idx + 1 + (dynLibCount d - 1 - idx) = dynLibCount d from
      by omega]
    exact ht
  have hMdec : d.drop (idx + 1) =
      (d.drop (idx + 1)).take (dynLibCount d - 1 - idx) ++ (0, tv) ::
        d.drop (dynLibCount d + 1) := by
    have hlen2 : dynLibCount d - 1 - idx < (d.drop (idx + 1)).length := by
      rw [List.length_drop]
      omega
    conv_lhs => rw [← List.take_append_drop (dynLibCount d - 1 - idx) (d.drop (idx + 1))]
    congr 1
    rw [List.drop_eq_getElem_cons hlen2]
    congr 1
    · have h3 := hMget
      rw [List.get?_eq_getElem?, List.getElem?_eq_getElem hlen2] at h3
      exact Option.some.inj h3
    · rw [List.drop_drop, show idx + 1 + (dynLibCount d - 1 - idx + 1) =
        dynLibCount d + 1 from by omega]
  have hdropcnt : d.drop (dynLibCount d) = (0, tv) :: d.drop (dynLibCount d + 1) := by
    have hlen3 : dynLibCount d < d.length := hterm
    rw [List.drop_eq_getElem_cons hlen3]
    congr 1
    · have h3 := ht
      rw [List.get?_eq_getElem?, List.getElem?_eq_getElem hlen3] at h3
      exact Option.some.inj h3
  have hddec : d = d.take idx ++ (1, v) :: d.drop (idx + 1) := by
    have hlen4 : idx < d.length := by omega
    conv_lhs => rw [← List.take_append_drop idx d]
    congr 1
    rw [List.drop_eq_getElem_cons hlen4]
    congr 1
    have h3 := hget
    rw [List.get?_eq_getElem?, List.getElem?_eq_getElem hlen4] at h3
    exact Option.some.inj h3
  have hAle : (d.take idx).length ≤ dynLibCount d := by
    rw [hAlen]
    omega
  have htake_cnt : d.take (dynLibCount d) =
      d.take idx ++ (1, v) :: (d.drop (idx + 1)).take (dynLibCount d - 1 - idx) := by
    have h0 := congrArg (List.take (dynLibCount d)) hddec
    rw [List.take_append_eq_append_take, List.take_all_of_le hAle, hAlen,
      show dynLibCount d - idx = (dynLibCount d - 1 - idx) + 1 from by omega,
      List.take_succ_cons] at h0
    exact h0
  have hexc : exciseDyn d idx (dynLibCount d) =
      d.take idx ++ ((d.drop (idx + 1)).take (dynLibCount d - 1 - idx) ++ [(0, tv)]) ++
        ((0, tv) :: d.drop (dynLibCount d + 1)) := by
    unfold exciseDyn
    rw [hdropcnt]
    congr 1
    congr 1
    conv_lhs => rw [hMdec]
    rw [List.take_append_eq_append_take,
      List.take_all_of_le (show ((d.drop (idx + 1)).take
        (dynLibCount d - 1 - idx)).length ≤ dynLibCount d - idx from by
          rw [hMlen]; omega),
      hMlen, show dynLibCount d - idx - (dynLibCount d - 1 - idx) = 1 from by omega,
      show ((0, tv) :: d.drop (dynLibCount d + 1)).take 1 = [(0, tv)] from rfl]
  have hAnz : ∀ e ∈ d.take idx, e.1 ≠ 0 :=
    forall_mem_take_of_get d idx _ (fun i e hi he => hnz i e (by omega) he)
  have hMnz : ∀ e ∈ (d.drop (idx + 1)).take (dynLibCount d - 1 - idx), e.1 ≠ 0 := by
    refine forall_mem_take_of_get _ _ _ ?_
    intro i e hi he
    rw [List.get?_drop] at he
    exact hnz (idx + 1 + i) e (by omega) he
  -- name the three pieces
  obtain ⟨A, hA⟩ : ∃ A, d.take idx = A := ⟨_, rfl⟩
  obtain ⟨M, hM⟩ : ∃ M, (d.drop (idx + 1)).take (dynLibCount d - 1 - idx) = M := ⟨_, rfl⟩
  obtain ⟨R, hR⟩ : ∃ R, d.drop (dynLibCount d + 1) = R := ⟨_, rfl⟩
  rw [hA] at hAlen htake_cnt hexc hAnz
  rw [hM] at hMlen htake_cnt hexc hMnz
  rw [hR] at hexc
  have hER : (d.take (dynLibCount d)).eraseIdx idx = A ++ M := by
    rw [htake_cnt, List.eraseIdx_eq_take_drop_succ, List.take_append_eq_append_take,
      List.take_all_of_le (show A.length ≤ idx from by omega), hAlen, Nat.sub_self,
      List.take_zero, List.append_nil, List.drop_append_eq_append_drop,
      List.drop_eq_nil_of_le (show A.length ≤ idx + 1 from by omega), hAlen,
      show idx + 1 - idx = 1 from by omega,
      show ((1, v) :: M).drop 1 = M from rfl, List.nil_append]
  have hlen5 : (A ++ (M ++ [(0, tv)])).length = dynLibCount d := by
    rw [List.length_append, List.length_append]
    simp only [List.length_cons, List.length_nil]
    omega
  have hTE : (exciseDyn d idx (dynLibCount d)).take (dynLibCount d - 1) = A ++ M := by
    rw [hexc, List.take_append_eq_append_take, hlen5,
      show dynLibCount d - 1 - dynLibCount d = 0 from by omega, List.take_zero,
      List.append_nil, List.take_append_eq_append_take,
      List.take_all_of_le (show A.length ≤ dynLibCount d - 1 from by omega), hAlen,
      List.take_append_eq_append_take,
      List.take_all_of_le (show M.length ≤ dynLibCount d - 1 - idx from by omega),
      hMlen, Nat.sub_self, List.take_zero, List.append_nil]
  have hABnz : ∀ e ∈ A ++ M, e.1 ≠ 0 := by
    intro e he
    rcases List.mem_append.mp he with h1 | h1
    · exact hAnz e h1
    · exact hMnz e h1
  have hre : A ++ (M ++ [(0, tv)]) ++ ((0, tv) :: R) =
      (A ++ M) ++ ((0, tv) :: (0, tv) :: R) := by
    simp [List.append_assoc]
  have hcnt2 : dynLibCount (exciseDyn d idx (dynLibCount d)) = dynLibCount d - 1 := by
    rw [hexc, hre, dynLibCount_append_nonzero (A ++ M) _ hABnz, dynLibCount_cons_zero,
      List.length_append, hAlen, hMlen]
    omega
  refine ⟨hlt, ⟨v, hget, hname⟩, hTE.trans hER.symm, hcnt2, ?_⟩
  unfold neededCount
  rw [hcnt2, hTE, htake_cnt]
  simp only [List.filter_append, List.filter_cons, beq_self_eq_true, eq_self_iff_true,
    if_true, List.length_append, List.length_cons]
  omega

theorem excise_dyn_correct_witness :
    (sharedLibIdx (fun x => x) 20 [(1, 10), (5, 0), (1, 20), (0, 0), (9, 9)] = some 2 ∧
      dynLibCount [(1, 10), (5, 0), (1, 20), (0, 0), (9, 9)] <
        ([(1, 10), (5, 0), (1, 20), (0, 0), (9, 9)] : List (Nat × Nat)).length) ∧
    (2 < dynLibCount [(1, 10), (5, 0), (1, 20), (0, 0), (9, 9)] ∧
    (∃ v, ([(1, 10), (5, 0), (1, 20), (0, 0), (9, 9)] : List (Nat × Nat)).get? 2 =
      some (1, v) ∧ (fun x => x) v = 20) ∧
    (exciseDyn [(1, 10), (5, 0), (1, 20), (0, 0), (9, 9)] 2
        (dynLibCount [(1, 10), (5, 0), (1, 20), (0, 0), (9, 9)])).take
        (dynLibCount [(1, 10), (5, 0), (1, 20), (0, 0), (9, 9)] - 1) =
      (([(1, 10), (5, 0), (1, 20), (0, 0), (9, 9)] : List (Nat × Nat)).take
        (dynLibCount [(1, 10), (5, 0), (1, 20), (0, 0), (9, 9)])).eraseIdx 2 ∧
    dynLibCount (exciseDyn [(1, 10), (5, 0), (1, 20), (0, 0), (9, 9)] 2
        (dynLibCount [(1, 10), (5, 0), (1, 20), (0, 0), (9, 9)])) =
      dynLibCount [(1, 10), (5, 0), (1, 20), (0, 0), (9, 9)] - 1 ∧
    neededCount (exciseDyn [(1, 10), (5, 0), (1, 20), (0, 0), (9, 9)] 2
        (dynLibCount [(1, 10), (5, 0), (1, 20), (0, 0), (9, 9)])) + 1 =
      neededCount [(1, 10), (5, 0), (1, 20), (0, 0), (9, 9)]) :=
  ⟨⟨by decide, by decide⟩,
    excise_dyn_correct (fun x => x) 20 [(1, 10), (5, 0), (1, 20), (0, 0), (9, 9)] 2
      (by decide) (by decide)⟩

/-- The padding-fallback copy of `preprocess`: bytes in
`[ph_end + added_data, first_load_aligned_size)` of the output come from
`added_data` bytes earlier in the host, and bytes at or after
`first_load_aligned_size` are unchanged (the region below
`ph_end + added_data` holds the rewritten program headers and is not modelled
here). -/
def fallbackShift (exec : Nat → Nat) (phEnd added flas : Nat) : Nat → Nat :=
  fun x => if phEnd + added ≤ x ∧ x < flas then exec (x - added) else exec x

/-- One call-site surgery of `surgery`: write the little-endian i32 of
`virt_offset - s.virtual_offset` at `s.file_offset`, both offsets taken from
the metadata recorded against the original host executable. -/
def surgeryWrite (m : Nat → Nat) (fileOffset : Nat) (virtOffset : Int)
    (virtualOffset : Nat) : Nat → Nat :=
  memWriteBytes m fileOffset (toLeBytes4 (i32ToU32 (virtOffset - (virtualOffset : Nat))))

/-- C1 is false in the code: in padding-fallback mode the call instruction
moves `added_data` bytes up in the file, but the recorded surgery still
patches the stale offset with the unshifted displacement.  Concretely, with
`ph_end = 288`, `added_data = 56`, `first_load_aligned_size = 4096`, a host
call at file offset `0x400` (displacement bytes `10 20 30 00` at `0x401`,
`next_ip = 0x405`) and `final_virt = 0x5000`: the displacement bytes of the
relocated call (at `0x401 + 56`) still decode to the original `0x302010`,
not the claimed `0x5000 - (0x405 + 56) = 0x4BC3`. -/
theorem fallback_surgery_stale_displacement :
    decodeI32 (read4LE
      (surgeryWrite
        (fallbackShift
          (fun x => if x = 1025 then 16 else if x = 1026 then 32 else
            if x = 1027 then 48 else if x = 1028 then 0 else 0)
          288 56 4096)
        1025 20480 1029)
      (1025 + 56)) = 3153936 ∧
    (20480 : Int) - ((1029 : Nat) + 56) = 19395 ∧
    (3153936 : Int) ≠ 19395 := by
  refine ⟨by decide, by decide, by decide⟩
